import Mathlib

/-!
# Trace parser (lib/trace_parse/trace.cpp)

A shallow embedding of the per-core ring reconstruction and merge
(`populate_events`, `init`), of the ordered entry map keyed by
`compare_entry_key`, of the object tracker and of the argument reassembly
(`get_next_buffer`, `build_arg`, `next_entry`).

Conventions of the embedding.
* A pointer to a ring slot is a pair (position of the history, slot index).
* `std::map` is a list of key/value pairs kept sorted by the comparator;
  `operator[]` is insert-or-assign, `find` searches for an equivalent key.
* Fallible steps return `Option`: `none` stands for a read outside the mapped
  histories or for a loop that does not come to an end.
* The `int` locals of `populate_events` are natural numbers: ring capacities
  are taken to fit the type `int`.
-/

namespace TraceParse

/-! ## Definitions -/

/-- Constants and layout facts of `spdk/trace.h`, which is not part of the
sources at hand; they are parameters of the development. -/
structure Layout where
  /-- the reserved tracepoint id that marks a slot that is not an event -/
  SPDK_TRACE_MAX_TPOINT_ID : Nat
  /-- the object type of tracepoints that carry no object -/
  OBJECT_NONE : Nat
  /-- `sizeof(buffer->data)` of `spdk_trace_entry_buffer` -/
  data_size : Nat
  /-- `offsetof(spdk_trace_entry, args) - offsetof(spdk_trace_entry_buffer, data)` -/
  args_offset : Nat
  /-- `sizeof(pe->args[0])` of `spdk_trace_parser_entry` -/
  arg_capacity : Nat
deriving DecidableEq, Repr

/-- One ring slot.  The same memory is read as `spdk_trace_entry`
(`tpoint_id`, `tsc`, `object_id`, and the inline arguments, which are the
bytes of `data` from `args_offset` on) and as `spdk_trace_entry_buffer`
(`tpoint_id`, `tsc`, `data`). -/
structure spdk_trace_entry where
  tpoint_id : Nat
  tsc : Nat
  object_id : Nat
  data : List Nat
deriving DecidableEq, Repr, Inhabited

/-- One argument descriptor of a tracepoint. -/
structure spdk_trace_argument where
  size : Nat
deriving DecidableEq, Repr

/-- A tracepoint descriptor; `args` lists the `num_args` declared arguments. -/
structure spdk_trace_tpoint where
  object_type : Nat
  new_object : Bool
  args : List spdk_trace_argument
deriving DecidableEq, Repr

/-- The header table `flags.tpoint[]`. -/
structure spdk_trace_flags where
  tpoint : Nat → spdk_trace_tpoint

/-- One per-core history; `num_entries` is the length of `entries`. -/
structure spdk_trace_history where
  lcore : Nat
  entries : List spdk_trace_entry
deriving DecidableEq, Repr

/-- The mapped file: the header and the per-core histories. -/
structure spdk_trace_histories where
  flags : spdk_trace_flags
  per_lcore : List spdk_trace_history

/-- A pointer into the mapped histories: `&history->entries[idx]` where
`history` is the history at position `hist`. -/
structure entry_ptr where
  hist : Nat
  idx : Nat
deriving DecidableEq, Repr

/-- The key of the merged map; `lcore` is a `uint16_t`. -/
structure entry_key where
  lcore : Nat
  tsc : Nat
deriving DecidableEq, Repr

/-- The comparator `compare_entry_key::operator()`. -/
def compare_entry_key (first second : entry_key) : Bool :=
  if first.tsc = second.tsc then
    decide (first.lcore < second.lcore)
  else
    decide (first.tsc < second.tsc)

/-- The comparator of `std::map<uint64_t, uint64_t>`. -/
def compare_u64 (a b : Nat) : Bool := decide (a < b)

/-- `m[k] = v` on a `std::map` with comparator `lt`: the value of an
equivalent key is replaced (the stored key stays), otherwise the pair is
inserted at its place in the order. -/
def map_assign {K V : Type} (lt : K → K → Bool) (k : K) (v : V) :
    List (K × V) → List (K × V)
  | [] => [(k, v)]
  | (k1, v1) :: rest =>
    if lt k k1 then (k, v) :: (k1, v1) :: rest
    else if lt k1 k then (k1, v1) :: map_assign lt k v rest
    else (k1, v) :: rest

/-- `m.find(k)` on a `std::map` with comparator `lt`: the value stored under
a key equivalent to `k`, or `none` for `m.end()`. -/
def map_find {K V : Type} (lt : K → K → Bool) (k : K) : List (K × V) → Option V
  | [] => none
  | (k1, v1) :: rest =>
    if !lt k k1 && !lt k1 k then some v1 else map_find lt k rest

/-- Reading `m[k]` on a `std::map<uint64_t, uint64_t>`: a missing key is
first inserted with the value zero. -/
def map_subscript (k : Nat) (m : List (Nat × Nat)) : Nat × List (Nat × Nat) :=
  match map_find compare_u64 k m with
  | some v => (v, m)
  | none => (0, map_assign compare_u64 k 0 m)

abbrev entry_map := List (entry_key × entry_ptr)

/-- The record `object_stats`. -/
structure object_stats where
  index : List (Nat × Nat)
  start : List (Nat × Nat)
  counter : Nat
deriving DecidableEq, Repr

/-- The record `struct spdk_trace_parser`, here `parser_state` (the file
descriptor and the size of the mapping are left out); `iter` is the position
of the iterator in `entries`, the length of `entries` standing for
`entries.end()`. -/
structure parser_state where
  histories : spdk_trace_histories
  tsc_offset : Nat
  entries : entry_map
  iter : Nat
  stats : Nat → object_stats

/-- The record `spdk_trace_parser_entry`; `args` holds the byte slots. -/
structure spdk_trace_parser_entry where
  lcore : Nat
  entry : entry_ptr
  object_index : Nat
  object_start : Nat
  args : List (List Nat)
deriving DecidableEq, Repr

/-- The value of `UINT64_MAX`. -/
def UINT64_MAX : Nat := 2 ^ 64 - 1

/-- A slot that was never written. -/
def zero_entry : spdk_trace_entry := ⟨0, 0, 0, []⟩

/-- The slot `e[i]` for an index inside the ring. -/
def slot_at (e : List spdk_trace_entry) (i : Nat) : spdk_trace_entry :=
  e.getD i zero_entry

/-- Modelled from the spec: `spdk_get_per_lcore_history` of `spdk/trace.h`
returns the history of the given core, the histories following the header
in core order; `none` is the null pointer. -/
def spdk_get_per_lcore_history (hs : spdk_trace_histories) (lcore : Nat) :
    Option spdk_trace_history :=
  hs.per_lcore[lcore]?

/-- Reading through a slot pointer. -/
def deref (hs : spdk_trace_histories) (p : entry_ptr) : Option spdk_trace_entry :=
  match hs.per_lcore[p.hist]? with
  | none => none
  | some h => h.entries[p.idx]?

/-- The backward scan `while (e[num_entries_filled - 1].tsc == 0)
num_entries_filled--;` started at the argument; `none` when the scan reads
below index zero or above the ring. -/
def count_filled (e : List spdk_trace_entry) : Nat → Option Nat
  | 0 => none
  | n + 1 =>
    match e[n]? with
    | none => none
    | some s => if s.tsc = 0 then count_filled e n else some (n + 1)

/-- One round of the loop that looks for the oldest and the newest slot. -/
def first_last_step (e : List spdk_trace_entry) (fl : Nat × Nat) (i : Nat) : Nat × Nat :=
  (if (slot_at e i).tsc < (slot_at e fl.1).tsc then i else fl.1,
   if (slot_at e i).tsc > (slot_at e fl.2).tsc then i else fl.2)

/-- The loop `first = last = 0; for (i = 1; i < num_entries; i++) ...`. -/
def find_first_last (e : List spdk_trace_entry) (num_entries : Nat) : Nat × Nat :=
  (List.range' 1 (num_entries - 1)).foldl (first_last_step e) (0, 0)

/-- The body `if (e[i].tpoint_id != SPDK_TRACE_MAX_TPOINT_ID) ...` of the
insertion loop: the slot `i` is stored under its key unless it carries the
reserved tracepoint id.  `hist` is the position of the history, for `&e[i]`. -/
def insert_slot (L : Layout) (lcore hist : Nat) (e : List spdk_trace_entry)
    (m : entry_map) (i : Nat) : entry_map :=
  if (slot_at e i).tpoint_id ≠ L.SPDK_TRACE_MAX_TPOINT_ID then
    map_assign compare_entry_key ⟨lcore % 2 ^ 16, (slot_at e i).tsc⟩ ⟨hist, i⟩ m
  else m

/-- The insertion loop `i = first; while (1) ...` of `populate_events`,
with the list of the visited indices as a ghost result.  The first numeric
argument bounds the number of rounds. -/
def insert_loop (L : Layout) (lcore hist : Nat) (e : List spdk_trace_entry)
    (last num_entries_filled : Nat) : Nat → Nat → entry_map → Option (entry_map × List Nat)
  | 0, _, _ => none
  | fuel + 1, i, m =>
    if i = last then some (insert_slot L lcore hist e m i, [i])
    else
      match insert_loop L lcore hist e last num_entries_filled fuel
          (if i + 1 = num_entries_filled then 0 else i + 1) (insert_slot L lcore hist e m i) with
      | none => none
      | some (m2, visited) => some (m2, i :: visited)

/-- The locals of one run of `populate_events`, kept as a ghost record. -/
structure populate_trace where
  num_entries_filled : Nat
  first : Nat
  last : Nat
  visited : List Nat
deriving DecidableEq, Repr

/-- The choice of `first` and `last` in `populate_events`. -/
def choose_first_last (e : List spdk_trace_entry) (num_entries num_entries_filled : Nat) :
    Nat × Nat :=
  if num_entries = num_entries_filled then find_first_last e num_entries
  else (0, num_entries_filled - 1)

/-- The function `populate_events`, with its locals as a ghost result;
`hist` is the position of `history` among the histories. -/
def populate_events_traced (L : Layout) (parser : parser_state) (hist : Nat)
    (history : spdk_trace_history) (num_entries : Nat) :
    Option (parser_state × populate_trace) :=
  let e := history.entries
  match count_filled e num_entries with
  | none => none
  | some num_entries_filled =>
    let fl := choose_first_last e num_entries num_entries_filled
    let tsc_offset :=
      if (slot_at e fl.1).tsc > parser.tsc_offset then (slot_at e fl.1).tsc
      else parser.tsc_offset
    match insert_loop L history.lcore hist e fl.2 num_entries_filled num_entries_filled
        fl.1 parser.entries with
    | none => none
    | some (m, visited) =>
      some ({ parser with tsc_offset := tsc_offset, entries := m },
            ⟨num_entries_filled, fl.1, fl.2, visited⟩)

/-- The function `populate_events`. -/
def populate_events (L : Layout) (parser : parser_state) (hist : Nat)
    (history : spdk_trace_history) (num_entries : Nat) : Option parser_state :=
  (populate_events_traced L parser hist history num_entries).map Prod.fst

/-- The parser made by `new parser_state()` once the file is mapped. -/
def fresh_state (hs : spdk_trace_histories) : parser_state :=
  { histories := hs, tsc_offset := 0, entries := [], iter := 0,
    stats := fun _ => ⟨[], [], 0⟩ }

/-- The guard of `init` in front of `populate_events`: the history has
slots and the first of them was written. -/
def history_selected (h : spdk_trace_history) : Bool :=
  !(h.entries.length = 0 || (slot_at h.entries 0).tsc = 0)

/-- One round of the loop of `init` over the cores. -/
def init_core (L : Layout) (parser : parser_state) (i : Nat) : Option parser_state :=
  match spdk_get_per_lcore_history parser.histories i with
  | none => none
  | some history =>
    if history_selected history then
      populate_events L parser i history history.entries.length
    else some parser

/-- Running `init_core` over a list of cores, in order. -/
def init_cores (L : Layout) : List Nat → parser_state → Option parser_state
  | [], parser => some parser
  | i :: rest, parser =>
    match init_core L parser i with
    | none => none
    | some parser1 => init_cores L rest parser1

/-- The merge part of `init`: `lcore = none` selects all cores
(`opts->lcore == SPDK_TRACE_MAX_LCORE`, the number of histories),
`lcore = some c` the single core `c`; the iterator is set to `begin()`. -/
def init (L : Layout) (hs : spdk_trace_histories) (lcore : Option Nat) :
    Option parser_state :=
  let cores :=
    match lcore with
    | none => List.range hs.per_lcore.length
    | some c => [c]
  match init_cores L cores (fresh_state hs) with
  | none => none
  | some parser => some { parser with iter := 0 }

/-- The record `argument_context` (the parser is passed next to it). -/
structure argument_context where
  entry : entry_ptr
  buffer : entry_ptr
  lcore : Nat
  offset : Nat
deriving DecidableEq, Repr

/-- The constructor of `argument_context`. -/
def argument_context.init (L : Layout) (entry : entry_ptr) (lcore : Nat) : argument_context :=
  { entry := entry, buffer := entry, lcore := lcore, offset := L.args_offset }

/-- The function `get_next_buffer`; `none` when the history is missing
(the assertion fails). -/
def get_next_buffer (hs : spdk_trace_histories) (buf : entry_ptr) (lcore : Nat) :
    Option entry_ptr :=
  match spdk_get_per_lcore_history hs lcore with
  | none => none
  | some history =>
    if history.entries.length ≠ 0 ∧ buf = ⟨lcore, history.entries.length - 1⟩ then
      some ⟨lcore, 0⟩
    else
      some ⟨buf.hist, buf.idx + 1⟩

/-- The call `memcpy(&dst[doff], &src[soff], n)` on byte lists: the bytes
of `dst` at `doff ≤ j < doff + n` are replaced, every other byte stays. -/
def copy_bytes (dst : List Nat) (doff : Nat) (src : List Nat) (soff n : Nat) : List Nat :=
  dst.enum.map fun jb =>
    if doff ≤ jb.1 ∧ jb.1 < doff + n then src.getD (soff + (jb.1 - doff)) 0 else jb.2

/-- The loop `while (argoff < arg->size)` of `build_arg`; the first numeric
argument bounds the number of rounds, `entry_tsc` is `entry->tsc`.  The
result is the returned flag, the argument context and the parsed entry.
The offset never exceeds `data_size`, so the subtraction is exact. -/
def build_arg_loop (L : Layout) (hs : spdk_trace_histories) (entry_tsc : Nat)
    (size argid : Nat) :
    Nat → Nat → argument_context → spdk_trace_parser_entry →
      Option (Bool × argument_context × spdk_trace_parser_entry)
  | 0, argoff, argctx, pe => if argoff < size then none else some (true, argctx, pe)
  | fuel + 1, argoff, argctx, pe =>
    if argoff < size then
      let advance : Option (Option argument_context) :=
        if argctx.offset = L.data_size then
          match get_next_buffer hs argctx.buffer argctx.lcore with
          | none => none
          | some buffer =>
            match deref hs buffer with
            | none => none
            | some b =>
              if b.tpoint_id ≠ L.SPDK_TRACE_MAX_TPOINT_ID ∨ b.tsc ≠ entry_tsc then
                some none
              else
                some (some { argctx with offset := 0, buffer := buffer })
        else some (some argctx)
      match advance with
      | none => none
      | some none => some (false, argctx, pe)
      | some (some ctx1) =>
        match deref hs ctx1.buffer with
        | none => none
        | some b =>
          let curlen := min (L.data_size - ctx1.offset) (size - argoff)
          let slot := copy_bytes (pe.args.getD argid []) argoff b.data ctx1.offset
            (min curlen (L.arg_capacity - argoff))
          let pe1 :=
            if argoff < L.arg_capacity then { pe with args := pe.args.set argid slot }
            else pe
          build_arg_loop L hs entry_tsc size argid fuel (argoff + curlen)
            { ctx1 with offset := ctx1.offset + curlen } pe1
    else some (true, argctx, pe)

/-- The function `build_arg`. -/
def build_arg (L : Layout) (hs : spdk_trace_histories) (argctx : argument_context)
    (arg : spdk_trace_argument) (argid : Nat) (pe : spdk_trace_parser_entry) :
    Option (Bool × argument_context × spdk_trace_parser_entry) :=
  match deref hs argctx.entry with
  | none => none
  | some entry => build_arg_loop L hs entry.tsc arg.size argid arg.size 0 argctx pe

/-- The loop `for (i = 0; i < tpoint->num_args; ++i)` of `next_entry`, run
from argument `i` on over the arguments still to be built. -/
def build_args (L : Layout) (hs : spdk_trace_histories) :
    List spdk_trace_argument → Nat → argument_context → spdk_trace_parser_entry →
      Option (Bool × argument_context × spdk_trace_parser_entry)
  | [], _, argctx, pe => some (true, argctx, pe)
  | arg :: rest, i, argctx, pe =>
    match build_arg L hs argctx arg i pe with
    | none => none
    | some (false, argctx1, pe1) => some (false, argctx1, pe1)
    | some (true, argctx1, pe1) => build_args L hs rest (i + 1) argctx1 pe1

/-- The statement `if (tpoint->new_object) ...` of `next_entry`. -/
def track_new_object (tpoint : spdk_trace_tpoint) (entry : spdk_trace_entry)
    (stats : object_stats) : object_stats :=
  if tpoint.new_object then
    { index := map_assign compare_u64 entry.object_id stats.counter stats.index,
      start := map_assign compare_u64 entry.object_id entry.tsc stats.start,
      counter := (stats.counter + 1) % 2 ^ 64 }
  else stats

/-- The statement `if (tpoint->object_type != OBJECT_NONE) ...` of
`next_entry`: the object stats after the lookup and the two fields of the
parsed entry. -/
def lookup_object (L : Layout) (tpoint : spdk_trace_tpoint) (entry : spdk_trace_entry)
    (stats : object_stats) (pe : spdk_trace_parser_entry) :
    object_stats × spdk_trace_parser_entry :=
  if tpoint.object_type ≠ L.OBJECT_NONE then
    match map_find compare_u64 entry.object_id stats.start with
    | some _ =>
      let r := map_subscript entry.object_id stats.index
      let s := map_subscript entry.object_id stats.start
      ({ stats with index := r.2, start := s.2 },
       { pe with object_index := r.1, object_start := s.1 })
    | none =>
      (stats, { pe with object_index := UINT64_MAX, object_start := UINT64_MAX })
  else (stats, pe)

/-- The function `next_entry`: the returned flag, the parser and the parsed
entry after the call. -/
def next_entry (L : Layout) (parser : parser_state) (pe : spdk_trace_parser_entry) :
    Option (Bool × parser_state × spdk_trace_parser_entry) :=
  match parser.entries[parser.iter]? with
  | none => some (false, parser, pe)
  | some (key, ptr) =>
    match deref parser.histories ptr with
    | none => none
    | some entry =>
      let pe1 := { pe with lcore := key.lcore, entry := ptr }
      let tpoint := parser.histories.flags.tpoint entry.tpoint_id
      let stats1 := track_new_object tpoint entry (parser.stats tpoint.object_type)
      let r := lookup_object L tpoint entry stats1 pe1
      let parser1 : parser_state :=
        { parser with stats := Function.update parser.stats tpoint.object_type r.1 }
      match build_args L parser.histories tpoint.args 0
          (argument_context.init L ptr pe1.lcore) r.2 with
      | none => none
      | some (false, _, pe2) => some (false, parser1, pe2)
      | some (true, _, pe2) => some (true, { parser1 with iter := parser1.iter + 1 }, pe2)

/-- Calling `next_entry` again and again, at most the given number of
times, each call on the record the call before left behind: the parsed
entries of the calls that returned true, up to the first call that did
not, and the parser after the last of these calls. -/
def next_entries (L : Layout) :
    Nat → parser_state → spdk_trace_parser_entry →
      List spdk_trace_parser_entry × parser_state
  | 0, parser, _ => ([], parser)
  | n + 1, parser, pe =>
    match next_entry L parser pe with
    | some (true, parser1, pe1) =>
      ((next_entries L n parser1 pe1).1.cons pe1, (next_entries L n parser1 pe1).2)
    | _ => ([], parser)

/-- The key under which a parsed entry was yielded: the time stamp of its
entry and its core. -/
def yielded_key (hs : spdk_trace_histories) (pe : spdk_trace_parser_entry) : Option entry_key :=
  (deref hs pe.entry).map fun e => ⟨pe.lcore, e.tsc⟩

/-- Modelled from the spec: the trace producer, which is not part of the
sources at hand, writes its entries in order into the ring, wrapping at the
capacity N.  The entries `ws` are written from write position `j` on. -/
def producer_write (N : Nat) :
    List spdk_trace_entry → Nat → List spdk_trace_entry → List spdk_trace_entry
  | [], _, ring => ring
  | w :: ws, j, ring => producer_write N ws (j + 1) (ring.set (j % N) w)

/-- A ring whose time stamps are nondecreasing in the write order of the
producer: it is what the producer leaves behind when it writes entries with
nonzero, nondecreasing time stamps, from slot zero on, into a ring of
never-written slots (time stamp zero). -/
def write_ordered (e : List spdk_trace_entry) : Prop :=
  ∃ blank ws : List spdk_trace_entry, blank.length = e.length ∧
    (∀ s ∈ blank, s.tsc = 0) ∧ (∀ w ∈ ws, w.tsc ≠ 0) ∧
    (ws.map fun w => w.tsc).Pairwise (· ≤ ·) ∧
    e = producer_write e.length ws 0 blank

/-- The oldest live time stamp of a ring: the smallest time stamp among the
filled slots, those with a nonzero time stamp (zero for a ring without
filled slots). -/
def oldest_live (e : List spdk_trace_entry) : Nat :=
  match (e.filter fun s => decide (s.tsc ≠ 0)).map fun s => s.tsc with
  | [] => 0
  | t :: ts => ts.foldl min t

/-- The oldest live time stamps of the cores `init` runs `populate_events`
on, in the order of the list of cores. -/
def selected_oldest (hs : spdk_trace_histories) (cores : List Nat) : List Nat :=
  cores.filterMap fun c =>
    match hs.per_lcore[c]? with
    | some h => if history_selected h then some (oldest_live h.entries) else none
    | none => none

/-- The yielded entry is an event of a tracepoint with object type `t` and
`new_object` set (a creation event of type `t`). -/
def creates_object (hs : spdk_trace_histories) (t : Nat) (pe : spdk_trace_parser_entry) : Bool :=
  match deref hs pe.entry with
  | some e =>
    decide ((hs.flags.tpoint e.tpoint_id).object_type = t) &&
      (hs.flags.tpoint e.tpoint_id).new_object
  | none => false

/-- The yielded entry is a creation event of type `t` for the object `x`. -/
def creates (hs : spdk_trace_histories) (t x : Nat) (pe : spdk_trace_parser_entry) : Prop :=
  ∃ e, deref hs pe.entry = some e ∧ (hs.flags.tpoint e.tpoint_id).object_type = t ∧
    (hs.flags.tpoint e.tpoint_id).new_object = true ∧ e.object_id = x

/-- The yielded entry is an event of a tracepoint with object type `t` and
`new_object` unset that carries the object id `x`. -/
def refers (hs : spdk_trace_histories) (t x : Nat) (pe : spdk_trace_parser_entry) : Prop :=
  ∃ e, deref hs pe.entry = some e ∧ (hs.flags.tpoint e.tpoint_id).object_type = t ∧
    (hs.flags.tpoint e.tpoint_id).new_object = false ∧ e.object_id = x

instance creates_decidable (hs : spdk_trace_histories) (t x : Nat)
    (pe : spdk_trace_parser_entry) : Decidable (creates hs t x pe) :=
  match h : deref hs pe.entry with
  | none => isFalse (fun ⟨_, he, _⟩ => by rw [h] at he; cases he)
  | some e =>
    if hc : (hs.flags.tpoint e.tpoint_id).object_type = t ∧
        (hs.flags.tpoint e.tpoint_id).new_object = true ∧ e.object_id = x then
      isTrue ⟨e, h, hc⟩
    else
      isFalse (fun ⟨e1, he1, hc1⟩ => by
        rw [h] at he1
        cases he1
        exact hc hc1)

instance refers_decidable (hs : spdk_trace_histories) (t x : Nat)
    (pe : spdk_trace_parser_entry) : Decidable (refers hs t x pe) :=
  match h : deref hs pe.entry with
  | none => isFalse (fun ⟨_, he, _⟩ => by rw [h] at he; cases he)
  | some e =>
    if hc : (hs.flags.tpoint e.tpoint_id).object_type = t ∧
        (hs.flags.tpoint e.tpoint_id).new_object = false ∧ e.object_id = x then
      isTrue ⟨e, h, hc⟩
    else
      isFalse (fun ⟨e1, he1, hc1⟩ => by
        rw [h] at he1
        cases he1
        exact hc hc1)

/-- The object stats after the two object statements of `next_entry`. -/
def step_stats (L : Layout) (tpoint : spdk_trace_tpoint) (entry : spdk_trace_entry)
    (stats : object_stats) : object_stats :=
  (lookup_object L tpoint entry (track_new_object tpoint entry stats) ⟨0, ⟨0, 0⟩, 0, 0, []⟩).1

/-- The parsers the merge step can produce for the histories `hs`: the
fresh parser, and every parser a terminating run of `populate_events` on a
history of `hs` makes out of such a parser. -/
inductive merged (L : Layout) (hs : spdk_trace_histories) : parser_state → Prop
  | fresh : merged L hs (fresh_state hs)
  | populate (p p1 : parser_state) (hist : Nat) (h : spdk_trace_history) (n : Nat) :
      merged L hs p → hs.per_lcore[hist]? = some h →
      populate_events L p hist h n = some p1 → merged L hs p1

/-! ### Example data -/

/-- An instance of the layout: reserved tracepoint id 1024, object type
zero for "none", 22 payload bytes per buffer of which the last 8 are the
inline arguments of an entry, argument slots of 8 bytes. -/
def example_layout : Layout := ⟨1024, 0, 22, 14, 8⟩

/-- An event slot without payload. -/
def event_slot (tpoint_id tsc object_id : Nat) : spdk_trace_entry :=
  ⟨tpoint_id, tsc, object_id, List.replicate 22 0⟩

/-- A continuation slot without payload. -/
def spill_slot (tsc : Nat) : spdk_trace_entry :=
  ⟨1024, tsc, 0, List.replicate 22 0⟩

/-- A tracepoint table: tracepoint 1 creates an object of type 1,
tracepoint 2 refers to an object of type 1, every other tracepoint has no
object; no tracepoint has arguments. -/
def example_flags : spdk_trace_flags :=
  ⟨fun i => if i = 1 then ⟨1, true, []⟩ else if i = 2 then ⟨1, false, []⟩ else ⟨0, false, []⟩⟩

/-- Two cores, interleaved: core 0 holds the time stamps 10 and 30, core 1
the time stamps 20 and 40. -/
def two_cores : spdk_trace_histories :=
  ⟨example_flags,
    [⟨0, [event_slot 3 10 0, event_slot 3 30 0]⟩, ⟨1, [event_slot 3 20 0, event_slot 3 40 0]⟩]⟩

/-- The parser `init` builds for `two_cores`. -/
def two_cores_state : parser_state :=
  { histories := two_cores, tsc_offset := 20,
    entries := [(⟨0, 10⟩, ⟨0, 0⟩), (⟨1, 20⟩, ⟨1, 0⟩), (⟨0, 30⟩, ⟨0, 1⟩), (⟨1, 40⟩, ⟨1, 1⟩)],
    iter := 0, stats := fun _ => ⟨[], [], 0⟩ }

/-- A parsed entry record before the first call. -/
def blank_entry : spdk_trace_parser_entry := ⟨0, ⟨0, 0⟩, 0, 0, List.replicate 5 (List.replicate 8 0)⟩

/-- A full ring of three slots in which the two newest slots share the
largest time stamp. -/
def tie_history : spdk_trace_history :=
  ⟨0, [event_slot 3 10 0, event_slot 3 20 0, event_slot 3 20 0]⟩

/-- A ring of eight slots of which the first three were written. -/
def unwrapped_history : spdk_trace_history :=
  ⟨0, [event_slot 3 10 0, event_slot 3 20 0, event_slot 3 30 0, zero_entry, zero_entry,
    zero_entry, zero_entry, zero_entry]⟩

/-- A wrapped ring of four slots, the oldest slot at index 3. -/
def wrapped_history : spdk_trace_history :=
  ⟨0, [event_slot 3 50 0, event_slot 3 60 0, event_slot 3 70 0, event_slot 3 40 0]⟩

/-- A file that holds the one history given. -/
def single_core (h : spdk_trace_history) : spdk_trace_histories := ⟨example_flags, [h]⟩

/-- A tracepoint table in which tracepoint 4 has one argument of 30 bytes,
8 inline and 22 in one continuation slot, and no other tracepoint has
arguments or objects. -/
def spilling_flags : spdk_trace_flags :=
  ⟨fun i => if i = 4 then ⟨0, false, [⟨30⟩]⟩ else ⟨0, false, []⟩⟩

/-- What a producer wrote into a ring of four slots: three early events,
then the event of time 10 with its continuation slot, then the events of
time 20 and 30. -/
def lost_event_writes : List spdk_trace_entry :=
  [event_slot 3 1 0, event_slot 3 2 0, event_slot 3 3 0, event_slot 4 10 0, spill_slot 10,
    event_slot 3 20 0, event_slot 3 30 0]

/-- The ring these writes leave: the event of time 10 sits in the last
slot and its continuation slot wrapped to slot zero. -/
def lost_event_history : spdk_trace_history :=
  ⟨0, [spill_slot 10, event_slot 3 20 0, event_slot 3 30 0, event_slot 4 10 0]⟩

/-- The number of live slots of a ring: nonzero time stamp and a tracepoint
id that is not the reserved one. -/
def live_slots (L : Layout) (e : List spdk_trace_entry) : Nat :=
  (e.filter fun s => decide (s.tsc ≠ 0 ∧ s.tpoint_id ≠ L.SPDK_TRACE_MAX_TPOINT_ID)).length

/-- The parser `init` builds for the ring of `lost_event_history`. -/
def lost_event_state : parser_state :=
  { histories := ⟨spilling_flags, [lost_event_history]⟩, tsc_offset := 10,
    entries := [(⟨0, 20⟩, ⟨0, 1⟩), (⟨0, 30⟩, ⟨0, 2⟩)],
    iter := 0, stats := fun _ => ⟨[], [], 0⟩ }

/-- Object lifecycle: objects 100 and 200 of type 1 are created at the
times 5 and 15 and referred to at the times 25 and 35; at the time 45 the
object 300, which was never created, is referred to. -/
def lifecycle : spdk_trace_histories :=
  ⟨example_flags,
    [⟨0, [event_slot 1 5 100, event_slot 1 15 200, event_slot 2 25 100, event_slot 2 35 200,
      event_slot 2 45 300, zero_entry]⟩]⟩

/-- The parser `init` builds for `lifecycle`. -/
def lifecycle_state : parser_state :=
  { histories := lifecycle, tsc_offset := 5,
    entries := [(⟨0, 5⟩, ⟨0, 0⟩), (⟨0, 15⟩, ⟨0, 1⟩), (⟨0, 25⟩, ⟨0, 2⟩), (⟨0, 35⟩, ⟨0, 3⟩),
      (⟨0, 45⟩, ⟨0, 4⟩)],
    iter := 0, stats := fun _ => ⟨[], [], 0⟩ }

/-- The parsed entry `next_entry` returns for the slot `idx` of the one
core of `lifecycle`, with the given object fields. -/
def lifecycle_yield (idx object_index object_start : Nat) : spdk_trace_parser_entry :=
  ⟨0, ⟨0, idx⟩, object_index, object_start, List.replicate 5 (List.replicate 8 0)⟩

/-- Calling `next_entry` once for each of the given records, in order, on
the parser the call before left behind, whatever the calls return: the
returned flags and the parser after the last call. -/
def next_entry_seq (L : Layout) :
    List spdk_trace_parser_entry → parser_state → Option (List Bool × parser_state)
  | [], parser => some ([], parser)
  | pe :: rest, parser =>
    match next_entry L parser pe with
    | none => none
    | some (ok, parser1, _) =>
      match next_entry_seq L rest parser1 with
      | none => none
      | some (flags, parser2) => some (ok :: flags, parser2)

/-- A tracepoint table in which tracepoint 5 creates an object of type 1
and has one argument of 30 bytes, 8 inline and 22 in one continuation
slot; no other tracepoint has arguments or objects. -/
def mismatch_flags : spdk_trace_flags :=
  ⟨fun i => if i = 5 then ⟨1, true, [⟨30⟩]⟩ else ⟨0, false, []⟩⟩

/-- Spill mismatch: the event of time 20 in slot 1 needs one continuation
slot, and the slot after it carries the reserved tracepoint id with the
time stamp 21. -/
def mismatch : spdk_trace_histories :=
  ⟨mismatch_flags,
    [⟨0, [event_slot 3 10 0, event_slot 5 20 77, spill_slot 21, event_slot 3 30 0]⟩]⟩

/-- The parser `init` builds for `mismatch`. -/
def mismatch_state : parser_state :=
  { histories := mismatch, tsc_offset := 10,
    entries := [(⟨0, 10⟩, ⟨0, 0⟩), (⟨0, 20⟩, ⟨0, 1⟩), (⟨0, 30⟩, ⟨0, 3⟩)],
    iter := 0, stats := fun _ => ⟨[], [], 0⟩ }

/-- The flag the argument loop of `next_entry` returns for the event at
`ptr` of the core `lcore` with the argument descriptors `args`; it does not
depend on the record the arguments are written to. -/
def reassembly (L : Layout) (hs : spdk_trace_histories) (args : List spdk_trace_argument)
    (ptr : entry_ptr) (lcore : Nat) : Option Bool :=
  (build_args L hs args 0 (argument_context.init L ptr lcore) ⟨0, ⟨0, 0⟩, 0, 0, []⟩).map
    fun r => r.1

/-- The index map and the start map of an object type have the same set of
object ids as keys. -/
def same_keys (st : object_stats) : Prop :=
  ∀ x, x ∈ st.index.map Prod.fst ↔ x ∈ st.start.map Prod.fst

/-- Every value stored in the index map is below the counter. -/
def indices_below_counter (st : object_stats) : Prop :=
  ∀ kv ∈ st.index, kv.2 < st.counter

/-- The parser of `lifecycle` with every counter at the largest 64-bit
value and nothing tracked. -/
def wrapping_state : parser_state :=
  { lifecycle_state with stats := fun _ => ⟨[], [], UINT64_MAX⟩ }

/-- The byte `j` of the argument slot `i` of a parsed entry, `none` outside
the record. -/
def arg_byte (pe : spdk_trace_parser_entry) (i j : Nat) : Option Nat :=
  (pe.args.getD i [])[j]?

/-- An event of tracepoint 6 with the payload bytes 0, ..., 21; its inline
arguments are the bytes 14, ..., 21. -/
def payload_event : spdk_trace_entry := ⟨6, 10, 0, List.range 22⟩

/-- The continuation slot of `payload_event`, with the payload bytes
100, ..., 121. -/
def payload_spill : spdk_trace_entry := ⟨1024, 10, 0, (List.range 22).map (· + 100)⟩

/-- A tracepoint table in which tracepoint 6 has an argument of 12 bytes
followed by an argument of 4 bytes, and tracepoint 7 has one argument of 8
bytes; no tracepoint has an object. -/
def payload_flags : spdk_trace_flags :=
  ⟨fun i => if i = 6 then ⟨0, false, [⟨12⟩, ⟨4⟩]⟩ else if i = 7 then ⟨0, false, [⟨8⟩]⟩
    else ⟨0, false, []⟩⟩

/-- One core with `payload_event`, its continuation slot, and an event of
tracepoint 7 whose 8 bytes of arguments end with its own slot. -/
def payload : spdk_trace_histories :=
  ⟨payload_flags, [⟨0, [payload_event, payload_spill, ⟨7, 20, 0, List.range 22⟩, zero_entry]⟩]⟩

/-- The parser `init` builds for `payload`. -/
def payload_state : parser_state :=
  { histories := payload, tsc_offset := 10,
    entries := [(⟨0, 10⟩, ⟨0, 0⟩), (⟨0, 20⟩, ⟨0, 2⟩)],
    iter := 0, stats := fun _ => ⟨[], [], 0⟩ }

/-- The slot `k` places after the slot `idx` of a ring, wrapping at the
capacity. -/
def ring_slot (h : spdk_trace_history) (idx k : Nat) : spdk_trace_entry :=
  slot_at h.entries ((idx + k) % h.entries.length)

/-- The test of `build_arg` on a continuation slot, for the slot `k` places
after the event: it carries the sentinel tracepoint id and the time stamp
`tsc` of the event. -/
def spill_ok (L : Layout) (h : spdk_trace_history) (idx tsc k : Nat) : Prop :=
  (ring_slot h idx k).tpoint_id = L.SPDK_TRACE_MAX_TPOINT_ID ∧ (ring_slot h idx k).tsc = tsc

instance spill_ok_decidable (L : Layout) (h : spdk_trace_history) (idx tsc k : Nat) :
    Decidable (spill_ok L h idx tsc k) :=
  inferInstanceAs (Decidable (_ ∧ _))

/-- The byte at position `q` of the data regions of the slots from the
slot `idx` on, laid end to end in ring order. -/
def virtual_byte (L : Layout) (h : spdk_trace_history) (idx q : Nat) : Nat :=
  (ring_slot h idx (q / L.data_size)).data.getD (q % L.data_size) 0

/-- Modelled from the spec: the total size `T` of the arguments of a
tracepoint. -/
def total_size (args : List spdk_trace_argument) : Nat :=
  (args.map fun a => a.size).sum

/-- Modelled from the spec: the inline capacity `C`, the number of bytes of
the args region of an event. -/
def inline_capacity (L : Layout) : Nat :=
  L.data_size - L.args_offset

/-- Modelled from the spec: the number `k` of continuation slots of an
event with arguments of total size `T`: zero if `T ≤ C`, else
`(T - C) / D` rounded up. -/
def spill_count (L : Layout) (T : Nat) : Nat :=
  if T ≤ inline_capacity L then 0
  else (T - inline_capacity L + L.data_size - 1) / L.data_size

/-- Modelled from the spec: the byte at position `pos` of the logical byte
stream of the event in the slot `idx`: the inline args region of the event,
followed by the data regions of the successive ring slots after it. -/
def stream_byte (L : Layout) (h : spdk_trace_history) (idx pos : Nat) : Nat :=
  if pos < inline_capacity L then (ring_slot h idx 0).data.getD (L.args_offset + pos) 0
  else
    (ring_slot h idx (1 + (pos - inline_capacity L) / L.data_size)).data.getD
      ((pos - inline_capacity L) % L.data_size) 0

/-- What a producer wrote into a ring of two slots: an early event, then
the event of time 5 with its continuation slot. -/
def wrapped_tie_writes : List spdk_trace_entry :=
  [event_slot 3 1 0, event_slot 4 5 0, spill_slot 5]

/-- The ring these writes leave: the event of time 5 sits in slot 1 and its
continuation slot wrapped to slot 0, so both slots hold the largest time
stamp. -/
def wrapped_tie_history : spdk_trace_history :=
  ⟨0, [spill_slot 5, event_slot 4 5 0]⟩

/-- A ring of four slots whose only filled slot is a continuation slot. -/
def lone_spill_history : spdk_trace_history :=
  ⟨0, [spill_slot 7, zero_entry, zero_entry, zero_entry]⟩

/-- A ring of four slots whose only filled slot is an event. -/
def lone_event_history : spdk_trace_history :=
  ⟨0, [event_slot 3 10 0, zero_entry, zero_entry, zero_entry]⟩

/-- Every pair of the merged map points to a slot of the histories that
is an event (its tracepoint id is not the reserved one) and whose time
stamp is the time stamp of the key. -/
def entries_ok (L : Layout) (hs : spdk_trace_histories) (m : entry_map) : Prop :=
  ∀ kv ∈ m, ∃ s, deref hs kv.2 = some s ∧ s.tsc = kv.1.tsc ∧
    s.tpoint_id ≠ L.SPDK_TRACE_MAX_TPOINT_ID

/-- The merged map is strictly increasing for `compare_entry_key`. -/
def entries_sorted (m : entry_map) : Prop :=
  m.Pairwise fun a b => compare_entry_key a.1 b.1 = true

/-! ## The ordered map -/

theorem compare_entry_key_iff (a b : entry_key) :
    compare_entry_key a b = true ↔ a.tsc < b.tsc ∨ (a.tsc = b.tsc ∧ a.lcore < b.lcore) := by
  unfold compare_entry_key
  split <;> simp <;> omega

theorem compare_entry_key_trans (a b c : entry_key)
    (hab : compare_entry_key a b = true) (hbc : compare_entry_key b c = true) :
    compare_entry_key a c = true := by
  rw [compare_entry_key_iff] at *
  omega

theorem compare_entry_key_equiv (a b : entry_key)
    (hab : compare_entry_key a b = false) (hba : compare_entry_key b a = false) : a = b := by
  have h1 : ¬ (compare_entry_key a b = true) := by simp [hab]
  have h2 : ¬ (compare_entry_key b a = true) := by simp [hba]
  rw [compare_entry_key_iff] at h1 h2
  cases a; cases b
  simp only [entry_key.mk.injEq] at *
  omega

theorem mem_map_assign {K V : Type} (lt : K → K → Bool) (k : K) (v : V) (m : List (K × V))
    (x : K × V) (hx : x ∈ map_assign lt k v m) :
    x ∈ m ∨ x = (k, v) ∨
      (x.2 = v ∧ ∃ y ∈ m, y.1 = x.1 ∧ lt k x.1 = false ∧ lt x.1 k = false) := by
  induction m with
  | nil =>
    simp only [map_assign, List.mem_singleton] at hx
    exact Or.inr (Or.inl hx)
  | cons kv rest ih =>
    obtain ⟨k1, v1⟩ := kv
    simp only [map_assign] at hx
    split at hx
    · rcases List.mem_cons.1 hx with h | h
      · exact Or.inr (Or.inl h)
      · exact Or.inl h
    · split at hx
      · rcases List.mem_cons.1 hx with h | h
        · exact Or.inl (h ▸ List.mem_cons_self _ _)
        · rcases ih h with h1 | h1 | ⟨h1, y, hy, h2⟩
          · exact Or.inl (List.mem_cons_of_mem _ h1)
          · exact Or.inr (Or.inl h1)
          · exact Or.inr (Or.inr ⟨h1, y, List.mem_cons_of_mem _ hy, h2⟩)
      · rcases List.mem_cons.1 hx with h | h
        · refine Or.inr (Or.inr ⟨by rw [h], (k1, v1), List.mem_cons_self _ _, by rw [h], ?_, ?_⟩)
          · rw [h]; simpa using ‹¬ lt k k1 = true›
          · rw [h]; simpa using ‹¬ lt k1 k = true›
        · exact Or.inl (List.mem_cons_of_mem _ h)

/-- The keys of a map after an assignment are the old keys and the new one. -/
theorem key_mem_map_assign {K V : Type} (lt : K → K → Bool) (k : K) (v : V) (m : List (K × V))
    (x : K × V) (hx : x ∈ map_assign lt k v m) :
    x.1 = k ∨ ∃ y ∈ m, y.1 = x.1 := by
  rcases mem_map_assign lt k v m x hx with h | h | ⟨_, y, hy, h, _⟩
  · exact Or.inr ⟨x, h, rfl⟩
  · exact Or.inl (by rw [h])
  · exact Or.inr ⟨y, hy, h⟩

theorem map_assign_sorted {K V : Type} (lt : K → K → Bool)
    (htrans : ∀ a b c, lt a b = true → lt b c = true → lt a c = true)
    (k : K) (v : V) (m : List (K × V))
    (hm : m.Pairwise (fun a b => lt a.1 b.1 = true)) :
    (map_assign lt k v m).Pairwise (fun a b => lt a.1 b.1 = true) := by
  induction m with
  | nil => simp [map_assign]
  | cons kv rest ih =>
    obtain ⟨k1, v1⟩ := kv
    rw [List.pairwise_cons] at hm
    simp only [map_assign]
    split
    · rename_i h
      refine List.pairwise_cons.2 ⟨?_, List.pairwise_cons.2 hm⟩
      intro y hy
      rcases List.mem_cons.1 hy with h1 | h1
      · rw [h1]; exact h
      · exact htrans _ _ _ h (hm.1 y h1)
    · split
      · rename_i h
        refine List.pairwise_cons.2 ⟨?_, ih hm.2⟩
        intro y hy
        rcases key_mem_map_assign lt k v rest y hy with h1 | ⟨z, hz, h1⟩
        · rw [h1]; exact h
        · rw [← h1]; exact hm.1 z hz
      · exact List.pairwise_cons.2 ⟨hm.1, hm.2⟩

/-! ## The ring reconstruction -/

theorem slot_at_of_getElem (e : List spdk_trace_entry) (i : Nat) (s : spdk_trace_entry)
    (h : e[i]? = some s) : slot_at e i = s := by
  simp [slot_at, List.getD, h]

theorem slot_at_of_lt (e : List spdk_trace_entry) (i : Nat) (h : i < e.length) :
    e[i]? = some (slot_at e i) := by
  simp [slot_at, List.getD, List.getElem?_eq_getElem h]

theorem count_filled_spec (e : List spdk_trace_entry) (n M : Nat)
    (h : count_filled e n = some M) :
    1 ≤ M ∧ M ≤ n ∧ M ≤ e.length ∧ (slot_at e (M - 1)).tsc ≠ 0 ∧
      ∀ j, M ≤ j → j < n → (slot_at e j).tsc = 0 := by
  induction n with
  | zero => simp [count_filled] at h
  | succ n ih =>
    simp only [count_filled] at h
    split at h
    · simp at h
    · rename_i s hs
      have hlt : n < e.length := by
        rcases Nat.lt_or_ge n e.length with h1 | h1
        · exact h1
        · rw [List.getElem?_eq_none h1] at hs; simp at hs
      split at h
      · rename_i hz
        obtain ⟨h1, h2, h3, h4, h5⟩ := ih h
        refine ⟨h1, by omega, h3, h4, ?_⟩
        intro j hj hjn
        rcases Nat.lt_or_ge j n with h6 | h6
        · exact h5 j hj h6
        · have : j = n := by omega
          rw [this, slot_at_of_getElem e n s hs]; exact hz
      · rename_i hz
        simp only [Option.some.injEq] at h
        subst h
        refine ⟨by omega, le_refl _, hlt, ?_, ?_⟩
        · simpa [slot_at_of_getElem e n s hs] using hz
        · intro j hj hjn; omega

/-- The backward scan comes to an end inside the ring as soon as one slot
below the starting point has a nonzero time stamp. -/
theorem count_filled_isSome (e : List spdk_trace_entry) (n i : Nat)
    (hn : n ≤ e.length) (hi : i < n) (hnz : (slot_at e i).tsc ≠ 0) :
    ∃ M, count_filled e n = some M := by
  induction n with
  | zero => omega
  | succ n ih =>
    simp only [count_filled]
    rw [slot_at_of_lt e n (by omega)]
    simp only
    split
    · rename_i hz
      have : i ≠ n := by intro h; rw [h] at hnz; exact hnz hz
      exact ih (by omega) (by omega)
    · exact ⟨_, rfl⟩

theorem foldl_first_last_lt (e : List spdk_trace_entry) (l : List Nat) (n : Nat) (fl : Nat × Nat)
    (hl : ∀ i ∈ l, i < n) (h1 : fl.1 < n) (h2 : fl.2 < n) :
    (l.foldl (first_last_step e) fl).1 < n ∧ (l.foldl (first_last_step e) fl).2 < n := by
  induction l generalizing fl with
  | nil => exact ⟨h1, h2⟩
  | cons i rest ih =>
    simp only [List.foldl_cons]
    apply ih
    · intro j hj; exact hl j (List.mem_cons_of_mem _ hj)
    · simp only [first_last_step]
      split
      · exact hl i (List.mem_cons_self _ _)
      · exact h1
    · simp only [first_last_step]
      split
      · exact hl i (List.mem_cons_self _ _)
      · exact h2

theorem find_first_last_lt (e : List spdk_trace_entry) (n : Nat) (hn : 0 < n) :
    (find_first_last e n).1 < n ∧ (find_first_last e n).2 < n := by
  unfold find_first_last
  apply foldl_first_last_lt
  · intro i hi
    rw [List.mem_range'_1] at hi
    omega
  · exact hn
  · exact hn

theorem choose_first_last_lt (e : List spdk_trace_entry) (n M : Nat) (hM : 1 ≤ M)
    (hMn : M ≤ n) :
    (choose_first_last e n M).1 < M ∧ (choose_first_last e n M).2 < M := by
  unfold choose_first_last
  split
  · rename_i h
    subst h
    exact find_first_last_lt e n (by omega)
  · simp only
    omega

/-! ## The insertion loop -/

theorem insert_loop_foldl (L : Layout) (lcore hist : Nat) (e : List spdk_trace_entry)
    (last filled fuel i : Nat) (m m1 : entry_map) (vis : List Nat)
    (h : insert_loop L lcore hist e last filled fuel i m = some (m1, vis)) :
    m1 = vis.foldl (insert_slot L lcore hist e) m := by
  induction fuel generalizing i m m1 vis with
  | zero => simp [insert_loop] at h
  | succ fuel ih =>
    simp only [insert_loop] at h
    split at h
    · simp only [Option.some.injEq, Prod.mk.injEq] at h
      rw [← h.1, ← h.2]; rfl
    · split at h
      · simp at h
      · rename_i m2 v2 heq
        simp only [Option.some.injEq, Prod.mk.injEq] at h
        rw [← h.1, ← h.2, List.foldl_cons]
        exact ih _ _ _ _ heq

/-- Started at or below `last`, the loop walks up to `last`. -/
theorem insert_loop_up (L : Layout) (lcore hist : Nat) (e : List spdk_trace_entry)
    (last filled : Nat) (hlast : last < filled) (d : Nat) :
    ∀ (fuel i : Nat) (m : entry_map), i + d = last → d < fuel →
      insert_loop L lcore hist e last filled fuel i m =
        some ((List.range' i (d + 1)).foldl (insert_slot L lcore hist e) m,
          List.range' i (d + 1)) := by
  induction d with
  | zero =>
    intro fuel i m hi hf
    obtain ⟨f, rfl⟩ : ∃ f, fuel = f + 1 := ⟨fuel - 1, by omega⟩
    simp only [insert_loop]
    rw [if_pos (by omega)]
    simp [List.range']
  | succ d ih =>
    intro fuel i m hi hf
    obtain ⟨f, rfl⟩ : ∃ f, fuel = f + 1 := ⟨fuel - 1, by omega⟩
    simp only [insert_loop]
    rw [if_neg (by omega), if_neg (by omega), ih f (i + 1) _ (by omega) (by omega)]
    simp [List.range']

/-- Started above `last`, the loop walks to the end of the filled part,
goes back to slot zero and walks up to `last`. -/
theorem insert_loop_wrap (L : Layout) (lcore hist : Nat) (e : List spdk_trace_entry)
    (last filled : Nat) (hlast : last < filled) (d : Nat) :
    ∀ (fuel i : Nat) (m : entry_map), last < i → i + d + 1 = filled → d + 1 + last < fuel →
      insert_loop L lcore hist e last filled fuel i m =
        some ((List.range' i (d + 1) ++ List.range' 0 (last + 1)).foldl
            (insert_slot L lcore hist e) m,
          List.range' i (d + 1) ++ List.range' 0 (last + 1)) := by
  induction d with
  | zero =>
    intro fuel i m hi hd hf
    obtain ⟨f, rfl⟩ : ∃ f, fuel = f + 1 := ⟨fuel - 1, by omega⟩
    simp only [insert_loop]
    rw [if_neg (by omega), if_pos (by omega),
      insert_loop_up L lcore hist e last filled hlast last f 0 _ (by omega) (by omega)]
    simp [List.range']
  | succ d ih =>
    intro fuel i m hi hd hf
    obtain ⟨f, rfl⟩ : ∃ f, fuel = f + 1 := ⟨fuel - 1, by omega⟩
    simp only [insert_loop]
    rw [if_neg (by omega), if_neg (by omega), ih f (i + 1) _ (by omega) (by omega) (by omega)]
    simp [List.range']

/-- The list of slots the insertion loop visits, for `first` and `last`
inside the filled part of the ring. -/
theorem insert_loop_visited (L : Layout) (lcore hist : Nat) (e : List spdk_trace_entry)
    (first last filled : Nat) (m : entry_map) (hfirst : first < filled) (hlast : last < filled) :
    ∃ vis, insert_loop L lcore hist e last filled filled first m =
        some (vis.foldl (insert_slot L lcore hist e) m, vis) ∧
      vis = (if first ≤ last then List.range' first (last - first + 1)
        else List.range' first (filled - first) ++ List.range' 0 (last + 1)) := by
  split
  · rename_i h
    exact ⟨_, insert_loop_up L lcore hist e last filled hlast (last - first) filled first m
      (by omega) (by omega), rfl⟩
  · rename_i h
    have := insert_loop_wrap L lcore hist e last filled hlast (filled - first - 1) filled first m
      (by omega) (by omega) (by omega)
    rw [show filled - first - 1 + 1 = filled - first by omega] at this
    exact ⟨_, this, rfl⟩

/-! ## The merge -/

/-- The list of slots `populate_events` visits, from its locals. -/
theorem visited_of_locals (first last filled : Nat) (j : Nat)
    (hfirst : first < filled) (hlast : last < filled)
    (hj : j ∈ (if first ≤ last then List.range' first (last - first + 1)
        else List.range' first (filled - first) ++ List.range' 0 (last + 1))) :
    j < filled := by
  split at hj
  · rw [List.mem_range'_1] at hj; omega
  · rw [List.mem_append, List.mem_range'_1, List.mem_range'_1] at hj; omega

/-- What `populate_events` does once the backward scan has stopped. -/
theorem populate_events_traced_eq (L : Layout) (p : parser_state) (hist : Nat)
    (h : spdk_trace_history) (n M : Nat) (hM : count_filled h.entries n = some M) :
    ∃ vis, populate_events_traced L p hist h n =
        some ({ p with
            tsc_offset := max (slot_at h.entries (choose_first_last h.entries n M).1).tsc
              p.tsc_offset,
            entries := vis.foldl (insert_slot L h.lcore hist h.entries) p.entries },
          ⟨M, (choose_first_last h.entries n M).1, (choose_first_last h.entries n M).2, vis⟩) ∧
      vis = (if (choose_first_last h.entries n M).1 ≤ (choose_first_last h.entries n M).2 then
          List.range' (choose_first_last h.entries n M).1
            ((choose_first_last h.entries n M).2 - (choose_first_last h.entries n M).1 + 1)
        else List.range' (choose_first_last h.entries n M).1
            (M - (choose_first_last h.entries n M).1) ++
          List.range' 0 ((choose_first_last h.entries n M).2 + 1)) := by
  obtain ⟨h1, h2, _, _, _⟩ := count_filled_spec h.entries n M hM
  obtain ⟨hf, hl⟩ := choose_first_last_lt h.entries n M h1 h2
  obtain ⟨vis, hv, hvis⟩ := insert_loop_visited L h.lcore hist h.entries _ _ M p.entries hf hl
  refine ⟨vis, ?_, hvis⟩
  simp only [populate_events_traced, hM, hv]
  congr 3
  rw [max_def]
  split <;> split <;> first | rfl | omega

theorem insert_slot_sorted (L : Layout) (lcore hist : Nat) (e : List spdk_trace_entry)
    (m : entry_map) (i : Nat) (hm : entries_sorted m) :
    entries_sorted (insert_slot L lcore hist e m i) := by
  unfold insert_slot
  split
  · exact map_assign_sorted _ compare_entry_key_trans _ _ _ hm
  · exact hm

theorem insert_slot_ok (L : Layout) (hs : spdk_trace_histories) (lcore hist : Nat)
    (h : spdk_trace_history) (m : entry_map) (i : Nat)
    (hh : hs.per_lcore[hist]? = some h) (hi : i < h.entries.length)
    (hm : entries_ok L hs m) :
    entries_ok L hs (insert_slot L lcore hist h.entries m i) := by
  unfold insert_slot
  split
  · rename_i hne
    have hd : deref hs ⟨hist, i⟩ = some (slot_at h.entries i) := by
      simp only [deref, hh]
      exact slot_at_of_lt _ _ hi
    intro kv hkv
    rcases mem_map_assign _ _ _ _ _ hkv with h1 | h1 | ⟨h1, y, hy, h2, h3, h4⟩
    · exact hm kv h1
    · rw [h1]; exact ⟨_, hd, rfl, hne⟩
    · have := compare_entry_key_equiv _ _ h3 h4
      refine ⟨_, by rw [h1]; exact hd, by rw [← this], hne⟩
  · exact hm

theorem foldl_insert_slot_inv (L : Layout) (hs : spdk_trace_histories) (lcore hist : Nat)
    (h : spdk_trace_history) (hh : hs.per_lcore[hist]? = some h) (vis : List Nat)
    (m : entry_map) (hvis : ∀ j ∈ vis, j < h.entries.length)
    (hm : entries_sorted m ∧ entries_ok L hs m) :
    entries_sorted (vis.foldl (insert_slot L lcore hist h.entries) m) ∧
      entries_ok L hs (vis.foldl (insert_slot L lcore hist h.entries) m) := by
  induction vis generalizing m with
  | nil => exact hm
  | cons j rest ih =>
    rw [List.foldl_cons]
    apply ih
    · intro k hk; exact hvis k (List.mem_cons_of_mem _ hk)
    · exact ⟨insert_slot_sorted _ _ _ _ _ _ hm.1,
        insert_slot_ok L hs lcore hist h m j hh (hvis j (List.mem_cons_self _ _)) hm.2⟩

/-- The invariant of the merged map: it is sorted, its pairs point to events
of the mapped histories, and the histories are those of the file. -/
theorem populate_events_inv (L : Layout) (hs : spdk_trace_histories) (p p1 : parser_state)
    (hist : Nat) (h : spdk_trace_history) (n : Nat)
    (hh : hs.per_lcore[hist]? = some h)
    (hp : p.histories = hs ∧ entries_sorted p.entries ∧ entries_ok L hs p.entries)
    (hrun : populate_events L p hist h n = some p1) :
    p1.histories = hs ∧ entries_sorted p1.entries ∧ entries_ok L hs p1.entries := by
  unfold populate_events at hrun
  cases hM : count_filled h.entries n with
  | none => simp [populate_events_traced, hM] at hrun
  | some M =>
    obtain ⟨h1, h2, h3, _, _⟩ := count_filled_spec h.entries n M hM
    obtain ⟨hf, hl⟩ := choose_first_last_lt h.entries n M h1 h2
    obtain ⟨vis, hv, hvis⟩ := populate_events_traced_eq L p hist h n M hM
    rw [hv] at hrun
    simp only [Option.map_some', Option.some.injEq] at hrun
    subst hrun
    have hb : ∀ j ∈ vis, j < h.entries.length := by
      intro j hj
      rw [hvis] at hj
      have := visited_of_locals _ _ M j hf hl hj
      omega
    exact ⟨hp.1, foldl_insert_slot_inv L hs h.lcore hist h hh vis p.entries hb hp.2⟩

theorem fresh_state_inv (L : Layout) (hs : spdk_trace_histories) :
    (fresh_state hs).histories = hs ∧ entries_sorted (fresh_state hs).entries ∧
      entries_ok L hs (fresh_state hs).entries := by
  refine ⟨rfl, List.Pairwise.nil, ?_⟩
  intro kv hkv
  simp [fresh_state] at hkv

/-- Every parser the merge step produces has a sorted map whose pairs point
to events of the histories. -/
theorem merged_inv (L : Layout) (hs : spdk_trace_histories) (p : parser_state)
    (hm : merged L hs p) :
    p.histories = hs ∧ entries_sorted p.entries ∧ entries_ok L hs p.entries := by
  induction hm with
  | fresh => exact fresh_state_inv L hs
  | populate p p1 hist h n _ hh hrun ih => exact populate_events_inv L hs p p1 hist h n hh ih hrun

/-- The parser `init` builds is one the merge step produces. -/
theorem init_cores_merged (L : Layout) (hs : spdk_trace_histories) (cores : List Nat)
    (p p1 : parser_state) (hp : merged L hs p) (hrun : init_cores L cores p = some p1) :
    merged L hs p1 := by
  induction cores generalizing p with
  | nil =>
    simp only [init_cores, Option.some.injEq] at hrun
    subst hrun; exact hp
  | cons c rest ih =>
    simp only [init_cores] at hrun
    cases hc : init_core L p c with
    | none => simp [hc] at hrun
    | some p2 =>
      simp only [hc] at hrun
      refine ih p2 ?_ hrun
      unfold init_core at hc
      cases hg : spdk_get_per_lcore_history p.histories c with
      | none => simp [hg] at hc
      | some history =>
        simp only [hg] at hc
        split at hc
        · refine merged.populate p p2 c history _ hp ?_ hc
          rw [← (merged_inv L hs p hp).1]; exact hg
        · simp only [Option.some.injEq] at hc
          subst hc; exact hp

/-! ## The iteration -/

/-- The loop of `build_arg` writes to the argument slots only. -/
theorem build_arg_loop_frame (L : Layout) (hs : spdk_trace_histories) (entry_tsc size argid : Nat)
    (fuel argoff : Nat) (argctx argctx1 : argument_context) (pe pe1 : spdk_trace_parser_entry)
    (ok : Bool)
    (h : build_arg_loop L hs entry_tsc size argid fuel argoff argctx pe = some (ok, argctx1, pe1)) :
    pe1.lcore = pe.lcore ∧ pe1.entry = pe.entry ∧ pe1.object_index = pe.object_index ∧
      pe1.object_start = pe.object_start := by
  induction fuel generalizing argoff argctx pe with
  | zero =>
    simp only [build_arg_loop] at h
    split at h
    · simp at h
    · simp only [Option.some.injEq, Prod.mk.injEq] at h
      rw [← h.2.2]; simp
  | succ fuel ih =>
    simp only [build_arg_loop] at h
    split at h
    · split at h
      · simp at h
      · simp only [Option.some.injEq, Prod.mk.injEq] at h
        rw [← h.2.2]; simp
      · split at h
        · simp at h
        · have := ih _ _ _ h
          split at this <;> simpa using this
    · simp only [Option.some.injEq, Prod.mk.injEq] at h
      rw [← h.2.2]; simp

theorem build_args_frame (L : Layout) (hs : spdk_trace_histories)
    (args : List spdk_trace_argument) (i : Nat)
    (argctx argctx1 : argument_context) (pe pe1 : spdk_trace_parser_entry) (ok : Bool)
    (h : build_args L hs args i argctx pe = some (ok, argctx1, pe1)) :
    pe1.lcore = pe.lcore ∧ pe1.entry = pe.entry ∧ pe1.object_index = pe.object_index ∧
      pe1.object_start = pe.object_start := by
  induction args generalizing i argctx pe with
  | nil =>
    simp only [build_args, Option.some.injEq, Prod.mk.injEq] at h
    rw [← h.2.2]; simp
  | cons arg rest ih =>
    simp only [build_args] at h
    split at h
    · simp at h
    · rename_i c2 p2 heq
      simp only [Option.some.injEq, Prod.mk.injEq] at h
      rw [← h.2.2]
      unfold build_arg at heq
      split at heq
      · simp at heq
      · exact build_arg_loop_frame _ _ _ _ _ _ _ _ _ _ _ _ heq
    · rename_i c2 p2 heq
      have h1 := ih _ _ _ h
      unfold build_arg at heq
      split at heq
      · simp at heq
      · have h2 := build_arg_loop_frame _ _ _ _ _ _ _ _ _ _ _ _ heq
        exact ⟨h1.1.trans h2.1, h1.2.1.trans h2.2.1, h1.2.2.1.trans h2.2.2.1,
          h1.2.2.2.trans h2.2.2.2⟩

/-- What a call of `next_entry` that returns true did. -/
theorem next_entry_true (L : Layout) (p p1 : parser_state)
    (pe pe1 : spdk_trace_parser_entry) (h : next_entry L p pe = some (true, p1, pe1)) :
    ∃ key ptr entry, p.entries[p.iter]? = some (key, ptr) ∧
      deref p.histories ptr = some entry ∧
      p1 = { p with
        stats := Function.update p.stats (p.histories.flags.tpoint entry.tpoint_id).object_type
          (lookup_object L (p.histories.flags.tpoint entry.tpoint_id) entry
            (track_new_object (p.histories.flags.tpoint entry.tpoint_id) entry
              (p.stats (p.histories.flags.tpoint entry.tpoint_id).object_type))
            { pe with lcore := key.lcore, entry := ptr }).1,
        iter := p.iter + 1 } ∧
      pe1.lcore = key.lcore ∧ pe1.entry = ptr ∧
      pe1.object_index = (lookup_object L (p.histories.flags.tpoint entry.tpoint_id) entry
            (track_new_object (p.histories.flags.tpoint entry.tpoint_id) entry
              (p.stats (p.histories.flags.tpoint entry.tpoint_id).object_type))
            { pe with lcore := key.lcore, entry := ptr }).2.object_index ∧
      pe1.object_start = (lookup_object L (p.histories.flags.tpoint entry.tpoint_id) entry
            (track_new_object (p.histories.flags.tpoint entry.tpoint_id) entry
              (p.stats (p.histories.flags.tpoint entry.tpoint_id).object_type))
            { pe with lcore := key.lcore, entry := ptr }).2.object_start := by
  unfold next_entry at h
  split at h
  · simp at h
  · rename_i key ptr hk
    split at h
    · simp at h
    · rename_i entry hd
      refine ⟨key, ptr, entry, hk, hd, ?_⟩
      simp only at h
      split at h
      · simp at h
      · simp at h
      · rename_i c2 p2 heq
        simp only [Option.some.injEq, Prod.mk.injEq, true_and] at h
        have hf := build_args_frame _ _ _ _ _ _ _ _ _ heq
        have hl : ∀ (tp : spdk_trace_tpoint) (st : object_stats) (q : spdk_trace_parser_entry),
            (lookup_object L tp entry st q).2.lcore = q.lcore ∧
            (lookup_object L tp entry st q).2.entry = q.entry := by
          intro tp st q
          unfold lookup_object
          split
          · split <;> simp
          · simp
        rw [← h.1, ← h.2]
        refine ⟨rfl, ?_, ?_, hf.2.2.1, hf.2.2.2⟩
        · rw [hf.1, (hl _ _ _).1]
        · rw [hf.2.1, (hl _ _ _).2]

/-- The parsed entries of a run of calls are read off the merged map, pair
by pair, from the iterator on. -/
theorem next_entries_initial (L : Layout) (n : Nat) (p : parser_state)
    (pe : spdk_trace_parser_entry) :
    ((next_entries L n p pe).1.map fun x => (x.lcore, x.entry)) <+:
      ((p.entries.drop p.iter).map fun kv => (kv.1.lcore, kv.2)) := by
  induction n generalizing p pe with
  | zero => simp [next_entries]
  | succ n ih =>
    simp only [next_entries]
    split
    · rename_i p1 pe1 heq
      obtain ⟨key, ptr, entry, hk, _, hp1, hl, he, _⟩ := next_entry_true L p p1 pe pe1 heq
      have hlt : p.iter < p.entries.length := by
        rcases Nat.lt_or_ge p.iter p.entries.length with h1 | h1
        · exact h1
        · rw [List.getElem?_eq_none h1] at hk; simp at hk
      have hdrop : p.entries.drop p.iter = (key, ptr) :: p.entries.drop (p.iter + 1) := by
        rw [List.drop_eq_getElem_cons hlt]
        rw [List.getElem?_eq_getElem hlt] at hk
        simp only [Option.some.injEq] at hk
        rw [hk]
      have := ih p1 pe1
      have he1 : p1.entries = p.entries := by rw [hp1]
      have hi1 : p1.iter = p.iter + 1 := by rw [hp1]
      rw [he1, hi1] at this
      rw [hdrop]
      simp only [List.cons, List.map_cons, hl, he]
      exact (List.prefix_cons_inj _).2 this
    · simp

/-! ## The order of the yielded keys -/

/-- The parsed entries of a run of calls, as pairs of the map, satisfy every
relation that holds pairwise on the sorted map. -/
theorem next_entries_pairwise (L : Layout) (hs : spdk_trace_histories) (n : Nat)
    (p : parser_state) (pe : spdk_trace_parser_entry)
    (R : Nat × entry_ptr → Nat × entry_ptr → Prop)
    (hsorted : entries_sorted p.entries) (hok : entries_ok L hs p.entries)
    (hR : ∀ a b : entry_key × entry_ptr, compare_entry_key a.1 b.1 = true →
      (∃ s, deref hs a.2 = some s ∧ s.tsc = a.1.tsc ∧ s.tpoint_id ≠ L.SPDK_TRACE_MAX_TPOINT_ID) →
      (∃ s, deref hs b.2 = some s ∧ s.tsc = b.1.tsc ∧ s.tpoint_id ≠ L.SPDK_TRACE_MAX_TPOINT_ID) →
      R (a.1.lcore, a.2) (b.1.lcore, b.2)) :
    (next_entries L n p pe).1.Pairwise fun a b => R (a.lcore, a.entry) (b.lcore, b.entry) := by
  have h1 : p.entries.Pairwise fun a b => R (a.1.lcore, a.2) (b.1.lcore, b.2) :=
    List.Pairwise.imp_of_mem (fun ha hb hab => hR _ _ hab (hok _ ha) (hok _ hb)) hsorted
  have h2 : ((p.entries.drop p.iter).map fun kv => (kv.1.lcore, kv.2)).Pairwise R :=
    List.pairwise_map.2 (h1.sublist (List.drop_sublist _ _))
  have h3 := h2.sublist (next_entries_initial L n p pe).sublist
  exact List.pairwise_map.1 h3

/-- C1: for every parser produced by the merge step (the fresh parser after
any number of terminating runs of `populate_events` on histories of the
file), and whatever the position of the iterator, the (timestamp, core)
keys of the entries returned by successive successful calls of `next_entry`
are strictly increasing in lexicographic order, timestamp first and core as
tiebreak; every later key is larger than every earlier one, so no key is
yielded twice. -/
theorem yielded_keys_strictly_increasing (L : Layout) (hs : spdk_trace_histories)
    (p : parser_state) (i n : Nat) (pe : spdk_trace_parser_entry)
    (hm : merged L hs p) :
    (next_entries L n { p with iter := i } pe).1.Pairwise fun a b =>
      ∃ ka kb, yielded_key hs a = some ka ∧ yielded_key hs b = some kb ∧
        (ka.tsc < kb.tsc ∨ (ka.tsc = kb.tsc ∧ ka.lcore < kb.lcore)) := by
  obtain ⟨_, hsorted, hok⟩ := merged_inv L hs p hm
  refine next_entries_pairwise L hs n { p with iter := i } pe
    (fun a b => ∃ ka kb, (deref hs a.2).map (fun e => (⟨a.1, e.tsc⟩ : entry_key)) = some ka ∧
      (deref hs b.2).map (fun e => (⟨b.1, e.tsc⟩ : entry_key)) = some kb ∧
      (ka.tsc < kb.tsc ∨ (ka.tsc = kb.tsc ∧ ka.lcore < kb.lcore))) hsorted hok ?_
  intro a b hab ⟨sa, hsa, hta, _⟩ ⟨sb, hsb, htb, _⟩
  refine ⟨⟨a.1.lcore, sa.tsc⟩, ⟨b.1.lcore, sb.tsc⟩, by simp [hsa], by simp [hsb], ?_⟩
  rw [compare_entry_key_iff] at hab
  simp only [hta, htb]
  exact hab

theorem two_cores_init :
    init_cores example_layout [0, 1] (fresh_state two_cores) = some two_cores_state := by
  rfl

theorem two_cores_merged : merged example_layout two_cores two_cores_state :=
  init_cores_merged example_layout two_cores [0, 1] _ _ merged.fresh two_cores_init

/-- On the two interleaved cores the four keys come out in increasing order. -/
theorem yielded_keys_strictly_increasing_witness :
    merged example_layout two_cores two_cores_state ∧
    (next_entries example_layout 4 { two_cores_state with iter := 0 } blank_entry).1.Pairwise
      fun a b => ∃ ka kb, yielded_key two_cores a = some ka ∧ yielded_key two_cores b = some kb ∧
        (ka.tsc < kb.tsc ∨ (ka.tsc = kb.tsc ∧ ka.lcore < kb.lcore)) :=
  ⟨two_cores_merged,
    yielded_keys_strictly_increasing example_layout two_cores two_cores_state 0 4
      blank_entry two_cores_merged⟩

/-! ## The reserved tracepoint id is never stored -/

theorem foldl_insert_slot_mem (L : Layout) (lcore hist : Nat) (e : List spdk_trace_entry)
    (vis : List Nat) (m : entry_map) (kv : entry_key × entry_ptr)
    (hkv : kv ∈ vis.foldl (insert_slot L lcore hist e) m) :
    kv ∈ m ∨ (kv.2.hist = hist ∧ kv.2.idx ∈ vis ∧
      (slot_at e kv.2.idx).tpoint_id ≠ L.SPDK_TRACE_MAX_TPOINT_ID) := by
  induction vis generalizing m with
  | nil => exact Or.inl hkv
  | cons j rest ih =>
    rw [List.foldl_cons] at hkv
    rcases ih _ hkv with h | ⟨h1, h2, h3⟩
    · unfold insert_slot at h
      split at h
      · rename_i hne
        have hv : kv.2 = ⟨hist, j⟩ → kv.2.hist = hist ∧ kv.2.idx ∈ j :: rest ∧
            (slot_at e kv.2.idx).tpoint_id ≠ L.SPDK_TRACE_MAX_TPOINT_ID := by
          intro hv
          rw [hv]
          exact ⟨rfl, List.mem_cons_self _ _, hne⟩
        rcases mem_map_assign _ _ _ _ _ h with h1 | h1 | ⟨h1, _⟩
        · exact Or.inl h1
        · exact Or.inr (hv (by rw [h1]))
        · exact Or.inr (hv h1)
      · exact Or.inl h
    · exact Or.inr ⟨h1, List.mem_cons_of_mem _ h2, h3⟩

/-- C7: `populate_events`, on every history and every parser, stores no
slot that carries the reserved tracepoint id: each pair of the map after
the call is a pair of the map before it, or points to a slot of the history
at hand whose tracepoint id is not the reserved one.  Consequently, for
every parser produced by the merge step, every entry returned by a
successful call of `next_entry` is a slot of the histories whose tracepoint
id is not the reserved one. -/
theorem sentinel_never_inserted (L : Layout) :
    (∀ (p p1 : parser_state) (hist : Nat) (h : spdk_trace_history) (n : Nat),
      populate_events L p hist h n = some p1 →
      ∀ kv ∈ p1.entries, kv ∈ p.entries ∨
        (kv.2.hist = hist ∧ kv.2.idx < h.entries.length ∧
          ∃ s, h.entries[kv.2.idx]? = some s ∧ s.tpoint_id ≠ L.SPDK_TRACE_MAX_TPOINT_ID)) ∧
    (∀ (hs : spdk_trace_histories) (p : parser_state), merged L hs p →
      ∀ (i n : Nat) (pe : spdk_trace_parser_entry),
        ∀ x ∈ (next_entries L n { p with iter := i } pe).1,
          ∃ s, deref hs x.entry = some s ∧ s.tpoint_id ≠ L.SPDK_TRACE_MAX_TPOINT_ID) := by
  constructor
  · intro p p1 hist h n hrun kv hkv
    unfold populate_events at hrun
    cases hM : count_filled h.entries n with
    | none => simp [populate_events_traced, hM] at hrun
    | some M =>
      obtain ⟨h1, h2, h3, _, _⟩ := count_filled_spec h.entries n M hM
      obtain ⟨hf, hl⟩ := choose_first_last_lt h.entries n M h1 h2
      obtain ⟨vis, hv, hvis⟩ := populate_events_traced_eq L p hist h n M hM
      rw [hv] at hrun
      simp only [Option.map_some', Option.some.injEq] at hrun
      subst hrun
      rcases foldl_insert_slot_mem L h.lcore hist h.entries vis p.entries kv hkv with
        h4 | ⟨h4, h5, h6⟩
      · exact Or.inl h4
      · rw [hvis] at h5
        have hlt : kv.2.idx < h.entries.length := by
          have := visited_of_locals _ _ M _ hf hl h5
          omega
        exact Or.inr ⟨h4, hlt, _, slot_at_of_lt _ _ hlt, h6⟩
  · intro hs p hm i n pe x hx
    obtain ⟨_, _, hok⟩ := merged_inv L hs p hm
    have h1 : (x.lcore, x.entry) ∈
        (next_entries L n { p with iter := i } pe).1.map fun x => (x.lcore, x.entry) :=
      List.mem_map.2 ⟨x, hx, rfl⟩
    have h2 := (next_entries_initial L n { p with iter := i } pe).sublist.subset h1
    obtain ⟨kv, hkv, heq⟩ := List.mem_map.1 h2
    obtain ⟨s, hs1, _, hs3⟩ := hok kv (List.mem_of_mem_drop hkv)
    simp only [Prod.mk.injEq] at heq
    exact ⟨s, by rw [← heq.2]; exact hs1, hs3⟩

/-! ## The oldest and the newest slot of a full ring -/

/-- After the rounds `1, ..., m` of the scan, `first` is the lowest index
among the slots `0, ..., m` with the smallest time stamp and `last` is the
lowest index among those with the largest time stamp. -/
theorem foldl_first_last_spec (e : List spdk_trace_entry) (m : Nat) :
    ((List.range' 1 m).foldl (first_last_step e) (0, 0)).1 ≤ m ∧
    ((List.range' 1 m).foldl (first_last_step e) (0, 0)).2 ≤ m ∧
    (∀ j, j ≤ m → (slot_at e ((List.range' 1 m).foldl (first_last_step e) (0, 0)).1).tsc ≤
      (slot_at e j).tsc) ∧
    (∀ j, j < ((List.range' 1 m).foldl (first_last_step e) (0, 0)).1 →
      (slot_at e ((List.range' 1 m).foldl (first_last_step e) (0, 0)).1).tsc <
        (slot_at e j).tsc) ∧
    (∀ j, j ≤ m → (slot_at e j).tsc ≤
      (slot_at e ((List.range' 1 m).foldl (first_last_step e) (0, 0)).2).tsc) ∧
    (∀ j, j < ((List.range' 1 m).foldl (first_last_step e) (0, 0)).2 →
      (slot_at e j).tsc <
        (slot_at e ((List.range' 1 m).foldl (first_last_step e) (0, 0)).2).tsc) := by
  induction m with
  | zero =>
    simp only [List.range'_zero, List.foldl_nil]
    refine ⟨le_refl _, le_refl _, ?_, ?_, ?_, ?_⟩
    · intro j hj; rw [Nat.le_zero.1 hj]
    · intro j hj; omega
    · intro j hj; rw [Nat.le_zero.1 hj]
    · intro j hj; omega
  | succ m ih =>
    rw [List.range'_1_concat, List.foldl_append]
    generalize (List.range' 1 m).foldl (first_last_step e) (0, 0) = fl at ih ⊢
    obtain ⟨h1, h2, h3, h4, h5, h6⟩ := ih
    simp only [List.foldl_cons, List.foldl_nil, first_last_step]
    refine ⟨?_, ?_, ?_, ?_, ?_, ?_⟩
    · split <;> omega
    · split <;> omega
    · intro j hj
      rcases Nat.lt_or_ge j (m + 1) with hlt | hge
      · have := h3 j (by omega)
        split <;> omega
      · have : j = 1 + m := by omega
        subst this
        split <;> omega
    · intro j hj
      split at hj
      · rename_i hlt
        rw [if_pos hlt]
        have := h3 j (by omega)
        omega
      · rename_i hlt
        rw [if_neg hlt]
        exact h4 j hj
    · intro j hj
      rcases Nat.lt_or_ge j (m + 1) with hlt | hge
      · have := h5 j (by omega)
        split <;> omega
      · have : j = 1 + m := by omega
        subst this
        split <;> omega
    · intro j hj
      split at hj
      · rename_i hlt
        rw [if_pos hlt]
        have := h5 j (by omega)
        omega
      · rename_i hlt
        rw [if_neg hlt]
        exact h6 j hj

theorem find_first_last_spec (e : List spdk_trace_entry) (n : Nat) (hn : 0 < n) :
    (find_first_last e n).1 < n ∧ (find_first_last e n).2 < n ∧
    (∀ j, j < n → (slot_at e (find_first_last e n).1).tsc ≤ (slot_at e j).tsc) ∧
    (∀ j, j < (find_first_last e n).1 →
      (slot_at e (find_first_last e n).1).tsc < (slot_at e j).tsc) ∧
    (∀ j, j < n → (slot_at e j).tsc ≤ (slot_at e (find_first_last e n).2).tsc) ∧
    (∀ j, j < (find_first_last e n).2 →
      (slot_at e j).tsc < (slot_at e (find_first_last e n).2).tsc) := by
  obtain ⟨h1, h2, h3, h4, h5, h6⟩ := foldl_first_last_spec e (n - 1)
  unfold find_first_last
  exact ⟨by omega, by omega, fun j hj => h3 j (by omega), h4, fun j hj => h5 j (by omega), h6⟩

/-- On a ring whose last slot was written the backward scan stops at once. -/
theorem count_filled_full (e : List spdk_trace_entry) (hne : e ≠ [])
    (hlast : (slot_at e (e.length - 1)).tsc ≠ 0) :
    count_filled e e.length = some e.length := by
  have hpos : 0 < e.length := List.length_pos.2 hne
  obtain ⟨n, hn⟩ : ∃ n, e.length = n + 1 := ⟨e.length - 1, by omega⟩
  rw [hn] at hlast ⊢
  simp only [Nat.add_sub_cancel] at hlast
  simp only [count_filled]
  rw [slot_at_of_lt e n (by omega)]
  simp only [hlast, if_false]

/-! ## Rings that never wrapped, and ties in full rings -/

theorem count_filled_dropWhile (e : List spdk_trace_entry) (n M : Nat)
    (h : count_filled e n = some M) :
    M = ((e.take n).reverse.dropWhile fun s => decide (s.tsc = 0)).length := by
  induction n with
  | zero => simp [count_filled] at h
  | succ n ih =>
    simp only [count_filled] at h
    split at h
    · simp at h
    · rename_i s hs
      have hlt : n < e.length := by
        rcases Nat.lt_or_ge n e.length with h1 | h1
        · exact h1
        · rw [List.getElem?_eq_none h1] at hs; simp at hs
      rw [List.take_succ, hs]
      simp only [Option.toList, List.reverse_append, List.reverse_cons, List.reverse_nil,
        List.nil_append, List.singleton_append]
      split at h
      · rename_i hz
        rw [List.dropWhile_cons_of_pos (by simpa using hz)]
        exact ih h
      · rename_i hz
        rw [List.dropWhile_cons_of_neg (by simpa using hz)]
        simp only [Option.some.injEq] at h
        simp only [List.length_cons, List.length_reverse, List.length_take]
        omega

/-- A ring of capacity N whose slot 0 has a nonzero time stamp and whose
last slot has a zero time stamp, M being the number of slots left once the
trailing slots with time stamp zero are removed: then 1 ≤ M < N,
`populate_events` comes to an end with `num_entries_filled = M`,
`first = 0` and `last = M - 1`, it visits exactly the slots 0, ..., M - 1,
once each and in index order, and the map it leaves is the old map after
the insertion steps of these slots, in that order. -/
theorem unwrapped_ring_first_last (L : Layout) (p : parser_state) (hist : Nat)
    (h : spdk_trace_history)
    (h0 : (slot_at h.entries 0).tsc ≠ 0)
    (hz : (slot_at h.entries (h.entries.length - 1)).tsc = 0) :
    1 ≤ (h.entries.reverse.dropWhile fun s => decide (s.tsc = 0)).length ∧
    (h.entries.reverse.dropWhile fun s => decide (s.tsc = 0)).length < h.entries.length ∧
    populate_events_traced L p hist h h.entries.length =
      some ({ p with
          tsc_offset := max (slot_at h.entries 0).tsc p.tsc_offset,
          entries := (List.range (h.entries.reverse.dropWhile
              fun s => decide (s.tsc = 0)).length).foldl
            (insert_slot L h.lcore hist h.entries) p.entries },
        ⟨(h.entries.reverse.dropWhile fun s => decide (s.tsc = 0)).length, 0,
          (h.entries.reverse.dropWhile fun s => decide (s.tsc = 0)).length - 1,
          List.range (h.entries.reverse.dropWhile fun s => decide (s.tsc = 0)).length⟩) := by
  have hpos : 0 < h.entries.length := by
    rcases Nat.eq_zero_or_pos h.entries.length with h1 | h1
    · rw [List.length_eq_zero] at h1
      rw [h1] at h0
      simp [slot_at, zero_entry] at h0
    · exact h1
  obtain ⟨M, hM⟩ := count_filled_isSome h.entries h.entries.length 0 (le_refl _) hpos h0
  have hd := count_filled_dropWhile h.entries _ M hM
  rw [List.take_length] at hd
  rw [← hd]
  obtain ⟨h1, h2, h3, h4, h5⟩ := count_filled_spec h.entries _ M hM
  have hlt : M < h.entries.length := by
    rcases Nat.lt_or_ge M h.entries.length with h6 | h6
    · exact h6
    · have : M = h.entries.length := by omega
      rw [this] at h4
      exact absurd hz h4
  refine ⟨h1, hlt, ?_⟩
  obtain ⟨vis, hv, hvis⟩ := populate_events_traced_eq L p hist h _ M hM
  have hc : choose_first_last h.entries h.entries.length M = (0, M - 1) := by
    unfold choose_first_last
    rw [if_neg (by omega)]
  rw [hc] at hv hvis
  simp only [Nat.zero_le, if_true, Nat.sub_zero] at hvis
  rw [show M - 1 + 1 = M by omega, ← List.range_eq_range'] at hvis
  rw [hv, hvis]

/-- What the scan of the code does on a full ring (every time stamp
nonzero): `populate_events` comes to an end with `first` the lowest index
among the slots that hold the smallest time stamp and `last` the lowest
index among the slots that hold the largest time stamp. -/
theorem full_ring_ties_lowest_index (L : Layout) (p : parser_state) (hist : Nat)
    (h : spdk_trace_history) (hne : h.entries ≠ [])
    (hfull : ∀ s ∈ h.entries, s.tsc ≠ 0) :
    ∃ p1 tr, populate_events_traced L p hist h h.entries.length = some (p1, tr) ∧
      tr.num_entries_filled = h.entries.length ∧
      tr.first < h.entries.length ∧ tr.last < h.entries.length ∧
      (∀ j, j < h.entries.length → (slot_at h.entries tr.first).tsc ≤ (slot_at h.entries j).tsc) ∧
      (∀ j, j < h.entries.length →
        (slot_at h.entries j).tsc = (slot_at h.entries tr.first).tsc → tr.first ≤ j) ∧
      (∀ j, j < h.entries.length → (slot_at h.entries j).tsc ≤ (slot_at h.entries tr.last).tsc) ∧
      (∀ j, j < h.entries.length →
        (slot_at h.entries j).tsc = (slot_at h.entries tr.last).tsc → tr.last ≤ j) := by
  have hpos : 0 < h.entries.length := List.length_pos.2 hne
  have hlast : (slot_at h.entries (h.entries.length - 1)).tsc ≠ 0 := by
    have h1 := slot_at_of_lt h.entries (h.entries.length - 1) (by omega)
    exact hfull _ (List.getElem?_mem h1)
  have hM := count_filled_full h.entries hne hlast
  obtain ⟨vis, hv, _⟩ := populate_events_traced_eq L p hist h _ _ hM
  have hc : choose_first_last h.entries h.entries.length h.entries.length =
      find_first_last h.entries h.entries.length := by
    unfold choose_first_last
    rw [if_pos rfl]
  rw [hc] at hv
  obtain ⟨h1, h2, h3, h4, h5, h6⟩ := find_first_last_spec h.entries _ hpos
  refine ⟨_, _, hv, rfl, h1, h2, h3, ?_, h5, ?_⟩
  · intro j _ hj
    dsimp only at hj ⊢
    rcases Nat.lt_or_ge j (find_first_last h.entries h.entries.length).1 with h7 | h7
    · have := h4 j h7
      omega
    · exact h7
  · intro j _ hj
    dsimp only at hj ⊢
    rcases Nat.lt_or_ge j (find_first_last h.entries h.entries.length).2 with h7 | h7
    · have := h6 j h7
      omega
    · exact h7

/-- In the full ring with the time stamps 10, 20, 20 the slots 1 and 2
hold the largest time stamp and `populate_events` ends with `last = 1`,
which is not the highest index among them. -/
theorem full_ring_last_not_highest :
    ¬ (∀ tr : populate_trace,
      (populate_events_traced example_layout (fresh_state (single_core tie_history)) 0
        tie_history 3).map Prod.snd = some tr →
      ∀ j, j < 3 →
        (∀ i, i < 3 → (slot_at tie_history.entries i).tsc ≤ (slot_at tie_history.entries j).tsc) →
        j ≤ tr.last) := by
  intro H
  have h1 := H ⟨3, 0, 1, [0, 1]⟩ (by decide) 2 (by decide) (by decide)
  revert h1
  decide

/-- Eight slots of which three are filled, with the time stamps 10, 20, 30:
`first = 0`, `last = 2`, the slots 0, 1, 2 are visited. -/
theorem unwrapped_ring_first_last_witness :
    (slot_at unwrapped_history.entries 0).tsc ≠ 0 ∧
    (slot_at unwrapped_history.entries (unwrapped_history.entries.length - 1)).tsc = 0 ∧
    (populate_events_traced example_layout (fresh_state (single_core unwrapped_history)) 0
      unwrapped_history 8).map Prod.snd = some ⟨3, 0, 2, [0, 1, 2]⟩ := by
  refine ⟨by decide, by decide, ?_⟩
  have h := (unwrapped_ring_first_last example_layout
    (fresh_state (single_core unwrapped_history)) 0 unwrapped_history
    (by decide) (by decide)).2.2
  have h8 : unwrapped_history.entries.length = 8 := by decide
  rw [h8] at h
  rw [h]
  decide

/-- The full ring with the time stamps 10, 20, 20. -/
theorem full_ring_ties_lowest_index_witness :
    tie_history.entries ≠ [] ∧ (∀ s ∈ tie_history.entries, s.tsc ≠ 0) ∧
    ∃ p1 tr, populate_events_traced example_layout (fresh_state (single_core tie_history)) 0
        tie_history tie_history.entries.length = some (p1, tr) ∧ tr.last < 3 :=
  ⟨by decide, by decide,
    (full_ring_ties_lowest_index example_layout (fresh_state (single_core tie_history)) 0
      tie_history (by decide) (by decide)).imp fun _ hp1 =>
        hp1.imp fun _ htr => ⟨htr.1, htr.2.2.2.1⟩⟩

/-! ## Lookups in the ordered map -/

theorem map_find_assign_self {K V : Type} (lt : K → K → Bool) (hirr : ∀ a, lt a a = false)
    (k : K) (v : V) (m : List (K × V)) :
    map_find lt k (map_assign lt k v m) = some v := by
  induction m with
  | nil => simp [map_assign, map_find, hirr]
  | cons kv rest ih =>
    obtain ⟨k1, v1⟩ := kv
    simp only [map_assign]
    split
    · simp [map_find, hirr]
    · rename_i h1
      split
      · rename_i h2
        simp only [map_find, h2, Bool.not_true, Bool.and_false]
        exact ih
      · rename_i h2
        simp only [map_find]
        simp [h1, h2]

theorem map_find_assign_other {K V : Type} (lt : K → K → Bool)
    (heq : ∀ a b, lt a b = false → lt b a = false → a = b)
    (k k1 : K) (v : V) (m : List (K × V)) (hne : k1 ≠ k) :
    map_find lt k1 (map_assign lt k v m) = map_find lt k1 m := by
  have hk : (!lt k1 k && !lt k k1) = false := by
    cases h1 : lt k1 k <;> cases h2 : lt k k1 <;> simp
    exact hne (heq _ _ h1 h2)
  induction m with
  | nil => simp [map_assign, map_find, hk]
  | cons kv rest ih =>
    obtain ⟨k2, v2⟩ := kv
    simp only [map_assign]
    split
    · simp only [map_find, hk]
      simp
    · rename_i h1
      split
      · simp only [map_find, ih]
      · rename_i h2
        have h3 : k = k2 := heq _ _ (by simpa using h1) (by simpa using h2)
        subst h3
        simp only [map_find, hk]
        simp

theorem compare_entry_key_irrefl (a : entry_key) : compare_entry_key a a = false := by
  simp [compare_entry_key]

theorem compare_u64_irrefl (a : Nat) : compare_u64 a a = false := by
  simp [compare_u64]

theorem compare_u64_equiv (a b : Nat) (hab : compare_u64 a b = false)
    (hba : compare_u64 b a = false) : a = b := by
  simp only [compare_u64, decide_eq_false_iff_not] at hab hba
  omega

/-! ## Slots of a rotated ring -/

theorem slot_at_append (x y : List spdk_trace_entry) (j : Nat) :
    slot_at (x ++ y) j = if j < x.length then slot_at x j else slot_at y (j - x.length) := by
  simp only [slot_at, List.getD_eq_getElem?_getD, List.getElem?_append]
  split <;> rfl

theorem slot_at_mem (e : List spdk_trace_entry) (j : Nat) (hj : j < e.length) :
    slot_at e j ∈ e :=
  List.getElem?_mem (slot_at_of_lt e j hj)

theorem slot_tsc_strict (s : List spdk_trace_entry)
    (hinc : (s.map fun x => x.tsc).Pairwise (· < ·)) (i j : Nat) (hij : i < j)
    (hj : j < s.length) : (slot_at s i).tsc < (slot_at s j).tsc := by
  rw [List.pairwise_map, List.pairwise_iff_getElem] at hinc
  have h := hinc i j (by omega) hj hij
  have hi := slot_at_of_lt s i (by omega)
  have hj2 := slot_at_of_lt s j hj
  rw [List.getElem?_eq_getElem (by omega)] at hi hj2
  simp only [Option.some.injEq] at hi hj2
  rw [← hi, ← hj2]
  exact h

/-- The slot `j` of the ring `b ++ a` is the slot of the write order
`a ++ b` at the rotated position. -/
theorem slot_at_rotated (a b : List spdk_trace_entry) (j : Nat) (hj : j < a.length + b.length) :
    slot_at (b ++ a) j =
      slot_at (a ++ b) (if j < b.length then a.length + j else j - b.length) := by
  rw [slot_at_append, slot_at_append]
  split
  · rw [if_neg (by omega)]
    congr 1
    omega
  · rw [if_pos (by omega)]

/-- In a ring that is a rotation of strictly increasing time stamps the scan
finds the slot written first and the slot written last. -/
theorem find_first_last_rotated (a b : List spdk_trace_entry)
    (hpos : 0 < a.length + b.length)
    (hinc : ((a ++ b).map fun x => x.tsc).Pairwise (· < ·)) :
    find_first_last (b ++ a) (a.length + b.length) =
      (if a.length = 0 then 0 else b.length,
       if b.length = 0 then a.length - 1 else b.length - 1) := by
  obtain ⟨h1, h2, h3, _, h5, _⟩ := find_first_last_spec (b ++ a) (a.length + b.length) hpos
  have hmono := slot_tsc_strict (a ++ b) hinc
  have hlen : (a ++ b).length = a.length + b.length := List.length_append _ _
  have hrot := slot_at_rotated a b
  generalize find_first_last (b ++ a) (a.length + b.length) = fl at h1 h2 h3 h5
  obtain ⟨f, l⟩ := fl
  simp only at h1 h2 h3 h5
  congr 1
  · -- the slot written first
    have hf := h3 (if a.length = 0 then 0 else b.length) (by split <;> omega)
    rw [hrot f h1, hrot _ (by split <;> omega)] at hf
    have hz : (if (if a.length = 0 then 0 else b.length) < b.length then
        a.length + (if a.length = 0 then 0 else b.length)
        else (if a.length = 0 then 0 else b.length) - b.length) = 0 := by
      split <;> split <;> omega
    rw [hz] at hf
    by_contra hne
    have hpos2 : 0 < (if f < b.length then a.length + f else f - b.length) := by
      split <;> split at hne <;> omega
    have := hmono 0 _ hpos2 (by rw [hlen]; split <;> omega)
    omega
  · -- the slot written last
    have hl := h5 (if b.length = 0 then a.length - 1 else b.length - 1) (by split <;> omega)
    rw [hrot l h2, hrot _ (by split <;> omega)] at hl
    have hz : (if (if b.length = 0 then a.length - 1 else b.length - 1) < b.length then
        a.length + (if b.length = 0 then a.length - 1 else b.length - 1)
        else (if b.length = 0 then a.length - 1 else b.length - 1) - b.length) =
        a.length + b.length - 1 := by
      split <;> split <;> omega
    rw [hz] at hl
    by_contra hne
    have hlt : (if l < b.length then a.length + l else l - b.length) <
        a.length + b.length - 1 := by
      split <;> split at hne <;> omega
    have := hmono _ _ hlt (by rw [hlen]; omega)
    omega

/-! ## A full ring is read in the order it was written -/

theorem foldl_insert_slot_find_other (L : Layout) (lcore hist : Nat) (e : List spdk_trace_entry)
    (vis : List Nat) (m : entry_map) (t : Nat)
    (hne : ∀ i ∈ vis, (slot_at e i).tsc ≠ t) :
    map_find compare_entry_key ⟨lcore % 2 ^ 16, t⟩ (vis.foldl (insert_slot L lcore hist e) m) =
      map_find compare_entry_key ⟨lcore % 2 ^ 16, t⟩ m := by
  induction vis generalizing m with
  | nil => rfl
  | cons i rest ih =>
    rw [List.foldl_cons, ih _ (fun i' hi' => hne i' (List.mem_cons_of_mem _ hi'))]
    unfold insert_slot
    split
    · apply map_find_assign_other _ compare_entry_key_equiv
      intro h
      simp only [entry_key.mk.injEq, true_and] at h
      exact hne i (List.mem_cons_self _ _) h.symm
    · rfl

/-- After the insertion loop every visited event is found under its own key,
provided the visited slots are events with pairwise distinct time stamps. -/
theorem foldl_insert_slot_find (L : Layout) (lcore hist : Nat) (e : List spdk_trace_entry)
    (vis : List Nat) (m : entry_map) (j : Nat) (hj : j ∈ vis)
    (hev : ∀ i ∈ vis, (slot_at e i).tpoint_id ≠ L.SPDK_TRACE_MAX_TPOINT_ID)
    (hinj : ∀ i ∈ vis, ∀ i1 ∈ vis, (slot_at e i).tsc = (slot_at e i1).tsc → i = i1) :
    map_find compare_entry_key ⟨lcore % 2 ^ 16, (slot_at e j).tsc⟩
      (vis.foldl (insert_slot L lcore hist e) m) = some ⟨hist, j⟩ := by
  induction vis generalizing m with
  | nil => simp at hj
  | cons i rest ih =>
    rw [List.foldl_cons]
    by_cases hjr : j ∈ rest
    · exact ih _ hjr (fun i' hi' => hev i' (List.mem_cons_of_mem _ hi'))
        (fun i' hi' i1 hi1 => hinj i' (List.mem_cons_of_mem _ hi') i1 (List.mem_cons_of_mem _ hi1))
    · have hji : j = i := by
        rcases List.mem_cons.1 hj with h | h
        · exact h
        · exact absurd h hjr
      subst hji
      rw [foldl_insert_slot_find_other]
      · unfold insert_slot
        rw [if_pos (hev j (List.mem_cons_self _ _))]
        exact map_find_assign_self _ compare_entry_key_irrefl _ _ _
      · intro i' hi' heq
        have := hinj i' (List.mem_cons_of_mem _ hi') j (List.mem_cons_self _ _) heq
        exact hjr (this ▸ hi')

theorem map_slot_at_range_left (x y : List spdk_trace_entry) :
    (List.range' 0 x.length).map (slot_at (x ++ y)) = x := by
  apply List.ext_getElem
  · simp
  · intro i h1 h2
    simp only [List.getElem_map, List.getElem_range', Nat.zero_add, Nat.one_mul]
    rw [slot_at_append, if_pos h2]
    have := slot_at_of_lt x i h2
    rw [List.getElem?_eq_getElem h2] at this
    simp only [Option.some.injEq] at this
    exact this.symm

theorem map_slot_at_range_right (x y : List spdk_trace_entry) :
    (List.range' x.length y.length).map (slot_at (x ++ y)) = y := by
  apply List.ext_getElem
  · simp
  · intro i h1 h2
    simp only [List.getElem_map, List.getElem_range', Nat.one_mul]
    rw [slot_at_append, if_neg (by omega), show x.length + i - x.length = i by omega]
    have := slot_at_of_lt y i h2
    rw [List.getElem?_eq_getElem h2] at this
    simp only [Option.some.injEq] at this
    exact this.symm

/-- The run of `populate_events` on the ring `b ++ a` whose write order
`a ++ b` has strictly increasing, nonzero time stamps. -/
theorem populate_events_rotated (L : Layout) (p : parser_state) (hist lcore : Nat)
    (a b : List spdk_trace_entry) (hpos : 0 < a.length + b.length)
    (hinc : ((a ++ b).map fun x => x.tsc).Pairwise (· < ·))
    (hnz : ∀ x ∈ a ++ b, x.tsc ≠ 0) :
    populate_events_traced L p hist ⟨lcore, b ++ a⟩ (a.length + b.length) =
      some ({ p with
          tsc_offset := max (slot_at (b ++ a) (if a.length = 0 then 0 else b.length)).tsc
            p.tsc_offset,
          entries := (List.range' b.length a.length ++ List.range' 0 b.length).foldl
            (insert_slot L lcore hist (b ++ a)) p.entries },
        ⟨a.length + b.length, if a.length = 0 then 0 else b.length,
          if b.length = 0 then a.length - 1 else b.length - 1,
          List.range' b.length a.length ++ List.range' 0 b.length⟩) := by
  have hlen : (b ++ a).length = a.length + b.length := by
    rw [List.length_append]; omega
  have hne : b ++ a ≠ [] := by
    intro h
    rw [h] at hlen
    simp at hlen
    omega
  have hlast : (slot_at (b ++ a) ((b ++ a).length - 1)).tsc ≠ 0 := by
    have h1 := slot_at_mem (b ++ a) ((b ++ a).length - 1) (by omega)
    apply hnz
    rw [List.mem_append] at h1 ⊢
    exact h1.symm
  have hM := count_filled_full (b ++ a) hne hlast
  rw [hlen] at hM
  obtain ⟨vis, hv, hvis⟩ := populate_events_traced_eq L p hist ⟨lcore, b ++ a⟩ _ _ hM
  have hc : choose_first_last (b ++ a) (a.length + b.length) (a.length + b.length) =
      (if a.length = 0 then 0 else b.length,
       if b.length = 0 then a.length - 1 else b.length - 1) := by
    unfold choose_first_last
    rw [if_pos rfl]
    exact find_first_last_rotated a b hpos hinc
  simp only [hc] at hv hvis
  have hvis2 : vis = List.range' b.length a.length ++ List.range' 0 b.length := by
    rw [hvis]
    by_cases ha : a.length = 0
    · have hb : b.length ≠ 0 := by omega
      simp only [ha, hb, if_true, if_false, Nat.zero_le, Nat.sub_zero, List.range'_zero,
        List.nil_append, Nat.zero_add]
      rw [show b.length - 1 + 1 = b.length by omega]
    · by_cases hb : b.length = 0
      · simp only [ha, hb, if_true, if_false, Nat.zero_le, Nat.sub_zero, List.range'_zero,
          List.append_nil, le_refl]
        rw [show a.length - 1 + 1 = a.length by omega]
      · simp only [ha, hb, if_false]
        rw [if_neg (by omega), show a.length + b.length - b.length = a.length by omega,
          show b.length - 1 + 1 = b.length by omega]
  rw [hv, hvis2]

theorem slot_tsc_rotated_inj (a b : List spdk_trace_entry)
    (hinc : ((a ++ b).map fun x => x.tsc).Pairwise (· < ·)) (i j : Nat)
    (hi : i < a.length + b.length) (hj : j < a.length + b.length)
    (h : (slot_at (b ++ a) i).tsc = (slot_at (b ++ a) j).tsc) : i = j := by
  have hmono := slot_tsc_strict (a ++ b) hinc
  have hlen : (a ++ b).length = a.length + b.length := List.length_append _ _
  rw [slot_at_rotated a b i hi, slot_at_rotated a b j hj] at h
  rcases Nat.lt_trichotomy (if i < b.length then a.length + i else i - b.length)
      (if j < b.length then a.length + j else j - b.length) with h1 | h1 | h1
  · have := hmono _ _ h1 (by rw [hlen]; split <;> omega)
    omega
  · split at h1 <;> split at h1 <;> omega
  · have := hmono _ _ h1 (by rw [hlen]; split <;> omega)
    omega

/-- C4: a full ring of capacity N (every time stamp nonzero, no slot with
the reserved tracepoint id) whose physical slots are the rotation, by any
offset k, of a sequence with strictly increasing time stamps:
`populate_events` comes to an end with `first` the index of the smallest
time stamp and `last = (first - 1) mod N`, the slots it visits are the N
slots of the ring, each once, in the order of increasing time stamps (the
slots read along the visit are the increasing sequence itself), and after
the call each of the N events is found in the map under its own key. -/
theorem wrapped_ring_in_order (L : Layout) (p : parser_state) (hist lcore : Nat)
    (s : List spdk_trace_entry) (k : Nat) (hne : s ≠ [])
    (hinc : (s.map fun x => x.tsc).Pairwise (· < ·))
    (hnz : ∀ x ∈ s, x.tsc ≠ 0)
    (hev : ∀ x ∈ s, x.tpoint_id ≠ L.SPDK_TRACE_MAX_TPOINT_ID) :
    ∃ p1 tr, populate_events_traced L p hist ⟨lcore, s.rotate k⟩ s.length = some (p1, tr) ∧
      tr.num_entries_filled = s.length ∧
      tr.first = (s.length - k % s.length) % s.length ∧
      (∀ j, j < s.length →
        (slot_at (s.rotate k) tr.first).tsc ≤ (slot_at (s.rotate k) j).tsc) ∧
      tr.last = (tr.first + s.length - 1) % s.length ∧
      tr.visited.Perm (List.range s.length) ∧
      tr.visited.map (slot_at (s.rotate k)) = s ∧
      (∀ j, j < s.length →
        map_find compare_entry_key ⟨lcore % 2 ^ 16, (slot_at (s.rotate k) j).tsc⟩ p1.entries =
          some ⟨hist, j⟩) := by
  have hpos : 0 < s.length := List.length_pos.2 hne
  have hr : k % s.length < s.length := Nat.mod_lt _ hpos
  have hrot : s.rotate k = s.drop (k % s.length) ++ s.take (k % s.length) :=
    List.rotate_eq_drop_append_take_mod
  have hla : (s.take (k % s.length)).length = k % s.length := by
    rw [List.length_take]; omega
  have hlb : (s.drop (k % s.length)).length = s.length - k % s.length := List.length_drop _ _
  have hsplit : s.take (k % s.length) ++ s.drop (k % s.length) = s := List.take_append_drop _ _
  rw [hrot]
  generalize s.take (k % s.length) = a at hla hsplit
  generalize s.drop (k % s.length) = b at hlb hsplit
  generalize k % s.length = r at hr hla hlb
  subst hsplit
  rw [List.length_append] at hr hlb hpos ⊢
  have hperm : (List.range' b.length a.length ++ List.range' 0 b.length).Perm
      (List.range (a.length + b.length)) := by
    refine List.perm_append_comm.trans ?_
    have := List.range'_append_1 0 b.length a.length
    rw [Nat.zero_add] at this
    rw [this, List.range_eq_range']
  have hspec := find_first_last_spec (b ++ a) (a.length + b.length) hpos
  rw [find_first_last_rotated a b hpos hinc] at hspec
  refine ⟨_, _, populate_events_rotated L p hist lcore a b hpos hinc hnz, rfl, ?_, hspec.2.2.1,
    ?_, hperm, ?_, ?_⟩
  · show (if a.length = 0 then 0 else b.length) = _
    by_cases h0 : r = 0
    · rw [if_pos (by omega), h0, Nat.sub_zero, Nat.mod_self]
    · rw [if_neg (by omega), Nat.mod_eq_of_lt (by omega)]
      omega
  · show (if b.length = 0 then a.length - 1 else b.length - 1) =
      ((if a.length = 0 then 0 else b.length) + (a.length + b.length) - 1) % (a.length + b.length)
    rw [if_neg (by omega)]
    by_cases h0 : r = 0
    · rw [if_pos (by omega), Nat.mod_eq_of_lt (by omega)]
      omega
    · rw [if_neg (by omega),
        show b.length + (a.length + b.length) - 1 = (b.length - 1) + (a.length + b.length) by omega,
        Nat.add_mod_right, Nat.mod_eq_of_lt (by omega)]
  · show (List.range' b.length a.length ++ List.range' 0 b.length).map (slot_at (b ++ a)) = a ++ b
    rw [List.map_append, map_slot_at_range_right, map_slot_at_range_left]
  · intro j hj
    have hmem : ∀ i ∈ List.range' b.length a.length ++ List.range' 0 b.length,
        i < a.length + b.length := by
      intro i hi
      have := hperm.subset hi
      rwa [List.mem_range] at this
    apply foldl_insert_slot_find
    · exact hperm.symm.subset (List.mem_range.2 hj)
    · intro i hi
      have h1 := slot_at_mem (b ++ a) i (by rw [List.length_append]; have := hmem i hi; omega)
      apply hev
      rw [List.mem_append] at h1 ⊢
      exact h1.symm
    · intro i hi i1 hi1 heq
      exact slot_tsc_rotated_inj a b hinc i i1 (hmem i hi) (hmem i1 hi1) heq

/-- The ring with the physical time stamps 50, 60, 70, 40: `first = 3`,
`last = 2`, the slots are visited in the order 3, 0, 1, 2. -/
theorem wrapped_ring_in_order_witness :
    ([event_slot 3 40 0, event_slot 3 50 0, event_slot 3 60 0, event_slot 3 70 0] ≠ []) ∧
    (([event_slot 3 40 0, event_slot 3 50 0, event_slot 3 60 0, event_slot 3 70 0].map
      fun x => x.tsc).Pairwise (· < ·)) ∧
    (∀ x ∈ [event_slot 3 40 0, event_slot 3 50 0, event_slot 3 60 0, event_slot 3 70 0],
      x.tsc ≠ 0) ∧
    (∀ x ∈ [event_slot 3 40 0, event_slot 3 50 0, event_slot 3 60 0, event_slot 3 70 0],
      x.tpoint_id ≠ example_layout.SPDK_TRACE_MAX_TPOINT_ID) ∧
    [event_slot 3 40 0, event_slot 3 50 0, event_slot 3 60 0, event_slot 3 70 0].rotate 1 =
      wrapped_history.entries ∧
    (populate_events_traced example_layout (fresh_state (single_core wrapped_history)) 0
      wrapped_history 4).map Prod.snd = some ⟨4, 3, 2, [3, 0, 1, 2]⟩ ∧
    ∃ p1 tr, populate_events_traced example_layout (fresh_state (single_core wrapped_history)) 0
        ⟨0, [event_slot 3 40 0, event_slot 3 50 0, event_slot 3 60 0, event_slot 3 70 0].rotate 1⟩
        [event_slot 3 40 0, event_slot 3 50 0, event_slot 3 60 0, event_slot 3 70 0].length =
          some (p1, tr) ∧
      tr.first = 3 ∧ tr.last = 2 :=
  ⟨by decide, by decide, by decide, by decide, by decide, by decide,
    (wrapped_ring_in_order example_layout (fresh_state (single_core wrapped_history)) 0 0
      [event_slot 3 40 0, event_slot 3 50 0, event_slot 3 60 0, event_slot 3 70 0] 1
      (by decide) (by decide) (by decide) (by decide)).imp fun _ hp1 =>
        hp1.imp fun _ htr => ⟨htr.1, htr.2.2.1, by rw [htr.2.2.2.2.1, htr.2.2.1]; rfl⟩⟩

/-! ## The producer and the oldest live time stamp -/

theorem producer_write_length (N : Nat) (ws : List spdk_trace_entry) (j : Nat)
    (ring : List spdk_trace_entry) : (producer_write N ws j ring).length = ring.length := by
  induction ws generalizing j ring with
  | nil => rfl
  | cons w ws ih => simp only [producer_write, ih, List.length_set]

theorem producer_write_append (N : Nat) (ws1 ws2 : List spdk_trace_entry) (j : Nat)
    (ring : List spdk_trace_entry) :
    producer_write N (ws1 ++ ws2) j ring =
      producer_write N ws2 (j + ws1.length) (producer_write N ws1 j ring) := by
  induction ws1 generalizing j ring with
  | nil => rfl
  | cons w ws ih =>
    show producer_write N (ws ++ ws2) (j + 1) (ring.set (j % N) w) =
      producer_write N ws2 (j + (ws.length + 1)) (producer_write N ws (j + 1) (ring.set (j % N) w))
    rw [ih, show j + 1 + ws.length = j + (ws.length + 1) by omega]

theorem producer_write_all (N : Nat) (Q : spdk_trace_entry → Prop) (ws : List spdk_trace_entry)
    (j : Nat) (ring : List spdk_trace_entry) (hring : ∀ s ∈ ring, Q s) (hws : ∀ w ∈ ws, Q w) :
    ∀ s ∈ producer_write N ws j ring, Q s := by
  induction ws generalizing j ring with
  | nil => exact hring
  | cons w ws ih =>
    simp only [producer_write]
    apply ih
    · intro s hs
      rcases List.mem_or_eq_of_mem_set hs with h | h
      · exact hring s h
      · rw [h]; exact hws w (List.mem_cons_self _ _)
    · intro x hx; exact hws x (List.mem_cons_of_mem _ hx)

/-- Before the first wrap the ring holds the written entries in order. -/
theorem producer_write_unwrapped (N : Nat) (ws : List spdk_trace_entry) (j : Nat)
    (ring : List spdk_trace_entry) (hN : ring.length = N) (hj : j + ws.length ≤ N) :
    producer_write N ws j ring = ring.take j ++ ws ++ ring.drop (j + ws.length) := by
  induction ws generalizing j ring with
  | nil => simp [producer_write]
  | cons w ws ih =>
    simp only [List.length_cons] at hj
    simp only [producer_write]
    rw [ih (j + 1) _ (by rw [List.length_set]; exact hN) (by omega),
      Nat.mod_eq_of_lt (by omega)]
    rw [List.drop_set_of_lt w ring (by omega), List.take_succ, List.set_take,
      List.set_eq_of_length_le (by rw [List.length_take]; omega),
      List.getElem?_set_self (by omega)]
    simp only [Option.toList, List.append_assoc, List.singleton_append, List.length_cons]
    rw [show j + 1 + ws.length = j + (ws.length + 1) by omega]

theorem foldl_min_le (t : Nat) (ts : List Nat) : ∀ x ∈ t :: ts, ts.foldl min t ≤ x := by
  induction ts generalizing t with
  | nil =>
    intro x hx
    simp only [List.mem_singleton] at hx
    simp [hx]
  | cons u us ih =>
    intro x hx
    rw [List.foldl_cons]
    rcases List.mem_cons.1 hx with h | h
    · have := ih (min t u) (min t u) (List.mem_cons_self _ _)
      rw [h]; omega
    · rcases List.mem_cons.1 h with h1 | h1
      · have := ih (min t u) (min t u) (List.mem_cons_self _ _)
        rw [h1]; omega
      · exact ih (min t u) x (List.mem_cons_of_mem _ h1)

theorem foldl_min_mem (t : Nat) (ts : List Nat) : ts.foldl min t ∈ t :: ts := by
  induction ts generalizing t with
  | nil => simp
  | cons u us ih =>
    rw [List.foldl_cons]
    rcases List.mem_cons.1 (ih (min t u)) with h | h
    · rw [h]
      rcases Nat.le_total t u with h1 | h1
      · rw [Nat.min_eq_left h1]; exact List.mem_cons_self _ _
      · rw [Nat.min_eq_right h1]; exact List.mem_cons_of_mem _ (List.mem_cons_self _ _)
    · exact List.mem_cons_of_mem _ (List.mem_cons_of_mem _ h)

/-- The oldest live time stamp is the time stamp of a filled slot that is
below the time stamp of every filled slot. -/
theorem oldest_live_eq (e : List spdk_trace_entry) (v : Nat)
    (hmem : ∃ s ∈ e, s.tsc ≠ 0 ∧ s.tsc = v)
    (hle : ∀ s ∈ e, s.tsc ≠ 0 → v ≤ s.tsc) : oldest_live e = v := by
  have hv : v ∈ (e.filter fun s => decide (s.tsc ≠ 0)).map fun s => s.tsc := by
    obtain ⟨s, hs, hnz, heq⟩ := hmem
    exact List.mem_map.2 ⟨s, List.mem_filter.2 ⟨hs, by simpa using hnz⟩, heq⟩
  have hall : ∀ x ∈ (e.filter fun s => decide (s.tsc ≠ 0)).map fun s => s.tsc, v ≤ x := by
    intro x hx
    obtain ⟨s, hs, heq⟩ := List.mem_map.1 hx
    rw [List.mem_filter] at hs
    rw [← heq]
    exact hle s hs.1 (by simpa using hs.2)
  unfold oldest_live
  generalize ((e.filter fun s => decide (s.tsc ≠ 0)).map fun s => s.tsc) = l at hv hall
  cases l with
  | nil => simp at hv
  | cons t ts =>
    simp only
    have h1 := foldl_min_le t ts v hv
    have h2 := hall _ (foldl_min_mem t ts)
    omega

/-- A ring the producer left behind is full of written slots, or it is the
written slots in write order followed by never-written slots. -/
theorem write_ordered_shape (e : List spdk_trace_entry) (h : write_ordered e) :
    (∀ s ∈ e, s.tsc ≠ 0) ∨
    (∃ ws zs : List spdk_trace_entry, e = ws ++ zs ∧ zs ≠ [] ∧ (∀ w ∈ ws, w.tsc ≠ 0) ∧
      (∀ z ∈ zs, z.tsc = 0) ∧ (ws.map fun w => w.tsc).Pairwise (· ≤ ·)) := by
  obtain ⟨blank, ws, hlen, hblank, hws, hsorted, he⟩ := h
  rcases Nat.lt_or_ge ws.length e.length with hlt | hge
  · right
    refine ⟨ws, blank.drop ws.length, ?_, ?_, hws, ?_, hsorted⟩
    · have := producer_write_unwrapped e.length ws 0 blank hlen (by omega)
      rw [← he] at this
      simpa using this
    · intro h0
      have := congrArg List.length h0
      rw [List.length_drop] at this
      simp at this
      omega
    · intro z hz
      exact hblank z (List.mem_of_mem_drop hz)
  · left
    have hsplit : ws = ws.take e.length ++ ws.drop e.length := (List.take_append_drop _ _).symm
    rw [hsplit, producer_write_append, producer_write_unwrapped e.length _ 0 blank hlen
      (by rw [List.length_take]; omega)] at he
    rw [he]
    apply producer_write_all
    · intro s hs
      simp only [List.take_zero, List.nil_append, List.mem_append] at hs
      rcases hs with h1 | h1
      · exact hws s (List.mem_of_mem_take h1)
      · rw [List.length_take, Nat.zero_add, Nat.min_eq_left hge,
          List.drop_eq_nil_of_le (by omega)] at h1
        simp at h1
    · intro w hw
      exact hws w (List.mem_of_mem_drop hw)

theorem history_selected_iff (h : spdk_trace_history) :
    history_selected h = true ↔ h.entries.length ≠ 0 ∧ (slot_at h.entries 0).tsc ≠ 0 := by
  simp [history_selected]

/-- On a selected core whose ring the producer left behind, `populate_events`
comes to an end and raises `tsc_offset` to the oldest live time stamp of the
core, if that is larger. -/
theorem populate_events_tsc_offset (L : Layout) (p : parser_state) (hist : Nat)
    (h : spdk_trace_history) (hsel : history_selected h = true)
    (hord : write_ordered h.entries) :
    ∃ p1, populate_events L p hist h h.entries.length = some p1 ∧
      p1.tsc_offset = max p.tsc_offset (oldest_live h.entries) ∧
      p1.histories = p.histories := by
  rw [history_selected_iff] at hsel
  obtain ⟨hN, h0⟩ := hsel
  obtain ⟨M, hM⟩ := count_filled_isSome h.entries h.entries.length 0 (le_refl _) (by omega) h0
  obtain ⟨vis, hv, _⟩ := populate_events_traced_eq L p hist h _ M hM
  obtain ⟨hM1, hM2, hM3, hM4, hM5⟩ := count_filled_spec h.entries _ M hM
  have hp : populate_events L p hist h h.entries.length = some { p with
      tsc_offset := max (slot_at h.entries (choose_first_last h.entries h.entries.length M).1).tsc
        p.tsc_offset,
      entries := vis.foldl (insert_slot L h.lcore hist h.entries) p.entries } := by
    unfold populate_events
    rw [hv]
    rfl
  refine ⟨_, hp, ?_, rfl⟩
  show max (slot_at h.entries (choose_first_last h.entries h.entries.length M).1).tsc
    p.tsc_offset = _
  rw [max_comm]
  congr 1
  symm
  apply oldest_live_eq
  · refine ⟨_, slot_at_mem _ _ ?_, ?_, rfl⟩
    · have := (choose_first_last_lt h.entries _ M hM1 hM2).1
      omega
    · unfold choose_first_last
      split
      · rename_i heq
        rcases write_ordered_shape _ hord with hall | ⟨ws, zs, he, hzs, _, hz, _⟩
        · apply hall
          apply slot_at_mem
          exact (find_first_last_lt h.entries _ (by omega)).1
        · exfalso
          apply hM4
          rw [← heq]
          apply hz
          have hl := slot_at_mem h.entries (h.entries.length - 1) (by omega)
          have hzl : 0 < zs.length := List.length_pos.2 hzs
          have hlen : h.entries.length = ws.length + zs.length := by rw [he, List.length_append]
          rw [he] at hl ⊢
          rw [slot_at_append, if_neg (by rw [List.length_append]; omega)]
          apply slot_at_mem
          rw [List.length_append]
          omega
      · exact h0
  · intro s hs hnz
    unfold choose_first_last
    split
    · obtain ⟨j, hj, hjs⟩ := List.getElem_of_mem hs
      have := (find_first_last_spec h.entries _ (by omega)).2.2.1 j hj
      have h1 := slot_at_of_lt h.entries j hj
      rw [List.getElem?_eq_getElem hj, hjs] at h1
      simp only [Option.some.injEq] at h1
      rw [← h1] at this
      exact this
    · rename_i hneq
      rcases write_ordered_shape _ hord with hall | ⟨ws, zs, he, hzs, hw, hz, hsorted⟩
      · exfalso
        apply hneq
        have := count_filled_full h.entries (by intro h1; rw [h1] at hN; simp at hN)
          (hall _ (slot_at_mem _ _ (by omega)))
        rw [hM] at this
        simp only [Option.some.injEq] at this
        exact this.symm
      · simp only
        rw [he] at hs h0 ⊢
        have hsw : s ∈ ws := by
          rcases List.mem_append.1 hs with h1 | h1
          · exact h1
          · exact absurd (hz s h1) hnz
        cases ws with
        | nil => simp at hsw
        | cons w0 rest =>
          simp only [List.map_cons, List.pairwise_cons, List.mem_map, forall_exists_index,
            and_imp, forall_apply_eq_imp_iff₂] at hsorted
          have h00 : slot_at (w0 :: rest ++ zs) 0 = w0 := by simp [slot_at]
          rw [h00]
          rcases List.mem_cons.1 hsw with h1 | h1
          · rw [h1]
          · exact hsorted.1 s h1

theorem foldl_max_ge (l : List Nat) (a : Nat) :
    a ≤ l.foldl max a ∧ ∀ t ∈ l, t ≤ l.foldl max a := by
  induction l generalizing a with
  | nil => simp
  | cons x xs ih =>
    rw [List.foldl_cons]
    obtain ⟨h1, h2⟩ := ih (max a x)
    refine ⟨by omega, ?_⟩
    intro t ht
    rcases List.mem_cons.1 ht with h | h
    · rw [h]; omega
    · exact h2 t h

/-- Running the merge over write-ordered cores raises `tsc_offset` to the
largest of the oldest live time stamps of the selected cores. -/
theorem init_cores_tsc_offset (L : Layout) (hs : spdk_trace_histories) (cores : List Nat)
    (p0 : parser_state) (hp0 : p0.histories = hs)
    (hvalid : ∀ c ∈ cores, c < hs.per_lcore.length)
    (hord : ∀ c ∈ cores, ∀ h, hs.per_lcore[c]? = some h → history_selected h = true →
      write_ordered h.entries) :
    ∃ p, init_cores L cores p0 = some p ∧
      p.tsc_offset = (selected_oldest hs cores).foldl max p0.tsc_offset ∧
      p.histories = hs := by
  induction cores generalizing p0 with
  | nil => exact ⟨p0, rfl, rfl, hp0⟩
  | cons c rest ih =>
    have hc := hvalid c (List.mem_cons_self _ _)
    have hh : hs.per_lcore[c]? = some hs.per_lcore[c] := List.getElem?_eq_getElem hc
    generalize hs.per_lcore[c] = h at hh
    have hrest := fun p1 hp1 => ih p1 hp1
      (fun c1 hc1 => hvalid c1 (List.mem_cons_of_mem _ hc1))
      (fun c1 hc1 => hord c1 (List.mem_cons_of_mem _ hc1))
    simp only [init_cores, init_core, spdk_get_per_lcore_history, hp0, hh, selected_oldest,
      List.filterMap_cons]
    by_cases hsel : history_selected h = true
    · obtain ⟨p1, hp1, ht, hhist⟩ := populate_events_tsc_offset L p0 c h hsel
        (hord c (List.mem_cons_self _ _) h hh hsel)
      obtain ⟨p, hp, hpt, hph⟩ := hrest p1 (hhist.trans hp0)
      simp only [hsel, if_true, hp1, List.foldl_cons]
      refine ⟨p, hp, ?_, hph⟩
      rw [hpt, ht]
      rfl
    · obtain ⟨p, hp, hpt, hph⟩ := hrest p0 hp0
      simp only [hsel, if_false]
      exact ⟨p, hp, hpt, hph⟩

theorem foldl_max_mem (l : List Nat) (a : Nat) : l.foldl max a = a ∨ l.foldl max a ∈ l := by
  induction l generalizing a with
  | nil => exact Or.inl rfl
  | cons x xs ih =>
    rw [List.foldl_cons]
    rcases ih (max a x) with h | h
    · rw [h]
      rcases Nat.le_total a x with h1 | h1
      · rw [Nat.max_eq_right h1]; exact Or.inr (List.mem_cons_self _ _)
      · rw [Nat.max_eq_left h1]; exact Or.inl rfl
    · exact Or.inr (List.mem_cons_of_mem _ h)

/-- C3: the selected cores being cores of the file whose rings, where they
are not empty, the producer left behind writing nonzero, nondecreasing time
stamps in write order: the merge, started with `tsc_offset = 0`, comes to
an end, and then `tsc_offset` is the maximum over the non-empty selected
cores of the oldest live time stamp of the core (the smallest time stamp
among its filled slots): it is the fold of `max` over these time stamps, it
is at least the oldest live time stamp of every such core, and it is one of
them (or zero, when no selected core is non-empty). -/
theorem tsc_offset_is_max_oldest (L : Layout) (hs : spdk_trace_histories) (cores : List Nat)
    (hvalid : ∀ c ∈ cores, c < hs.per_lcore.length)
    (hord : ∀ c ∈ cores, ∀ h, hs.per_lcore[c]? = some h → history_selected h = true →
      write_ordered h.entries) :
    ∃ p, init_cores L cores (fresh_state hs) = some p ∧
      p.tsc_offset = (selected_oldest hs cores).foldl max 0 ∧
      (∀ c ∈ cores, ∀ h, hs.per_lcore[c]? = some h → history_selected h = true →
        oldest_live h.entries ≤ p.tsc_offset) ∧
      (p.tsc_offset = 0 ∨ p.tsc_offset ∈ selected_oldest hs cores) := by
  obtain ⟨p, hp, hpt, _⟩ := init_cores_tsc_offset L hs cores (fresh_state hs) rfl hvalid hord
  refine ⟨p, hp, hpt, ?_, by rw [hpt]; exact foldl_max_mem _ _⟩
  intro c hc h hh hsel
  rw [hpt]
  apply (foldl_max_ge _ _).2
  unfold selected_oldest
  rw [List.mem_filterMap]
  exact ⟨c, hc, by simp only [hh, hsel, if_true]⟩

theorem two_cores_write_ordered (c : Nat) (hc : c ∈ [0, 1]) (h : spdk_trace_history)
    (hh : two_cores.per_lcore[c]? = some h) : write_ordered h.entries := by
  simp only [List.mem_cons, List.mem_singleton, List.not_mem_nil, or_false] at hc
  rcases hc with rfl | rfl
  · have : h = ⟨0, [event_slot 3 10 0, event_slot 3 30 0]⟩ := by
      simp only [two_cores, List.getElem?_cons_zero, Option.some.injEq] at hh
      exact hh.symm
    subst this
    exact ⟨[zero_entry, zero_entry], [event_slot 3 10 0, event_slot 3 30 0],
      by decide, by decide, by decide, by decide, by decide⟩
  · have : h = ⟨1, [event_slot 3 20 0, event_slot 3 40 0]⟩ := by
      simp only [two_cores, List.getElem?_cons_succ, List.getElem?_cons_zero,
        Option.some.injEq] at hh
      exact hh.symm
    subst this
    exact ⟨[zero_entry, zero_entry], [event_slot 3 20 0, event_slot 3 40 0],
      by decide, by decide, by decide, by decide, by decide⟩

/-- Core 0 holds 10 and 30, core 1 holds 20 and 40: `tsc_offset = 20`. -/
theorem tsc_offset_is_max_oldest_witness :
    (∀ c ∈ [0, 1], c < two_cores.per_lcore.length) ∧
    ∃ p, init_cores example_layout [0, 1] (fresh_state two_cores) = some p ∧
      p.tsc_offset = 20 :=
  ⟨by decide,
    (tsc_offset_is_max_oldest example_layout two_cores [0, 1] (by decide)
      (fun c hc h hh _ => two_cores_write_ordered c hc h hh)).imp fun _ hp =>
        ⟨hp.1, hp.2.1.trans (by decide)⟩⟩

/-! ## An event whose continuation wrapped is lost -/

/-- C2, the code at the failing input: the ring is what the producer leaves
after the writes of `lost_event_writes`, it has three live slots (the
events of time 10, 20 and 30), yet `populate_events` ends with `first = 0`
and `last = 2`, visits the slots 0, 1, 2 only and stores two events; the
event of time 10 in slot 3 is never stored and `next_entry` yields two
events. -/
theorem oldest_event_with_wrapped_spill_dropped :
    lost_event_history.entries =
      producer_write 4 lost_event_writes 0 (List.replicate 4 zero_entry) ∧
    live_slots example_layout lost_event_history.entries = 3 ∧
    (populate_events_traced example_layout
      (fresh_state ⟨spilling_flags, [lost_event_history]⟩) 0 lost_event_history 4).map
        Prod.snd = some ⟨4, 0, 2, [0, 1, 2]⟩ ∧
    (init example_layout ⟨spilling_flags, [lost_event_history]⟩ none).map
      (fun p => p.entries) = some [(⟨0, 20⟩, ⟨0, 1⟩), (⟨0, 30⟩, ⟨0, 2⟩)] ∧
    (init example_layout ⟨spilling_flags, [lost_event_history]⟩ none).map
      (fun p => (next_entries example_layout 4 p blank_entry).1.length) = some 2 := by
  refine ⟨by decide, by decide, by decide, by decide, by decide⟩

/-! ## The object tracker -/

theorem map_subscript_found (k v : Nat) (m : List (Nat × Nat))
    (h : map_find compare_u64 k m = some v) : map_subscript k m = (v, m) := by
  simp [map_subscript, h]

theorem map_find_subscript_other (k x : Nat) (m : List (Nat × Nat)) (hne : x ≠ k) :
    map_find compare_u64 x (map_subscript k m).2 = map_find compare_u64 x m := by
  unfold map_subscript
  split
  · rfl
  · exact map_find_assign_other _ compare_u64_equiv _ _ _ _ hne

/-- The object fields of the parsed entry do not depend on the record the
lookup starts from. -/
theorem lookup_object_fst (L : Layout) (tp : spdk_trace_tpoint) (e : spdk_trace_entry)
    (st : object_stats) (q : spdk_trace_parser_entry) :
    (lookup_object L tp e (track_new_object tp e st) q).1 = step_stats L tp e st := by
  unfold step_stats lookup_object
  split
  · split <;> rfl
  · rfl

/-- A creation event stores the counter and its own time stamp under its
object id, and reports these two through the lookup. -/
theorem step_stats_create (L : Layout) (tp : spdk_trace_tpoint) (e : spdk_trace_entry)
    (st : object_stats) (q : spdk_trace_parser_entry) (hnew : tp.new_object = true) :
    map_find compare_u64 e.object_id (step_stats L tp e st).index = some st.counter ∧
    map_find compare_u64 e.object_id (step_stats L tp e st).start = some e.tsc ∧
    (step_stats L tp e st).counter = (st.counter + 1) % 2 ^ 64 ∧
    (tp.object_type ≠ L.OBJECT_NONE →
      (lookup_object L tp e (track_new_object tp e st) q).2.object_index = st.counter ∧
      (lookup_object L tp e (track_new_object tp e st) q).2.object_start = e.tsc) := by
  have hi : map_find compare_u64 e.object_id
      (map_assign compare_u64 e.object_id st.counter st.index) = some st.counter :=
    map_find_assign_self _ compare_u64_irrefl _ _ _
  have hs : map_find compare_u64 e.object_id
      (map_assign compare_u64 e.object_id e.tsc st.start) = some e.tsc :=
    map_find_assign_self _ compare_u64_irrefl _ _ _
  unfold step_stats lookup_object track_new_object
  simp only [hnew, if_true]
  by_cases hty : tp.object_type ≠ L.OBJECT_NONE
  · simp only [if_pos hty, hs, map_subscript_found _ _ _ hi,
      map_subscript_found _ _ _ hs, hi, true_and, implies_true, and_self]
  · simp only [if_neg hty, hi, hs, true_and]
    intro h
    exact absurd h hty

/-- The counter moves only at creation events. -/
theorem step_stats_counter (L : Layout) (tp : spdk_trace_tpoint) (e : spdk_trace_entry)
    (st : object_stats) (hnew : tp.new_object = false) :
    (step_stats L tp e st).counter = st.counter := by
  unfold step_stats lookup_object track_new_object
  simp only [hnew, Bool.false_eq_true, if_false]
  split
  · split <;> rfl
  · rfl

/-- An event that is not a creation event for the object `x` leaves what
is stored under `x` as it is. -/
theorem step_stats_other (L : Layout) (tp : spdk_trace_tpoint) (e : spdk_trace_entry)
    (st : object_stats) (x : Nat) (hx : ¬ (tp.new_object = true ∧ e.object_id = x)) :
    map_find compare_u64 x (step_stats L tp e st).start = map_find compare_u64 x st.start ∧
    (∀ iv, map_find compare_u64 x st.index = some iv →
      map_find compare_u64 x (step_stats L tp e st).index = some iv) := by
  have key : ∀ st1 : object_stats,
      map_find compare_u64 x st1.start = map_find compare_u64 x st.start →
      (∀ iv, map_find compare_u64 x st.index = some iv →
        map_find compare_u64 x st1.index = some iv) →
      map_find compare_u64 x
          (lookup_object L tp e st1 ⟨0, ⟨0, 0⟩, 0, 0, []⟩).1.start =
        map_find compare_u64 x st.start ∧
      (∀ iv, map_find compare_u64 x st.index = some iv →
        map_find compare_u64 x
          (lookup_object L tp e st1 ⟨0, ⟨0, 0⟩, 0, 0, []⟩).1.index = some iv) := by
    intro st1 h1 h2
    unfold lookup_object
    split
    · split
      · rename_i v hv
        simp only
        refine ⟨?_, ?_⟩
        · rw [map_subscript_found _ _ _ hv]
          exact h1
        · intro iv hiv
          by_cases hid : x = e.object_id
          · rw [← hid, map_subscript_found _ _ _ (h2 iv hiv)]
            exact h2 iv hiv
          · rw [map_find_subscript_other _ _ _ hid]
            exact h2 iv hiv
      · exact ⟨h1, h2⟩
    · exact ⟨h1, h2⟩
  unfold step_stats
  apply key
  · unfold track_new_object
    split
    · rename_i hnew
      simp only
      apply map_find_assign_other _ compare_u64_equiv
      intro h
      exact hx ⟨hnew, h.symm⟩
    · rfl
  · intro iv hiv
    unfold track_new_object
    split
    · rename_i hnew
      simp only
      rw [map_find_assign_other _ compare_u64_equiv]
      · exact hiv
      · intro h
        exact hx ⟨hnew, h.symm⟩
    · exact hiv

/-- The lookup of a reference event. -/
theorem lookup_reference (L : Layout) (tp : spdk_trace_tpoint) (e : spdk_trace_entry)
    (st : object_stats) (q : spdk_trace_parser_entry) (hnew : tp.new_object = false)
    (hty : tp.object_type ≠ L.OBJECT_NONE) :
    (∀ iv sv, map_find compare_u64 e.object_id st.index = some iv →
      map_find compare_u64 e.object_id st.start = some sv →
      (lookup_object L tp e (track_new_object tp e st) q).2.object_index = iv ∧
      (lookup_object L tp e (track_new_object tp e st) q).2.object_start = sv) ∧
    (map_find compare_u64 e.object_id st.start = none →
      (lookup_object L tp e (track_new_object tp e st) q).2.object_index = UINT64_MAX ∧
      (lookup_object L tp e (track_new_object tp e st) q).2.object_start = UINT64_MAX ∧
      step_stats L tp e st = st) := by
  unfold step_stats lookup_object track_new_object
  simp only [hnew, Bool.false_eq_true, if_false, if_pos hty]
  refine ⟨?_, ?_⟩
  · intro iv sv hi hs
    simp only [hs, map_subscript_found _ _ _ hi, map_subscript_found _ _ _ hs, and_self]
  · intro hs
    simp only [hs, and_self]

/-- What a successful call of `next_entry` does to the object tracker. -/
theorem next_entry_step (L : Layout) (p p1 : parser_state)
    (pe pe1 : spdk_trace_parser_entry) (h : next_entry L p pe = some (true, p1, pe1)) :
    ∃ entry q, deref p.histories pe1.entry = some entry ∧
      p1.stats = Function.update p.stats (p.histories.flags.tpoint entry.tpoint_id).object_type
        (step_stats L (p.histories.flags.tpoint entry.tpoint_id) entry
          (p.stats (p.histories.flags.tpoint entry.tpoint_id).object_type)) ∧
      p1.histories = p.histories ∧ p1.entries = p.entries ∧ p1.iter = p.iter + 1 ∧
      p.iter < p.entries.length ∧
      pe1.object_index = (lookup_object L (p.histories.flags.tpoint entry.tpoint_id) entry
        (track_new_object (p.histories.flags.tpoint entry.tpoint_id) entry
          (p.stats (p.histories.flags.tpoint entry.tpoint_id).object_type)) q).2.object_index ∧
      pe1.object_start = (lookup_object L (p.histories.flags.tpoint entry.tpoint_id) entry
        (track_new_object (p.histories.flags.tpoint entry.tpoint_id) entry
          (p.stats (p.histories.flags.tpoint entry.tpoint_id).object_type)) q).2.object_start := by
  obtain ⟨key, ptr, entry, hk, hd, hp1, _, he, hi, hs⟩ := next_entry_true L p p1 pe pe1 h
  have hlt : p.iter < p.entries.length := by
    rcases Nat.lt_or_ge p.iter p.entries.length with h1 | h1
    · exact h1
    · rw [List.getElem?_eq_none h1] at hk; simp at hk
  refine ⟨entry, _, by rw [he]; exact hd, ?_, by rw [hp1], by rw [hp1], by rw [hp1], hlt, hi, hs⟩
  rw [hp1, lookup_object_fst]

/-- The object stats of the type `t` after a successful call. -/
theorem next_entry_stats_at (L : Layout) (p : parser_state) (t : Nat) (entry : spdk_trace_entry)
    (stats1 : Nat → object_stats)
    (h : stats1 = Function.update p.stats (p.histories.flags.tpoint entry.tpoint_id).object_type
        (step_stats L (p.histories.flags.tpoint entry.tpoint_id) entry
          (p.stats (p.histories.flags.tpoint entry.tpoint_id).object_type))) :
    ((p.histories.flags.tpoint entry.tpoint_id).object_type = t →
      stats1 t = step_stats L (p.histories.flags.tpoint entry.tpoint_id) entry (p.stats t)) ∧
    ((p.histories.flags.tpoint entry.tpoint_id).object_type ≠ t → stats1 t = p.stats t) := by
  constructor
  · intro ht
    rw [h, ← ht, Function.update_same]
  · intro ht
    rw [h, Function.update_noteq (Ne.symm ht)]

/-- The first parsed entry of a run comes from a successful call, the others
from the run that follows it. -/
theorem next_entries_cons (L : Layout) (n : Nat) (p : parser_state)
    (pe x : spdk_trace_parser_entry) (rest : List spdk_trace_parser_entry)
    (h : (next_entries L n p pe).1 = x :: rest) :
    ∃ p1 n1, next_entry L p pe = some (true, p1, x) ∧ rest = (next_entries L n1 p1 x).1 := by
  cases n with
  | zero => simp [next_entries] at h
  | succ n =>
    simp only [next_entries] at h
    split at h
    · rename_i p1 pe1 heq
      simp only [List.cons.injEq] at h
      rw [← h.1]
      exact ⟨p1, n, heq, by rw [← h.2, h.1]⟩
    · simp at h

/-- Every tail of a run is a run. -/
theorem next_entries_tail (L : Layout) (pre rest : List spdk_trace_parser_entry) (n : Nat)
    (p : parser_state) (pe : spdk_trace_parser_entry)
    (h : (next_entries L n p pe).1 = pre ++ rest) :
    ∃ p1 pe1 n1, rest = (next_entries L n1 p1 pe1).1 ∧ p1.histories = p.histories := by
  induction pre generalizing n p pe with
  | nil => exact ⟨p, pe, n, h.symm, rfl⟩
  | cons x pre ih =>
    obtain ⟨p1, n1, hcall, hrest⟩ := next_entries_cons L n p pe x (pre ++ rest) h
    obtain ⟨_, _, _, _, hh, _⟩ := next_entry_step L p p1 pe x hcall
    obtain ⟨p2, pe2, n2, h2, hh2⟩ := ih n1 p1 x hrest.symm
    exact ⟨p2, pe2, n2, h2, hh2.trans hh⟩

/-- The indices given out in a run, from any value of the counter that
leaves room for the entries still to come. -/
theorem object_indices_from (L : Layout) (t : Nat) (ht : t ≠ L.OBJECT_NONE) (n : Nat)
    (p : parser_state) (pe : spdk_trace_parser_entry)
    (hroom : (p.stats t).counter + (p.entries.length - p.iter) < 2 ^ 64) :
    (∀ (k : Nat) (x : spdk_trace_parser_entry), ((next_entries L n p pe).1.filter (creates_object p.histories t))[k]? = some x →
      x.object_index = (p.stats t).counter + k ∧
      ∃ e, deref p.histories x.entry = some e ∧ x.object_start = e.tsc) ∧
    ((next_entries L n p pe).2.stats t).counter = (p.stats t).counter +
      ((next_entries L n p pe).1.filter (creates_object p.histories t)).length := by
  induction n generalizing p pe with
  | zero => simp [next_entries]
  | succ n ih =>
    simp only [next_entries]
    split
    · rename_i p1 pe1 heq
      obtain ⟨entry, q, hd, hst, hh, he, hi, hlt, hoi, hos⟩ := next_entry_step L p p1 pe pe1 heq
      obtain ⟨hat, hother⟩ := next_entry_stats_at L p t entry p1.stats hst
      have hc : creates_object p.histories t pe1 =
          (decide ((p.histories.flags.tpoint entry.tpoint_id).object_type = t) &&
            (p.histories.flags.tpoint entry.tpoint_id).new_object) := by
        simp only [creates_object, hd]
      simp only [List.cons, List.filter_cons]
      by_cases hcr : creates_object p.histories t pe1 = true
      · rw [hc, Bool.and_eq_true, decide_eq_true_eq] at hcr
        obtain ⟨hty, hnew⟩ := hcr
        have hty2 : (p.histories.flags.tpoint entry.tpoint_id).object_type ≠ L.OBJECT_NONE := by
          rw [hty]; exact ht
        obtain ⟨_, _, hcnt, hrep⟩ := step_stats_create L _ entry (p.stats t) q hnew
        have hcnt1 : (p1.stats t).counter = (p.stats t).counter + 1 := by
          rw [hat hty, hcnt, Nat.mod_eq_of_lt (by omega)]
        obtain ⟨ih1, ih2⟩ := ih p1 pe1 (by rw [hcnt1, he, hi]; omega)
        rw [hh] at ih1 ih2
        rw [hc, hty, hnew]
        simp only [decide_True, Bool.and_self, if_true, List.length_cons]
        refine ⟨?_, by rw [ih2, hcnt1]; omega⟩
        intro k x hx
        cases k with
        | zero =>
          simp only [List.getElem?_cons_zero, Option.some.injEq] at hx
          subst hx
          rw [hty] at hoi hos
          have := hrep hty2
          exact ⟨by rw [hoi, this.1]; rfl, entry, hd, by rw [hos, this.2]⟩
        | succ k =>
          simp only [List.getElem?_cons_succ] at hx
          obtain ⟨h1, h2⟩ := ih1 k x hx
          exact ⟨by rw [h1, hcnt1]; omega, h2⟩
      · have hcnt1 : (p1.stats t).counter = (p.stats t).counter := by
          by_cases hty : (p.histories.flags.tpoint entry.tpoint_id).object_type = t
          · have hnew : (p.histories.flags.tpoint entry.tpoint_id).new_object = false := by
              rw [hc, hty] at hcr
              simpa using hcr
            rw [hat hty, step_stats_counter L _ entry _ hnew]
          · rw [hother hty]
        obtain ⟨ih1, ih2⟩ := ih p1 pe1 (by rw [hcnt1, he, hi]; omega)
        rw [hh, hcnt1] at ih1 ih2
        simp only [hcr, if_false]
        exact ⟨ih1, ih2⟩
    · simp

/-- C8: for every object type t other than "none" and every run of
successful calls of `next_entry` from a parser whose counter of type t is
zero (the map having fewer than 2^64 entries): the k-th yielded creation
event of type t, counted from zero, is returned with `object_index = k`
and with `object_start` its own time stamp, and the counter of type t after
the run is the number K of these events, so the indices given out are
0, ..., K - 1 in the order of the events. -/
theorem object_indices_dense (L : Layout) (t : Nat) (ht : t ≠ L.OBJECT_NONE) (n : Nat)
    (p : parser_state) (pe : spdk_trace_parser_entry)
    (hfresh : (p.stats t).counter = 0) (hsize : p.entries.length < 2 ^ 64) :
    (∀ (k : Nat) (x : spdk_trace_parser_entry), ((next_entries L n p pe).1.filter (creates_object p.histories t))[k]? = some x →
      x.object_index = k ∧ ∃ e, deref p.histories x.entry = some e ∧ x.object_start = e.tsc) ∧
    ((next_entries L n p pe).2.stats t).counter =
      ((next_entries L n p pe).1.filter (creates_object p.histories t)).length := by
  have h := object_indices_from L t ht n p pe (by rw [hfresh]; omega)
  rw [hfresh] at h
  simpa using h

/-- A successful call that does not yield a creation event of type `t` for
the object `x` leaves what the tracker of type `t` stores under `x`. -/
theorem next_entry_keeps_object (L : Layout) (t x : Nat) (p p1 : parser_state)
    (pe pe1 : spdk_trace_parser_entry) (h : next_entry L p pe = some (true, p1, pe1))
    (hc : ¬ creates p.histories t x pe1) :
    map_find compare_u64 x (p1.stats t).start = map_find compare_u64 x (p.stats t).start ∧
    (∀ iv, map_find compare_u64 x (p.stats t).index = some iv →
      map_find compare_u64 x (p1.stats t).index = some iv) := by
  obtain ⟨entry, q, hd, hst, _, _, _, _, _, _⟩ := next_entry_step L p p1 pe pe1 h
  obtain ⟨hat, hother⟩ := next_entry_stats_at L p t entry p1.stats hst
  by_cases hty : (p.histories.flags.tpoint entry.tpoint_id).object_type = t
  · rw [hat hty]
    apply step_stats_other
    intro ⟨hnew, hid⟩
    exact hc ⟨entry, hd, hty, hnew, hid⟩
  · rw [hother hty]
    exact ⟨rfl, fun _ hiv => hiv⟩

/-- Through a run without creation events of type `t` for the object `x`,
a reference event of type `t` to `x` reports what the tracker stored under
`x` at the start of the run. -/
theorem reference_after_quiet_run (L : Layout) (t x iv sv : Nat) (ht : t ≠ L.OBJECT_NONE)
    (mid post : List spdk_trace_parser_entry) (b : spdk_trace_parser_entry) (n : Nat)
    (p : parser_state) (pe : spdk_trace_parser_entry)
    (hrun : (next_entries L n p pe).1 = mid ++ b :: post)
    (hi : map_find compare_u64 x (p.stats t).index = some iv)
    (hs : map_find compare_u64 x (p.stats t).start = some sv)
    (hmid : ∀ c ∈ mid, ¬ creates p.histories t x c)
    (hb : refers p.histories t x b) :
    b.object_index = iv ∧ b.object_start = sv := by
  induction mid generalizing n p pe with
  | nil =>
    obtain ⟨p1, n1, hcall, _⟩ := next_entries_cons L n p pe b post hrun
    obtain ⟨entry, q, hd, _, _, _, _, _, hoi, hos⟩ := next_entry_step L p p1 pe b hcall
    obtain ⟨e, hde, hty, hnew, hid⟩ := hb
    rw [hd] at hde
    simp only [Option.some.injEq] at hde
    subst hde
    rw [hty] at hoi hos
    subst hid
    have := (lookup_reference L _ entry (p.stats t) q hnew (by rw [hty]; exact ht)).1 iv sv hi hs
    rw [hoi, hos]
    exact this
  | cons c mid ih =>
    obtain ⟨p1, n1, hcall, hrest⟩ := next_entries_cons L n p pe c (mid ++ b :: post) hrun
    obtain ⟨_, _, _, _, hh, _⟩ := next_entry_step L p p1 pe c hcall
    obtain ⟨hk1, hk2⟩ := next_entry_keeps_object L t x p p1 pe c hcall
      (hmid c (List.mem_cons_self _ _))
    apply ih n1 p1 c hrest.symm (hk2 iv hi) (by rw [hk1]; exact hs)
    · intro c1 hc1
      rw [hh]
      exact hmid c1 (List.mem_cons_of_mem _ hc1)
    · rw [hh]; exact hb

/-- C9: in a run of successful calls of `next_entry`, let `b` be a yielded
event of a tracepoint with object type t other than "none" and
`new_object` unset, and let `a` be the most recent yielded creation event
of type t that carries the same object id (no creation event of type t
for that id lies between them).  Then `b` is returned with the
`object_index` given to `a` and with `object_start` the time stamp of `a`. -/
theorem reference_reports_latest_creation (L : Layout) (t x : Nat) (ht : t ≠ L.OBJECT_NONE)
    (n : Nat) (p : parser_state) (pe : spdk_trace_parser_entry)
    (a b : spdk_trace_parser_entry) (before mid post : List spdk_trace_parser_entry)
    (hrun : (next_entries L n p pe).1 = before ++ a :: (mid ++ b :: post))
    (ha : creates p.histories t x a)
    (hmid : ∀ c ∈ mid, ¬ creates p.histories t x c)
    (hb : refers p.histories t x b) :
    b.object_index = a.object_index ∧ b.object_start = a.object_start ∧
      ∃ e, deref p.histories a.entry = some e ∧ a.object_start = e.tsc := by
  obtain ⟨p1, pe1, n1, hrest, hh⟩ := next_entries_tail L before _ n p pe hrun
  obtain ⟨p2, n2, hcall, hrest2⟩ := next_entries_cons L n1 p1 pe1 a _ hrest.symm
  obtain ⟨entry, q, hd, hst, hh2, _, _, _, hoi, hos⟩ := next_entry_step L p1 p2 pe1 a hcall
  obtain ⟨hat, _⟩ := next_entry_stats_at L p1 t entry p2.stats hst
  obtain ⟨e, hde, hty, hnew, hid⟩ := ha
  rw [hh] at hd hat hoi hos
  rw [hd] at hde
  simp only [Option.some.injEq] at hde
  subst hde
  obtain ⟨hci, hcs, _, hrep⟩ := step_stats_create L _ entry (p1.stats t) q hnew
  rw [hty] at hoi hos
  have hrep2 := hrep (by rw [hty]; exact ht)
  rw [hid] at hci hcs
  have := reference_after_quiet_run L t x (p1.stats t).counter entry.tsc ht mid post b n2 p2 a
    hrest2.symm (by rw [hat hty]; exact hci) (by rw [hat hty]; exact hcs)
    (by rw [hh2, hh]; exact hmid) (by rw [hh2, hh]; exact hb)
  refine ⟨by rw [this.1, hoi, hrep2.1], by rw [this.2, hos, hrep2.2], entry, hd, ?_⟩
  rw [hos, hrep2.2]

/-- A run of successful calls without creation events of type `t` for the
object `x` does not make the tracker of type `t` know `x`. -/
theorem unknown_object_stays_unknown (L : Layout) (t x : Nat) (k : Nat)
    (p q : parser_state) (pe : spdk_trace_parser_entry)
    (before : List spdk_trace_parser_entry)
    (hrun : next_entries L k p pe = (before, q)) (hk : before.length = k)
    (hnone : map_find compare_u64 x (p.stats t).start = none)
    (hbefore : ∀ c ∈ before, ¬ creates p.histories t x c) :
    map_find compare_u64 x (q.stats t).start = none ∧ q.histories = p.histories := by
  induction k generalizing p pe before with
  | zero =>
    simp only [next_entries, Prod.mk.injEq] at hrun
    rw [← hrun.2]
    exact ⟨hnone, rfl⟩
  | succ k ih =>
    simp only [next_entries] at hrun
    split at hrun
    · rename_i p1 pe1 heq
      simp only [Prod.mk.injEq] at hrun
      obtain ⟨h1, h2⟩ := hrun
      obtain ⟨_, _, _, _, hh, _⟩ := next_entry_step L p p1 pe pe1 heq
      have hmem : pe1 ∈ before := by rw [← h1]; exact List.mem_cons_self _ _
      obtain ⟨hk1, _⟩ := next_entry_keeps_object L t x p p1 pe pe1 heq (hbefore pe1 hmem)
      have := ih p1 pe1 (next_entries L k p1 pe1).1 (by rw [← h2])
        (by rw [← h1] at hk; simpa using hk) (by rw [hk1]; exact hnone)
        (by
          intro c hc
          rw [hh]
          apply hbefore
          rw [← h1]
          exact List.mem_cons_of_mem _ hc)
      exact ⟨this.1, this.2.trans hh⟩
    · simp only [Prod.mk.injEq] at hrun
      rw [← hrun.1] at hk
      simp at hk

/-- C10: from a parser whose tracker of type t (other than "none") does not
know the object id x (a fresh parser knows none), after a run of k
successful calls of `next_entry` that yielded no creation event of type t
for x, a call that yields an event of a tracepoint with object type t and
`new_object` unset carrying the id x returns `object_index = UINT64_MAX`
and `object_start = UINT64_MAX`, and leaves the object stats of every type
unchanged. -/
theorem unknown_object_reports_max (L : Layout) (t x : Nat) (ht : t ≠ L.OBJECT_NONE)
    (k : Nat) (p q q1 : parser_state) (pe pe1 b : spdk_trace_parser_entry)
    (before : List spdk_trace_parser_entry)
    (hnone : map_find compare_u64 x (p.stats t).start = none)
    (hrun : next_entries L k p pe = (before, q)) (hk : before.length = k)
    (hbefore : ∀ c ∈ before, ¬ creates p.histories t x c)
    (hcall : next_entry L q pe1 = some (true, q1, b))
    (hb : refers p.histories t x b) :
    b.object_index = UINT64_MAX ∧ b.object_start = UINT64_MAX ∧ q1.stats = q.stats := by
  obtain ⟨hq, hh⟩ := unknown_object_stays_unknown L t x k p q pe before hrun hk hnone hbefore
  obtain ⟨entry, r, hd, hst, _, _, _, _, hoi, hos⟩ := next_entry_step L q q1 pe1 b hcall
  obtain ⟨e, hde, hty, hnew, hid⟩ := hb
  rw [hh] at hd hst hoi hos
  rw [hd] at hde
  simp only [Option.some.injEq] at hde
  subst hde
  rw [hty] at hoi hos hst
  subst hid
  obtain ⟨h1, h2, h3⟩ := (lookup_reference L _ entry (q.stats t) r hnew
    (by rw [hty]; exact ht)).2 hq
  refine ⟨by rw [hoi, h1], by rw [hos, h2], ?_⟩
  rw [hst, h3, Function.update_eq_self]

/-! ## The examples of the object tracker and of the merge -/

theorem lost_event_init :
    init_cores example_layout [0] (fresh_state ⟨spilling_flags, [lost_event_history]⟩) =
      some lost_event_state := by
  rfl

/-- In the ring of `lost_event_history` the continuation slot is not
stored, and the two yielded entries are events. -/
theorem sentinel_never_inserted_witness :
    merged example_layout ⟨spilling_flags, [lost_event_history]⟩ lost_event_state ∧
    ∀ x ∈ (next_entries example_layout 4 { lost_event_state with iter := 0 } blank_entry).1,
      ∃ s, deref ⟨spilling_flags, [lost_event_history]⟩ x.entry = some s ∧
        s.tpoint_id ≠ example_layout.SPDK_TRACE_MAX_TPOINT_ID :=
  ⟨init_cores_merged example_layout _ [0] _ _ merged.fresh lost_event_init,
    (sentinel_never_inserted example_layout).2 ⟨spilling_flags, [lost_event_history]⟩
      lost_event_state
      (init_cores_merged example_layout _ [0] _ _ merged.fresh lost_event_init) 0 4 blank_entry⟩

/-- In the object lifecycle the two creation events get the indices 0 and 1
and the counter ends at 2. -/
theorem object_indices_dense_witness :
    1 ≠ example_layout.OBJECT_NONE ∧ (lifecycle_state.stats 1).counter = 0 ∧
    lifecycle_state.entries.length < 2 ^ 64 ∧
    ((next_entries example_layout 5 lifecycle_state blank_entry).2.stats 1).counter = 2 :=
  ⟨by decide, by decide, by decide,
    (object_indices_dense example_layout 1 (by decide) 5 lifecycle_state blank_entry
      (by decide) (by decide)).2.trans (by decide)⟩

theorem lifecycle_run :
    (next_entries example_layout 5 lifecycle_state blank_entry).1 =
      [lifecycle_yield 0 0 5, lifecycle_yield 1 1 15, lifecycle_yield 2 0 5,
        lifecycle_yield 3 1 15, lifecycle_yield 4 UINT64_MAX UINT64_MAX] := by
  decide

/-- Object lifecycle: the objects 100 and 200 are created at the times 5
and 15; the reference to 100 at the time 25 carries (0, 5) and the
reference to 200 at the time 35 carries (1, 15). -/
theorem reference_reports_latest_creation_witness :
    (next_entries example_layout 5 lifecycle_state blank_entry).1 =
      [] ++ lifecycle_yield 0 0 5 :: ([lifecycle_yield 1 1 15] ++ lifecycle_yield 2 0 5 ::
        [lifecycle_yield 3 1 15, lifecycle_yield 4 UINT64_MAX UINT64_MAX]) ∧
    creates lifecycle 1 100 (lifecycle_yield 0 0 5) ∧
    refers lifecycle 1 100 (lifecycle_yield 2 0 5) ∧
    ((lifecycle_yield 2 0 5).object_index = (lifecycle_yield 0 0 5).object_index ∧
      (lifecycle_yield 2 0 5).object_start = (lifecycle_yield 0 0 5).object_start ∧
      ∃ e, deref lifecycle (lifecycle_yield 0 0 5).entry = some e ∧
        (lifecycle_yield 0 0 5).object_start = e.tsc) :=
  ⟨lifecycle_run, by decide, by decide,
    reference_reports_latest_creation example_layout 1 100 (by decide) 5 lifecycle_state
      blank_entry (lifecycle_yield 0 0 5) (lifecycle_yield 2 0 5) [] [lifecycle_yield 1 1 15]
      [lifecycle_yield 3 1 15, lifecycle_yield 4 UINT64_MAX UINT64_MAX]
      lifecycle_run (by decide) (by decide) (by decide)⟩

/-- Object lifecycle: the object 300 was never created; the reference to it
at the time 45 carries the pair (UINT64_MAX, UINT64_MAX) and the call
leaves the object stats as they were. -/
theorem unknown_object_reports_max_witness :
    ∃ q1 b, next_entry example_layout
        (next_entries example_layout 4 lifecycle_state blank_entry).2 blank_entry =
          some (true, q1, b) ∧
      refers lifecycle 1 300 b ∧
      b.object_index = UINT64_MAX ∧ b.object_start = UINT64_MAX ∧
      q1.stats = (next_entries example_layout 4 lifecycle_state blank_entry).2.stats := by
  have h1 : (next_entry example_layout
      (next_entries example_layout 4 lifecycle_state blank_entry).2 blank_entry).map
        (fun r => (r.1, r.2.2)) = some (true, lifecycle_yield 4 UINT64_MAX UINT64_MAX) := by
    decide
  cases hcall : next_entry example_layout
      (next_entries example_layout 4 lifecycle_state blank_entry).2 blank_entry with
  | none => rw [hcall] at h1; simp at h1
  | some r =>
    obtain ⟨ok, q1, b⟩ := r
    rw [hcall] at h1
    simp only [Option.map_some', Option.some.injEq, Prod.mk.injEq] at h1
    obtain ⟨rfl, rfl⟩ := h1
    have hb : refers lifecycle 1 300 (lifecycle_yield 4 UINT64_MAX UINT64_MAX) := by decide
    exact ⟨q1, _, rfl, hb,
      unknown_object_reports_max example_layout 1 300 (by decide) 4 lifecycle_state
        (next_entries example_layout 4 lifecycle_state blank_entry).2 q1 blank_entry blank_entry
        (lifecycle_yield 4 UINT64_MAX UINT64_MAX)
        (next_entries example_layout 4 lifecycle_state blank_entry).1
        (by decide) rfl (by decide) (by decide) hcall hb⟩

/-! ## The comparator is a strict total order -/

/-- C15: `compare_entry_key` is a strict total order on entry keys: it is
irreflexive and transitive, for any two keys exactly one of `a < b`,
`b < a`, or (`a.tsc = b.tsc` and `a.lcore = b.lcore`) holds, and `a < b`
holds exactly when `a.tsc < b.tsc`, or `a.tsc = b.tsc` and
`a.lcore < b.lcore`. -/
theorem compare_entry_key_strict_total_order :
    (∀ a : entry_key, compare_entry_key a a = false) ∧
    (∀ a b c : entry_key, compare_entry_key a b = true → compare_entry_key b c = true →
      compare_entry_key a c = true) ∧
    (∀ a b : entry_key,
      (compare_entry_key a b = true ∧ compare_entry_key b a = false ∧
        ¬ (a.tsc = b.tsc ∧ a.lcore = b.lcore)) ∨
      (compare_entry_key a b = false ∧ compare_entry_key b a = true ∧
        ¬ (a.tsc = b.tsc ∧ a.lcore = b.lcore)) ∨
      (compare_entry_key a b = false ∧ compare_entry_key b a = false ∧
        a.tsc = b.tsc ∧ a.lcore = b.lcore)) ∧
    (∀ a b : entry_key, compare_entry_key a b = true ↔
      a.tsc < b.tsc ∨ (a.tsc = b.tsc ∧ a.lcore < b.lcore)) := by
  refine ⟨compare_entry_key_irrefl, compare_entry_key_trans, ?_, compare_entry_key_iff⟩
  intro a b
  have hab := compare_entry_key_iff a b
  have hba := compare_entry_key_iff b a
  cases h1 : compare_entry_key a b <;> cases h2 : compare_entry_key b a <;>
    simp only [h1, h2, Bool.false_eq_true, false_iff, true_iff, not_or, not_and, not_lt] at hab hba <;>
    simp only [true_and, false_and, and_true, and_false, or_false, false_or, not_and,
      Bool.false_eq_true, Bool.true_eq_false] <;>
    omega

/-! ## The merge does not look at the synchronized start -/

theorem populate_events_traced_tsc_offset (L : Layout) (p : parser_state) (x hist : Nat)
    (h : spdk_trace_history) (n : Nat) :
    (populate_events_traced L { p with tsc_offset := x } hist h n).map
        (fun r => (r.1.entries, r.2)) =
      (populate_events_traced L p hist h n).map (fun r => (r.1.entries, r.2)) := by
  simp only [populate_events_traced]
  cases count_filled h.entries n with
  | none => rfl
  | some M =>
    simp only
    cases insert_loop L h.lcore hist h.entries (choose_first_last h.entries n M).2 M M
        (choose_first_last h.entries n M).1 p.entries with
    | none => rfl
    | some r => rfl

theorem next_entry_tsc_offset (L : Layout) (p : parser_state) (x : Nat)
    (pe : spdk_trace_parser_entry) :
    next_entry L { p with tsc_offset := x } pe =
      (next_entry L p pe).map fun r => (r.1, { r.2.1 with tsc_offset := x }, r.2.2) := by
  simp only [next_entry]
  cases p.entries[p.iter]? with
  | none => rfl
  | some kv =>
    obtain ⟨key, ptr⟩ := kv
    simp only
    cases deref p.histories ptr with
    | none => rfl
    | some entry =>
      simp only
      cases build_args L p.histories (p.histories.flags.tpoint entry.tpoint_id).args 0
          (argument_context.init L ptr key.lcore)
          (lookup_object L (p.histories.flags.tpoint entry.tpoint_id) entry
            (track_new_object (p.histories.flags.tpoint entry.tpoint_id) entry
              (p.stats (p.histories.flags.tpoint entry.tpoint_id).object_type))
            { pe with lcore := key.lcore, entry := ptr }).2 with
      | none => rfl
      | some r =>
        obtain ⟨ok, ctx, pe2⟩ := r
        cases ok <;> rfl

theorem next_entries_tsc_offset (L : Layout) (n : Nat) (p : parser_state) (x : Nat)
    (pe : spdk_trace_parser_entry) :
    (next_entries L n { p with tsc_offset := x } pe).1 = (next_entries L n p pe).1 := by
  induction n generalizing p pe with
  | zero => rfl
  | succ n ih =>
    simp only [next_entries, next_entry_tsc_offset]
    cases next_entry L p pe with
    | none => rfl
    | some r =>
      obtain ⟨ok, p1, pe1⟩ := r
      cases ok
      · rfl
      · simp only [Option.map_some']
        rw [ih]

/-- C14: the slots `populate_events` stores, and the slots it visits, do
not depend on the `tsc_offset` of the parser it is run on, for every
history; nor do the entries `next_entry` yields.  So events whose time
stamp is below the final `tsc_offset` are stored and yielded all the same:
for core 0 = [10, 30] and core 1 = [20, 40] the merge ends with
`tsc_offset = 20` and the keys (10, 0), (20, 1), (30, 0), (40, 1) are
yielded. -/
theorem merge_ignores_tsc_offset :
    (∀ (L : Layout) (p : parser_state) (x hist : Nat) (h : spdk_trace_history) (n : Nat),
      (populate_events_traced L { p with tsc_offset := x } hist h n).map
          (fun r => (r.1.entries, r.2)) =
        (populate_events_traced L p hist h n).map (fun r => (r.1.entries, r.2))) ∧
    (∀ (L : Layout) (n : Nat) (p : parser_state) (x : Nat) (pe : spdk_trace_parser_entry),
      (next_entries L n { p with tsc_offset := x } pe).1 = (next_entries L n p pe).1) ∧
    (init example_layout two_cores none).map (fun p => p.tsc_offset) = some 20 ∧
    (init example_layout two_cores none).map
        (fun p => (next_entries example_layout 4 p blank_entry).1.map (yielded_key two_cores)) =
      some [some ⟨0, 10⟩, some ⟨1, 20⟩, some ⟨0, 30⟩, some ⟨1, 40⟩] :=
  ⟨populate_events_traced_tsc_offset, next_entries_tsc_offset, by decide, by decide⟩

/-! ## The end of the stream -/

/-- The flag and the cursor `build_arg` returns do not depend on the parsed
entry it writes to. -/
theorem build_arg_loop_flag (L : Layout) (hs : spdk_trace_histories) (entry_tsc size argid : Nat)
    (fuel argoff : Nat) (argctx : argument_context) (pe pe1 : spdk_trace_parser_entry) :
    (build_arg_loop L hs entry_tsc size argid fuel argoff argctx pe).map
        (fun r => (r.1, r.2.1)) =
      (build_arg_loop L hs entry_tsc size argid fuel argoff argctx pe1).map
        (fun r => (r.1, r.2.1)) := by
  induction fuel generalizing argoff argctx pe pe1 with
  | zero =>
    simp only [build_arg_loop]
    split <;> rfl
  | succ fuel ih =>
    simp only [build_arg_loop]
    split
    · split
      · rfl
      · rfl
      · split
        · rfl
        · exact ih _ _ _ _
    · rfl

theorem build_args_flag (L : Layout) (hs : spdk_trace_histories)
    (args : List spdk_trace_argument) (i : Nat) (argctx : argument_context)
    (pe pe1 : spdk_trace_parser_entry) :
    (build_args L hs args i argctx pe).map (fun r => (r.1, r.2.1)) =
      (build_args L hs args i argctx pe1).map (fun r => (r.1, r.2.1)) := by
  induction args generalizing i argctx pe pe1 with
  | nil => rfl
  | cons arg rest ih =>
    simp only [build_args, build_arg]
    cases hd : deref hs argctx.entry with
    | none => rfl
    | some entry =>
      simp only
      have h1 := build_arg_loop_flag L hs entry.tsc arg.size i arg.size 0 argctx pe pe1
      cases h2 : build_arg_loop L hs entry.tsc arg.size i arg.size 0 argctx pe with
      | none =>
        rw [h2] at h1
        cases h3 : build_arg_loop L hs entry.tsc arg.size i arg.size 0 argctx pe1 with
        | none => rfl
        | some r => rw [h3] at h1; simp at h1
      | some r =>
        rw [h2] at h1
        cases h3 : build_arg_loop L hs entry.tsc arg.size i arg.size 0 argctx pe1 with
        | none => rw [h3] at h1; simp at h1
        | some r1 =>
          rw [h3] at h1
          obtain ⟨ok, c, q⟩ := r
          obtain ⟨ok1, c1, q1⟩ := r1
          simp only [Option.map_some', Option.some.injEq, Prod.mk.injEq] at h1
          obtain ⟨rfl, rfl⟩ := h1
          cases ok
          · rfl
          · exact ih _ _ _ _


/-- The call of `next_entry` with the cursor on the event `entry`. -/
theorem next_entry_at (L : Layout) (p : parser_state) (pe : spdk_trace_parser_entry)
    (key : entry_key) (ptr : entry_ptr) (entry : spdk_trace_entry)
    (hk : p.entries[p.iter]? = some (key, ptr)) (hd : deref p.histories ptr = some entry) :
    (reassembly L p.histories (p.histories.flags.tpoint entry.tpoint_id).args ptr key.lcore =
        none → next_entry L p pe = none) ∧
    (reassembly L p.histories (p.histories.flags.tpoint entry.tpoint_id).args ptr key.lcore =
        some false → ∃ pe1, next_entry L p pe = some (false, { p with
          stats := Function.update p.stats (p.histories.flags.tpoint entry.tpoint_id).object_type
            (step_stats L (p.histories.flags.tpoint entry.tpoint_id) entry
              (p.stats (p.histories.flags.tpoint entry.tpoint_id).object_type)) }, pe1)) ∧
    (reassembly L p.histories (p.histories.flags.tpoint entry.tpoint_id).args ptr key.lcore =
        some true → ∃ pe1, next_entry L p pe = some (true, { p with
          stats := Function.update p.stats (p.histories.flags.tpoint entry.tpoint_id).object_type
            (step_stats L (p.histories.flags.tpoint entry.tpoint_id) entry
              (p.stats (p.histories.flags.tpoint entry.tpoint_id).object_type)),
          iter := p.iter + 1 }, pe1)) := by
  have hflag := build_args_flag L p.histories (p.histories.flags.tpoint entry.tpoint_id).args 0
    (argument_context.init L ptr key.lcore)
    (lookup_object L (p.histories.flags.tpoint entry.tpoint_id) entry
      (track_new_object (p.histories.flags.tpoint entry.tpoint_id) entry
        (p.stats (p.histories.flags.tpoint entry.tpoint_id).object_type))
      { pe with lcore := key.lcore, entry := ptr }).2 ⟨0, ⟨0, 0⟩, 0, 0, []⟩
  simp only [next_entry, hk, hd, reassembly, lookup_object_fst]
  cases hb : build_args L p.histories (p.histories.flags.tpoint entry.tpoint_id).args 0
      (argument_context.init L ptr key.lcore)
      (lookup_object L (p.histories.flags.tpoint entry.tpoint_id) entry
        (track_new_object (p.histories.flags.tpoint entry.tpoint_id) entry
          (p.stats (p.histories.flags.tpoint entry.tpoint_id).object_type))
        { pe with lcore := key.lcore, entry := ptr }).2 with
  | none =>
    rw [hb] at hflag
    cases hb1 : build_args L p.histories (p.histories.flags.tpoint entry.tpoint_id).args 0
        (argument_context.init L ptr key.lcore) ⟨0, ⟨0, 0⟩, 0, 0, []⟩ with
    | none => simp
    | some r => rw [hb1] at hflag; simp at hflag
  | some r =>
    rw [hb] at hflag
    cases hb1 : build_args L p.histories (p.histories.flags.tpoint entry.tpoint_id).args 0
        (argument_context.init L ptr key.lcore) ⟨0, ⟨0, 0⟩, 0, 0, []⟩ with
    | none => rw [hb1] at hflag; simp at hflag
    | some r1 =>
      rw [hb1] at hflag
      obtain ⟨ok, c, q⟩ := r
      obtain ⟨ok1, c1, q1⟩ := r1
      simp only [Option.map_some', Option.some.injEq, Prod.mk.injEq] at hflag
      obtain ⟨rfl, rfl⟩ := hflag
      cases ok <;> simp

/-- A call that returns false leaves the cursor and the map as they are,
and finds the cursor at the end of the map or on an event whose arguments
cannot be put together. -/
theorem next_entry_false (L : Layout) (p p1 : parser_state)
    (pe pe1 : spdk_trace_parser_entry) (h : next_entry L p pe = some (false, p1, pe1)) :
    p1.iter = p.iter ∧ p1.entries = p.entries ∧ p1.histories = p.histories ∧
    (p.entries[p.iter]? = none ∨
      ∃ key ptr entry, p.entries[p.iter]? = some (key, ptr) ∧
        deref p.histories ptr = some entry ∧
        reassembly L p.histories (p.histories.flags.tpoint entry.tpoint_id).args ptr key.lcore =
          some false) := by
  cases hk : p.entries[p.iter]? with
  | none =>
    simp only [next_entry, hk, Option.some.injEq, Prod.mk.injEq, true_and] at h
    rw [← h.1]
    exact ⟨rfl, rfl, rfl, Or.inl rfl⟩
  | some kv =>
    obtain ⟨key, ptr⟩ := kv
    cases hd : deref p.histories ptr with
    | none => simp [next_entry, hk, hd] at h
    | some entry =>
      obtain ⟨h1, h2, h3⟩ := next_entry_at L p pe key ptr entry hk hd
      cases hr : reassembly L p.histories (p.histories.flags.tpoint entry.tpoint_id).args ptr
          key.lcore with
      | none => rw [h1 hr] at h; simp at h
      | some ok =>
        cases ok
        · obtain ⟨pe2, h4⟩ := h2 hr
          rw [h4] at h
          simp only [Option.some.injEq, Prod.mk.injEq, true_and] at h
          rw [← h.1]
          exact ⟨rfl, rfl, rfl, Or.inr ⟨key, ptr, entry, rfl, hd, hr⟩⟩
        · obtain ⟨pe2, h4⟩ := h3 hr
          rw [h4] at h
          simp at h

/-- A parser on which no call returns true: the cursor stands at the end of
the map or on an event whose arguments cannot be put together. -/
theorem next_entry_stuck (L : Layout) (p q : parser_state) (pe : spdk_trace_parser_entry)
    (hq : q.iter = p.iter ∧ q.entries = p.entries ∧ q.histories = p.histories)
    (hp : p.entries[p.iter]? = none ∨
      ∃ key ptr entry, p.entries[p.iter]? = some (key, ptr) ∧
        deref p.histories ptr = some entry ∧
        reassembly L p.histories (p.histories.flags.tpoint entry.tpoint_id).args ptr key.lcore =
          some false) :
    ∃ q1 pe1, next_entry L q pe = some (false, q1, pe1) ∧
      q1.iter = p.iter ∧ q1.entries = p.entries ∧ q1.histories = p.histories := by
  obtain ⟨hi, he, hh⟩ := hq
  rcases hp with hnone | ⟨key, ptr, entry, hk, hd, hr⟩
  · refine ⟨q, pe, ?_, hi, he, hh⟩
    simp only [next_entry, he, hi, hnone]
  · rw [← he, ← hi] at hk
    rw [← hh] at hd hr
    obtain ⟨pe2, h4⟩ := (next_entry_at L q pe key ptr entry hk hd).2.1 hr
    exact ⟨_, pe2, h4, hi, he, hh⟩

theorem next_entry_seq_stuck (L : Layout) (p : parser_state)
    (hp : p.entries[p.iter]? = none ∨
      ∃ key ptr entry, p.entries[p.iter]? = some (key, ptr) ∧
        deref p.histories ptr = some entry ∧
        reassembly L p.histories (p.histories.flags.tpoint entry.tpoint_id).args ptr key.lcore =
          some false)
    (pes : List spdk_trace_parser_entry) (q : parser_state)
    (hq : q.iter = p.iter ∧ q.entries = p.entries ∧ q.histories = p.histories) :
    ∃ q2, next_entry_seq L pes q = some (List.replicate pes.length false, q2) ∧
      q2.iter = p.iter ∧ q2.entries = p.entries ∧ q2.histories = p.histories := by
  induction pes generalizing q with
  | nil => exact ⟨q, rfl, hq⟩
  | cons pe rest ih =>
    obtain ⟨q1, pe1, hcall, hq1⟩ := next_entry_stuck L p q pe hq hp
    obtain ⟨q2, hseq, hq2⟩ := ih q1 hq1
    refine ⟨q2, ?_, hq2⟩
    simp only [next_entry_seq, hcall, hseq, List.length_cons, List.replicate_succ]

/-- A run of `n` successful calls reads the `n` pairs of the map from the
cursor on and leaves the cursor behind them. -/
theorem next_entries_all (L : Layout) (n : Nat) (p q : parser_state)
    (pe : spdk_trace_parser_entry) (ys : List spdk_trace_parser_entry)
    (hrun : next_entries L n p pe = (ys, q)) (hlen : ys.length = n) :
    ys.map (fun x => (x.lcore, x.entry)) =
      ((p.entries.drop p.iter).take n).map (fun kv => (kv.1.lcore, kv.2)) ∧
    q.iter = p.iter + n ∧ q.entries = p.entries ∧ q.histories = p.histories := by
  induction n generalizing p pe ys with
  | zero =>
    simp only [next_entries, Prod.mk.injEq] at hrun
    rw [← hrun.1, ← hrun.2]
    simp
  | succ n ih =>
    simp only [next_entries] at hrun
    split at hrun
    · rename_i p1 pe1 heq
      simp only [Prod.mk.injEq] at hrun
      obtain ⟨h1, h2⟩ := hrun
      obtain ⟨key, ptr, entry, hk, _, hp1, hl, he, _⟩ := next_entry_true L p p1 pe pe1 heq
      have hlt : p.iter < p.entries.length := by
        rcases Nat.lt_or_ge p.iter p.entries.length with h3 | h3
        · exact h3
        · rw [List.getElem?_eq_none h3] at hk; simp at hk
      have hdrop : p.entries.drop p.iter = (key, ptr) :: p.entries.drop (p.iter + 1) := by
        rw [List.drop_eq_getElem_cons hlt]
        rw [List.getElem?_eq_getElem hlt] at hk
        simp only [Option.some.injEq] at hk
        rw [hk]
      have he1 : p1.entries = p.entries := by rw [hp1]
      have hi1 : p1.iter = p.iter + 1 := by rw [hp1]
      have hh1 : p1.histories = p.histories := by rw [hp1]
      obtain ⟨h3, h4, h5, h6⟩ := ih p1 pe1 (next_entries L n p1 pe1).1 (by rw [← h2])
        (by rw [← h1] at hlen; simpa using hlen)
      rw [he1, hi1] at h3
      refine ⟨?_, by rw [h4, hi1]; omega, h5.trans he1, h6.trans hh1⟩
      rw [← h1, hdrop]
      simp only [List.cons, List.map_cons, List.take_succ_cons, hl, he, h3]
    · simp only [Prod.mk.injEq] at hrun
      rw [← hrun.1] at hlen
      simp at hlen

/-- C13: after a run of `n` successful calls of `next_entry`, which yielded
the `n` pairs of the map from the cursor on, in order, let a call return
false (the cursor is past the last key, or the arguments of the event at
the cursor cannot be put together).  Then the call left the cursor and the
map as they were, neither advanced nor rewound, and every later call of
`next_entry`, on whatever records, returns false as well, the cursor
staying where it is. -/
theorem stream_terminated (L : Layout) (n : Nat) (p0 p p1 : parser_state)
    (pe0 pe pe1 : spdk_trace_parser_entry) (ys : List spdk_trace_parser_entry)
    (hrun : next_entries L n p0 pe0 = (ys, p)) (hlen : ys.length = n)
    (hfail : next_entry L p pe = some (false, p1, pe1)) :
    ys.map (fun x => (x.lcore, x.entry)) =
      ((p0.entries.drop p0.iter).take n).map (fun kv => (kv.1.lcore, kv.2)) ∧
    p.iter = p0.iter + n ∧
    p1.iter = p.iter ∧ p1.entries = p0.entries ∧
    ∀ pes : List spdk_trace_parser_entry,
      ∃ q, next_entry_seq L pes p1 = some (List.replicate pes.length false, q) ∧
        q.iter = p.iter ∧ q.entries = p0.entries := by
  obtain ⟨h1, h2, h3, _⟩ := next_entries_all L n p0 p pe0 ys hrun hlen
  obtain ⟨h4, h5, h6, h7⟩ := next_entry_false L p p1 pe pe1 hfail
  refine ⟨h1, h2, h4, h5.trans h3, ?_⟩
  intro pes
  obtain ⟨q, hq, hq1, hq2, _⟩ := next_entry_seq_stuck L p h7 pes p1 ⟨h4, h5, h6⟩
  exact ⟨q, hq, hq1, hq2.trans h3⟩

/-! ## A failing call and the object tracker -/

/-- Calls repeated on an event with `new_object` set whose arguments cannot
be put together: every call returns false and raises the counter. -/
theorem next_entry_seq_failing (L : Layout) (p : parser_state)
    (key : entry_key) (ptr : entry_ptr) (entry : spdk_trace_entry)
    (hk : p.entries[p.iter]? = some (key, ptr)) (hd : deref p.histories ptr = some entry)
    (hnew : (p.histories.flags.tpoint entry.tpoint_id).new_object = true)
    (hr : reassembly L p.histories (p.histories.flags.tpoint entry.tpoint_id).args ptr key.lcore =
      some false)
    (pes : List spdk_trace_parser_entry) (q : parser_state)
    (hq : q.iter = p.iter ∧ q.entries = p.entries ∧ q.histories = p.histories)
    (hc : (q.stats (p.histories.flags.tpoint entry.tpoint_id).object_type).counter < 2 ^ 64) :
    ∃ q2, next_entry_seq L pes q = some (List.replicate pes.length false, q2) ∧
      q2.iter = p.iter ∧
      (q2.stats (p.histories.flags.tpoint entry.tpoint_id).object_type).counter =
        ((q.stats (p.histories.flags.tpoint entry.tpoint_id).object_type).counter +
          pes.length) % 2 ^ 64 := by
  induction pes generalizing q with
  | nil => exact ⟨q, rfl, hq.1, by rw [List.length_nil, Nat.add_zero, Nat.mod_eq_of_lt hc]⟩
  | cons pe rest ih =>
    obtain ⟨hi, he, hh⟩ := hq
    have hk1 := hk
    have hd1 := hd
    have hr1 := hr
    rw [← he, ← hi] at hk1
    rw [← hh] at hd1 hr1
    obtain ⟨pe2, h4⟩ := (next_entry_at L q pe key ptr entry hk1 hd1).2.1 hr1
    have htp : q.histories.flags.tpoint entry.tpoint_id =
        p.histories.flags.tpoint entry.tpoint_id := by rw [hh]
    rw [htp] at h4
    have hcnt := (step_stats_create L (p.histories.flags.tpoint entry.tpoint_id) entry
      (q.stats (p.histories.flags.tpoint entry.tpoint_id).object_type) pe hnew).2.2.1
    obtain ⟨q2, hseq, hq2, hq3⟩ := ih
      { q with
        stats := Function.update q.stats (p.histories.flags.tpoint entry.tpoint_id).object_type
          (step_stats L (p.histories.flags.tpoint entry.tpoint_id) entry
            (q.stats (p.histories.flags.tpoint entry.tpoint_id).object_type)) }
      ⟨hi, he, hh⟩
      (by
        simp only [Function.update_same]
        rw [hcnt]
        exact Nat.mod_lt _ (by decide))
    refine ⟨q2, ?_, hq2, ?_⟩
    · simp only [next_entry_seq, h4, hseq, List.length_cons, List.replicate_succ]
    · rw [hq3]
      simp only [Function.update_same]
      rw [hcnt, List.length_cons, Nat.mod_add_mod]
      congr 1
      omega

/-- C20: with the cursor on an event whose tracepoint has `new_object` set
and whose arguments cannot be put together, the call of `next_entry`
returns false with the cursor and the map unchanged, but the counter of the
object type is one more than before (in 64-bit arithmetic) and the index
and start maps hold, under the object id of the event, the old counter and
the time stamp of the event; and every sequence of later calls returns
false each time and raises the counter by one with each call. -/
theorem failing_call_not_atomic (L : Layout) (p : parser_state) (pe : spdk_trace_parser_entry)
    (key : entry_key) (ptr : entry_ptr) (entry : spdk_trace_entry)
    (hk : p.entries[p.iter]? = some (key, ptr)) (hd : deref p.histories ptr = some entry)
    (hnew : (p.histories.flags.tpoint entry.tpoint_id).new_object = true)
    (hr : reassembly L p.histories (p.histories.flags.tpoint entry.tpoint_id).args ptr key.lcore =
      some false) :
    ∃ p1 pe1, next_entry L p pe = some (false, p1, pe1) ∧
      p1.iter = p.iter ∧ p1.entries = p.entries ∧
      (p1.stats (p.histories.flags.tpoint entry.tpoint_id).object_type).counter =
        ((p.stats (p.histories.flags.tpoint entry.tpoint_id).object_type).counter + 1) % 2 ^ 64 ∧
      map_find compare_u64 entry.object_id
          (p1.stats (p.histories.flags.tpoint entry.tpoint_id).object_type).index =
        some (p.stats (p.histories.flags.tpoint entry.tpoint_id).object_type).counter ∧
      map_find compare_u64 entry.object_id
          (p1.stats (p.histories.flags.tpoint entry.tpoint_id).object_type).start =
        some entry.tsc ∧
      ∀ pes : List spdk_trace_parser_entry,
        ∃ q, next_entry_seq L pes p1 = some (List.replicate pes.length false, q) ∧
          q.iter = p.iter ∧
          (q.stats (p.histories.flags.tpoint entry.tpoint_id).object_type).counter =
            ((p.stats (p.histories.flags.tpoint entry.tpoint_id).object_type).counter + 1 +
              pes.length) % 2 ^ 64 := by
  obtain ⟨pe1, h4⟩ := (next_entry_at L p pe key ptr entry hk hd).2.1 hr
  obtain ⟨hci, hcs, hcnt, _⟩ := step_stats_create L (p.histories.flags.tpoint entry.tpoint_id)
    entry (p.stats (p.histories.flags.tpoint entry.tpoint_id).object_type) pe hnew
  refine ⟨_, pe1, h4, rfl, rfl, ?_, ?_, ?_, ?_⟩
  · simp only [Function.update_same]
    exact hcnt
  · simp only [Function.update_same]
    exact hci
  · simp only [Function.update_same]
    exact hcs
  · intro pes
    obtain ⟨q, hq, hq1, hq2⟩ := next_entry_seq_failing L p key ptr entry hk hd hnew hr pes
      { p with
        stats := Function.update p.stats (p.histories.flags.tpoint entry.tpoint_id).object_type
          (step_stats L (p.histories.flags.tpoint entry.tpoint_id) entry
            (p.stats (p.histories.flags.tpoint entry.tpoint_id).object_type)) }
      ⟨rfl, rfl, rfl⟩
      (by
        simp only [Function.update_same]
        rw [hcnt]
        exact Nat.mod_lt _ (by decide))
    refine ⟨q, hq, hq1, ?_⟩
    rw [hq2]
    simp only [Function.update_same]
    rw [hcnt, Nat.mod_add_mod]

/-! ## The example of the spill mismatch -/

theorem mismatch_init : init example_layout mismatch none = some mismatch_state := by
  rfl

/-- Spill mismatch: the event of time 10 is yielded, the call on the event
of time 20 returns false and leaves the cursor on it, and so do the calls
after it. -/
theorem stream_terminated_witness :
    ∃ p1 pe1, next_entry example_layout
        (next_entries example_layout 1 mismatch_state blank_entry).2 blank_entry =
          some (false, p1, pe1) ∧
      p1.iter = 1 ∧
      ∃ q, next_entry_seq example_layout [blank_entry, blank_entry, blank_entry] p1 =
          some ([false, false, false], q) ∧ q.iter = 1 := by
  have h1 : (next_entry example_layout
      (next_entries example_layout 1 mismatch_state blank_entry).2 blank_entry).map
        (fun r => r.1) = some false := by
    decide
  cases hcall : next_entry example_layout
      (next_entries example_layout 1 mismatch_state blank_entry).2 blank_entry with
  | none => rw [hcall] at h1; simp at h1
  | some r =>
    obtain ⟨ok, p1, pe1⟩ := r
    rw [hcall] at h1
    simp only [Option.map_some', Option.some.injEq] at h1
    subst h1
    obtain ⟨_, h2, h3, _, h5⟩ := stream_terminated example_layout 1 mismatch_state
      (next_entries example_layout 1 mismatch_state blank_entry).2 p1 blank_entry blank_entry pe1
      (next_entries example_layout 1 mismatch_state blank_entry).1 rfl (by decide) hcall
    obtain ⟨q, hq, hq1, _⟩ := h5 [blank_entry, blank_entry, blank_entry]
    exact ⟨p1, pe1, rfl, h3.trans h2, q, hq, hq1.trans h2⟩

/-- Spill mismatch: the failing event creates an object of type 1; the
failing call raises the counter of type 1 from 0 to 1, and two more calls
raise it to 3. -/
theorem failing_call_not_atomic_witness :
    ∃ p1 pe1, next_entry example_layout { mismatch_state with iter := 1 } blank_entry =
        some (false, p1, pe1) ∧
      (p1.stats 1).counter = 1 ∧
      ∃ q, next_entry_seq example_layout [blank_entry, blank_entry] p1 =
          some ([false, false], q) ∧ (q.stats 1).counter = 3 := by
  obtain ⟨p1, pe1, h1, _, _, h4, _, _, h7⟩ := failing_call_not_atomic example_layout
    { mismatch_state with iter := 1 } blank_entry ⟨0, 20⟩ ⟨0, 1⟩ (event_slot 5 20 77)
    (by decide) (by decide) (by decide) (by decide)
  obtain ⟨q, hq, _, hq2⟩ := h7 [blank_entry, blank_entry]
  exact ⟨p1, pe1, h1, h4, q, hq, hq2⟩

/-! ## The invariant of the object tracker -/

theorem map_find_u64_ne_none (x : Nat) (m : List (Nat × Nat)) :
    map_find compare_u64 x m ≠ none ↔ x ∈ m.map Prod.fst := by
  induction m with
  | nil => simp [map_find]
  | cons kv rest ih =>
    obtain ⟨k, v⟩ := kv
    simp only [map_find, List.map_cons, List.mem_cons]
    by_cases hx : x = k
    · subst hx
      simp [compare_u64]
    · have : (!compare_u64 x k && !compare_u64 k x) = false := by
        simp only [compare_u64, Bool.and_eq_false_imp, Bool.not_eq_true', decide_eq_false_iff_not,
          Bool.not_eq_false', decide_eq_true_eq]
        omega
      rw [this]
      simp only [Bool.false_eq_true, if_false, ih, hx, false_or]

theorem keys_map_assign_u64 (k v : Nat) (m : List (Nat × Nat)) (y : Nat) :
    y ∈ (map_assign compare_u64 k v m).map Prod.fst ↔ y = k ∨ y ∈ m.map Prod.fst := by
  induction m with
  | nil => simp [map_assign]
  | cons kv rest ih =>
    obtain ⟨k1, v1⟩ := kv
    simp only [map_assign]
    split
    · simp
    · rename_i h1
      split
      · simp only [List.map_cons, List.mem_cons, ih]
        tauto
      · rename_i h2
        have : k = k1 := compare_u64_equiv _ _ (by simpa using h1) (by simpa using h2)
        subst this
        simp

theorem value_mem_map_assign {K V : Type} (lt : K → K → Bool) (k : K) (v : V)
    (m : List (K × V)) (x : K × V) (hx : x ∈ map_assign lt k v m) : x ∈ m ∨ x.2 = v := by
  rcases mem_map_assign lt k v m x hx with h | h | ⟨h, _⟩
  · exact Or.inl h
  · exact Or.inr (by rw [h])
  · exact Or.inr h

/-- The statement for `new_object` keeps the key sets of the two maps equal. -/
theorem track_new_object_same_keys (tp : spdk_trace_tpoint) (e : spdk_trace_entry)
    (st : object_stats) (h : same_keys st) : same_keys (track_new_object tp e st) := by
  unfold track_new_object
  split
  · intro x
    simp only [keys_map_assign_u64]
    rw [h x]
  · exact h

/-- With equal key sets the lookup finds in the index map every id it
found in the start map, and inserts nothing. -/
theorem lookup_object_same_keys (L : Layout) (tp : spdk_trace_tpoint) (e : spdk_trace_entry)
    (st : object_stats) (q : spdk_trace_parser_entry) (h : same_keys st) :
    (lookup_object L tp e st q).1 = st ∧
    (tp.object_type ≠ L.OBJECT_NONE → ∀ sv, map_find compare_u64 e.object_id st.start = some sv →
      ∃ iv, map_find compare_u64 e.object_id st.index = some iv) := by
  have key : ∀ sv, map_find compare_u64 e.object_id st.start = some sv →
      ∃ iv, map_find compare_u64 e.object_id st.index = some iv := by
    intro sv hsv
    have h1 : e.object_id ∈ st.start.map Prod.fst :=
      (map_find_u64_ne_none _ _).1 (by rw [hsv]; simp)
    have h2 := (map_find_u64_ne_none _ _).2 ((h _).2 h1)
    cases h3 : map_find compare_u64 e.object_id st.index with
    | none => exact absurd h3 h2
    | some iv => exact ⟨iv, rfl⟩
  refine ⟨?_, fun _ => key⟩
  unfold lookup_object
  split
  · split
    · rename_i sv hsv
      obtain ⟨iv, hiv⟩ := key sv hsv
      simp only [map_subscript_found _ _ _ hiv, map_subscript_found _ _ _ hsv]
    · rfl
  · rfl

theorem step_stats_same_keys (L : Layout) (tp : spdk_trace_tpoint) (e : spdk_trace_entry)
    (st : object_stats) (h : same_keys st) :
    step_stats L tp e st = track_new_object tp e st := by
  unfold step_stats
  exact (lookup_object_same_keys L tp e _ _ (track_new_object_same_keys tp e st h)).1

theorem track_new_object_below (tp : spdk_trace_tpoint) (e : spdk_trace_entry)
    (st : object_stats) (h : indices_below_counter st)
    (hc : tp.new_object = true → st.counter < UINT64_MAX) :
    indices_below_counter (track_new_object tp e st) := by
  unfold track_new_object
  split
  · rename_i hnew
    have hlt := hc hnew
    unfold UINT64_MAX at hlt
    intro kv hkv
    simp only at hkv ⊢
    rw [Nat.mod_eq_of_lt (by omega)]
    rcases value_mem_map_assign _ _ _ _ _ hkv with h1 | h1
    · have := h kv h1
      omega
    · omega
  · exact h

/-- The object stats after a call of `next_entry` that returns. -/
theorem next_entry_stats (L : Layout) (p p1 : parser_state) (pe pe1 : spdk_trace_parser_entry)
    (ok : Bool) (h : next_entry L p pe = some (ok, p1, pe1)) :
    (p.entries[p.iter]? = none ∧ p1.stats = p.stats) ∨
    ∃ key ptr entry, p.entries[p.iter]? = some (key, ptr) ∧
      deref p.histories ptr = some entry ∧
      p1.stats = Function.update p.stats (p.histories.flags.tpoint entry.tpoint_id).object_type
        (step_stats L (p.histories.flags.tpoint entry.tpoint_id) entry
          (p.stats (p.histories.flags.tpoint entry.tpoint_id).object_type)) := by
  cases hk : p.entries[p.iter]? with
  | none =>
    simp only [next_entry, hk, Option.some.injEq, Prod.mk.injEq] at h
    rw [← h.2.1]
    exact Or.inl ⟨rfl, rfl⟩
  | some kv =>
    obtain ⟨key, ptr⟩ := kv
    cases hd : deref p.histories ptr with
    | none => simp [next_entry, hk, hd] at h
    | some entry =>
      right
      refine ⟨key, ptr, entry, rfl, hd, ?_⟩
      obtain ⟨h1, h2, h3⟩ := next_entry_at L p pe key ptr entry hk hd
      cases hr : reassembly L p.histories (p.histories.flags.tpoint entry.tpoint_id).args ptr
          key.lcore with
      | none => rw [h1 hr] at h; simp at h
      | some b =>
        cases b
        · obtain ⟨pe2, h4⟩ := h2 hr
          rw [h4] at h
          simp only [Option.some.injEq, Prod.mk.injEq] at h
          rw [← h.2.1]
        · obtain ⟨pe2, h4⟩ := h3 hr
          rw [h4] at h
          simp only [Option.some.injEq, Prod.mk.injEq] at h
          rw [← h.2.1]

/-- C19 (amended): every call of `next_entry` that returns, with true or
with false, preserves for every object type that the index map and the
start map have the same set of object ids as keys, so that the lookup,
which tests membership in the start map and then reads the index map, finds
the id in the index map and inserts nothing; and it preserves that every
value stored in the index map is below the counter of the type, provided
that, when the event at the cursor has `new_object` set, the counter of its
type is below `UINT64_MAX` before the call. -/
theorem tracker_invariant_preserved (L : Layout) (p p1 : parser_state)
    (pe pe1 : spdk_trace_parser_entry) (ok : Bool)
    (hcall : next_entry L p pe = some (ok, p1, pe1))
    (hkeys : ∀ t, same_keys (p.stats t)) :
    (∀ t, same_keys (p1.stats t)) ∧
    (∀ key ptr entry (q : spdk_trace_parser_entry), p.entries[p.iter]? = some (key, ptr) →
      deref p.histories ptr = some entry →
      (lookup_object L (p.histories.flags.tpoint entry.tpoint_id) entry
          (track_new_object (p.histories.flags.tpoint entry.tpoint_id) entry
            (p.stats (p.histories.flags.tpoint entry.tpoint_id).object_type)) q).1 =
        track_new_object (p.histories.flags.tpoint entry.tpoint_id) entry
          (p.stats (p.histories.flags.tpoint entry.tpoint_id).object_type)) ∧
    ((∀ key ptr entry, p.entries[p.iter]? = some (key, ptr) →
        deref p.histories ptr = some entry →
        (p.histories.flags.tpoint entry.tpoint_id).new_object = true →
        (p.stats (p.histories.flags.tpoint entry.tpoint_id).object_type).counter < UINT64_MAX) →
      (∀ t, indices_below_counter (p.stats t)) → ∀ t, indices_below_counter (p1.stats t)) := by
  have hstep : ∀ (tp : spdk_trace_tpoint) (e : spdk_trace_entry) (t : Nat),
      Function.update p.stats tp.object_type (step_stats L tp e (p.stats tp.object_type)) t =
        if t = tp.object_type then track_new_object tp e (p.stats tp.object_type)
        else p.stats t := by
    intro tp e t
    by_cases ht : t = tp.object_type
    · rw [if_pos ht, ht, Function.update_same, step_stats_same_keys L tp e _ (hkeys _)]
    · rw [if_neg ht, Function.update_noteq ht]
  refine ⟨?_, ?_, ?_⟩
  · intro t
    rcases next_entry_stats L p p1 pe pe1 ok hcall with ⟨_, h⟩ | ⟨key, ptr, entry, _, _, h⟩
    · rw [h]; exact hkeys t
    · rw [h, hstep]
      split
      · exact track_new_object_same_keys _ _ _ (hkeys _)
      · exact hkeys t
  · intro key ptr entry q _ _
    exact (lookup_object_same_keys L _ entry _ q
      (track_new_object_same_keys _ entry _ (hkeys _))).1
  · intro hroom hbelow t
    rcases next_entry_stats L p p1 pe pe1 ok hcall with ⟨_, h⟩ | ⟨key, ptr, entry, hk, hd, h⟩
    · rw [h]; exact hbelow t
    · rw [h, hstep]
      split
      · exact track_new_object_below _ _ _ (hbelow _) (hroom key ptr entry hk hd)
      · exact hbelow t

/-- C19 fails as stated: with the counter of type 1 at `UINT64_MAX` and
nothing tracked the invariant holds; the call on the creation event of
object 100 stores the index `UINT64_MAX` and wraps the counter to zero, so
the stored index is not below the counter after the call. -/
theorem tracker_invariant_breaks_at_wrap :
    ¬ ((∀ t, same_keys (wrapping_state.stats t) ∧
          indices_below_counter (wrapping_state.stats t)) →
      ∀ (ok : Bool) (p1 : parser_state) (pe1 : spdk_trace_parser_entry),
        next_entry example_layout wrapping_state blank_entry = some (ok, p1, pe1) →
        ∀ t, same_keys (p1.stats t) ∧ indices_below_counter (p1.stats t)) := by
  intro H
  have h0 : ∀ t, same_keys (wrapping_state.stats t) ∧
      indices_below_counter (wrapping_state.stats t) := by
    intro t
    constructor
    · intro x; simp [wrapping_state]
    · intro kv hkv; simp [wrapping_state] at hkv
  have h1 : (next_entry example_layout wrapping_state blank_entry).map
      (fun r => r.2.1.stats 1) = some ⟨[(100, UINT64_MAX)], [(100, 5)], 0⟩ := by
    decide
  cases hcall : next_entry example_layout wrapping_state blank_entry with
  | none => rw [hcall] at h1; simp at h1
  | some r =>
    obtain ⟨ok, p1, pe1⟩ := r
    rw [hcall] at h1
    simp only [Option.map_some', Option.some.injEq] at h1
    have h2 := (H h0 ok p1 pe1 hcall 1).2
    rw [h1] at h2
    have h3 := h2 (100, UINT64_MAX) (List.mem_cons_self _ _)
    simp at h3

/-- The first call of the object lifecycle keeps the invariant. -/
theorem tracker_invariant_preserved_witness :
    (∀ t, same_keys (lifecycle_state.stats t)) ∧
    ∃ p1 pe1, next_entry example_layout lifecycle_state blank_entry = some (true, p1, pe1) ∧
      ∀ t, same_keys (p1.stats t) := by
  have h0 : ∀ t, same_keys (lifecycle_state.stats t) := by
    intro t x; simp [lifecycle_state]
  have h1 : (next_entry example_layout lifecycle_state blank_entry).map
      (fun r => r.1) = some true := by
    decide
  cases hcall : next_entry example_layout lifecycle_state blank_entry with
  | none => rw [hcall] at h1; simp at h1
  | some r =>
    obtain ⟨ok, p1, pe1⟩ := r
    rw [hcall] at h1
    simp only [Option.map_some', Option.some.injEq] at h1
    subst h1
    exact ⟨h0, p1, pe1, rfl,
      (tracker_invariant_preserved example_layout lifecycle_state p1 blank_entry pe1 true
        hcall h0).1⟩

/-! ## Every slot `populate_events` reads is inside the ring -/

theorem visited_length_last (first last filled : Nat) (hfirst : first < filled)
    (hlast : last < filled) :
    (if first ≤ last then List.range' first (last - first + 1)
        else List.range' first (filled - first) ++ List.range' 0 (last + 1)).length ≤ filled ∧
    (if first ≤ last then List.range' first (last - first + 1)
        else List.range' first (filled - first) ++ List.range' 0 (last + 1)).getLast? =
      some last := by
  split
  · rename_i h
    refine ⟨by rw [List.length_range']; omega, ?_⟩
    rw [List.range'_1_concat, List.getLast?_append]
    simp
    omega
  · rename_i h
    refine ⟨by rw [List.length_append, List.length_range', List.length_range']; omega, ?_⟩
    rw [List.range'_1_concat 0 last, ← List.append_assoc, List.getLast?_append]
    simp

/-- C18: for every history of capacity N ≥ 1 whose slot 0 has a nonzero
time stamp, `populate_events` comes to an end and reads inside the ring
only: the backward scan stops, without reading below slot zero, at
`num_entries_filled` with 1 ≤ `num_entries_filled` ≤ N (the slot below it
has a nonzero time stamp, the slots from it on have time stamp zero); the
scan for `first` and `last` holds indices at most `m` after round `m`, for
every round `m` < N; `first` and `last` are below `num_entries_filled`; the
insertion loop visits slots below `num_entries_filled` only and reaches
`last` after at most `num_entries_filled` rounds. -/
theorem populate_events_in_bounds (L : Layout) (p : parser_state) (hist : Nat)
    (h : spdk_trace_history) (hne : h.entries ≠ [])
    (h0 : (slot_at h.entries 0).tsc ≠ 0) :
    ∃ p1 tr, populate_events_traced L p hist h h.entries.length = some (p1, tr) ∧
      count_filled h.entries h.entries.length = some tr.num_entries_filled ∧
      1 ≤ tr.num_entries_filled ∧ tr.num_entries_filled ≤ h.entries.length ∧
      (slot_at h.entries (tr.num_entries_filled - 1)).tsc ≠ 0 ∧
      (∀ j, tr.num_entries_filled ≤ j → j < h.entries.length → (slot_at h.entries j).tsc = 0) ∧
      (∀ m, m < h.entries.length →
        ((List.range' 1 m).foldl (first_last_step h.entries) (0, 0)).1 ≤ m ∧
        ((List.range' 1 m).foldl (first_last_step h.entries) (0, 0)).2 ≤ m) ∧
      tr.first < tr.num_entries_filled ∧ tr.last < tr.num_entries_filled ∧
      (∀ j ∈ tr.visited, j < tr.num_entries_filled) ∧
      tr.visited.length ≤ tr.num_entries_filled ∧
      tr.visited.getLast? = some tr.last := by
  have hpos : 0 < h.entries.length := List.length_pos.2 hne
  obtain ⟨M, hM⟩ := count_filled_isSome h.entries h.entries.length 0 (le_refl _) hpos h0
  obtain ⟨h1, h2, _, h4, h5⟩ := count_filled_spec h.entries _ M hM
  obtain ⟨hf, hl⟩ := choose_first_last_lt h.entries h.entries.length M h1 h2
  obtain ⟨vis, hv, hvis⟩ := populate_events_traced_eq L p hist h _ M hM
  obtain ⟨hlen, hlastv⟩ := visited_length_last _ _ M hf hl
  rw [← hvis] at hlen hlastv
  refine ⟨_, _, hv, hM, h1, h2, h4, h5, ?_, hf, hl, ?_, hlen, hlastv⟩
  · intro m _
    exact ⟨(foldl_first_last_spec h.entries m).1, (foldl_first_last_spec h.entries m).2.1⟩
  · intro j hj
    show j < M
    have hj2 : j ∈ vis := hj
    rw [hvis] at hj2
    exact visited_of_locals _ _ M j hf hl hj2

/-- Eight slots of which three are filled: the scan stops at 3 and the
loop visits the slots 0, 1, 2. -/
theorem populate_events_in_bounds_witness :
    unwrapped_history.entries ≠ [] ∧ (slot_at unwrapped_history.entries 0).tsc ≠ 0 ∧
    ∃ p1 tr, populate_events_traced example_layout (fresh_state (single_core unwrapped_history))
        0 unwrapped_history unwrapped_history.entries.length = some (p1, tr) ∧
      1 ≤ tr.num_entries_filled ∧ tr.num_entries_filled ≤ 8 ∧
      ∀ j ∈ tr.visited, j < tr.num_entries_filled :=
  ⟨by decide, by decide,
    (populate_events_in_bounds example_layout (fresh_state (single_core unwrapped_history)) 0
      unwrapped_history (by decide) (by decide)).imp fun _ hp1 =>
        hp1.imp fun _ htr => ⟨htr.1, htr.2.2.1, htr.2.2.2.1, htr.2.2.2.2.2.2.2.2.2.1⟩⟩

/-! ## What `build_arg` writes -/

theorem copy_bytes_length (dst : List Nat) (doff : Nat) (src : List Nat) (soff n : Nat) :
    (copy_bytes dst doff src soff n).length = dst.length := by
  simp [copy_bytes]

theorem copy_bytes_getElem? (dst : List Nat) (doff : Nat) (src : List Nat) (soff n j : Nat) :
    (copy_bytes dst doff src soff n)[j]? =
      if doff ≤ j ∧ j < doff + n ∧ j < dst.length then some (src.getD (soff + (j - doff)) 0)
      else dst[j]? := by
  simp only [copy_bytes, List.getElem?_map, List.getElem?_enum]
  rcases Nat.lt_or_ge j dst.length with h | h
  · rw [List.getElem?_eq_getElem h]
    simp only [Option.map_some']
    by_cases hc : doff ≤ j ∧ j < doff + n
    · rw [if_pos hc, if_pos ⟨hc.1, hc.2, h⟩]
    · rw [if_neg hc, if_neg (fun hc1 => hc ⟨hc1.1, hc1.2.1⟩)]
  · rw [List.getElem?_eq_none h, if_neg (by omega)]
    rfl

theorem getD_set_slot (args : List (List Nat)) (argid i : Nat) (x : List Nat) :
    (args.set argid x).getD i [] =
      if i = argid ∧ argid < args.length then x else args.getD i [] := by
  rw [List.getD_eq_getElem?_getD, List.getD_eq_getElem?_getD, List.getElem?_set]
  by_cases hi : argid = i
  · subst hi
    by_cases hlt : argid < args.length
    · simp [hlt]
    · simp [hlt, List.getElem?_eq_none (Nat.le_of_not_lt hlt)]
  · rw [if_neg hi, if_neg (fun h => hi h.1.symm)]

/-- Writing into one argument slot: the slots keep their lengths, and the
only bytes that change are the copied ones. -/
theorem write_slot (args : List (List Nat)) (argid doff : Nat) (src : List Nat) (soff n : Nat) :
    (args.set argid (copy_bytes (args.getD argid []) doff src soff n)).map List.length =
      args.map List.length ∧
    ∀ i j, ((args.set argid (copy_bytes (args.getD argid []) doff src soff n)).getD i [])[j]? =
      if i = argid ∧ doff ≤ j ∧ j < doff + n ∧ j < (args.getD argid []).length then
        some (src.getD (soff + (j - doff)) 0)
      else (args.getD i [])[j]? := by
  constructor
  · apply List.ext_getElem?
    intro i
    simp only [List.getElem?_map, List.getElem?_set]
    by_cases hi : argid = i
    · subst hi
      rw [if_pos rfl]
      by_cases hlt : argid < args.length
      · rw [if_pos hlt, List.getElem?_eq_getElem hlt]
        simp only [Option.map_some', copy_bytes_length, List.getD_eq_getElem?_getD,
          List.getElem?_eq_getElem hlt, Option.getD_some]
      · rw [if_neg hlt, List.getElem?_eq_none (by omega)]
    · rw [if_neg hi]
  · intro i j
    rw [getD_set_slot]
    by_cases hi : i = argid
    · subst hi
      by_cases hlt : i < args.length
      · rw [if_pos ⟨rfl, hlt⟩, copy_bytes_getElem?]
        simp only [true_and]
      · rw [if_neg (fun h => hlt h.2)]
        have hnil : args.getD i [] = [] := by
          rw [List.getD_eq_getElem?_getD, List.getElem?_eq_none (Nat.le_of_not_lt hlt)]
          rfl
        rw [hnil, if_neg (by simp)]
    · rw [if_neg (fun h => hi h.1), if_neg (fun h => hi h.1)]

/-- The loop of `build_arg`, started at `argoff`, leaves the scalar fields
and the lengths of the slots as they are, and changes no byte outside
`argoff ≤ j < min size arg_capacity` of the slot `argid`. -/
theorem build_arg_loop_writes (L : Layout) (hs : spdk_trace_histories)
    (entry_tsc size argid : Nat) (fuel argoff : Nat) (argctx argctx1 : argument_context)
    (pe pe1 : spdk_trace_parser_entry) (ok : Bool)
    (h : build_arg_loop L hs entry_tsc size argid fuel argoff argctx pe = some (ok, argctx1, pe1)) :
    pe1.args.map List.length = pe.args.map List.length ∧
    ∀ i j, (i ≠ argid ∨ j < argoff ∨ min size L.arg_capacity ≤ j) →
      arg_byte pe1 i j = arg_byte pe i j := by
  induction fuel generalizing argoff argctx pe with
  | zero =>
    simp only [build_arg_loop] at h
    split at h
    · simp at h
    · simp only [Option.some.injEq, Prod.mk.injEq] at h
      rw [← h.2.2]
      exact ⟨rfl, fun _ _ _ => rfl⟩
  | succ fuel ih =>
    simp only [build_arg_loop] at h
    split at h
    · rename_i hlt
      split at h
      · simp at h
      · simp only [Option.some.injEq, Prod.mk.injEq] at h
        rw [← h.2.2]
        exact ⟨rfl, fun _ _ _ => rfl⟩
      · rename_i ctx1 _
        split at h
        · simp at h
        · rename_i b _
          by_cases hcap : argoff < L.arg_capacity
          · rw [if_pos hcap] at h
            obtain ⟨ih1, ih2⟩ := ih _ _ _ h
            obtain ⟨w1, w2⟩ := write_slot pe.args argid argoff b.data ctx1.offset
              (min (min (L.data_size - ctx1.offset) (size - argoff)) (L.arg_capacity - argoff))
            refine ⟨ih1.trans w1, ?_⟩
            intro i j hij
            have hpre : i ≠ argid ∨
                j < argoff + min (L.data_size - ctx1.offset) (size - argoff) ∨
                min size L.arg_capacity ≤ j := by
              rcases hij with h1 | h1 | h1
              · exact Or.inl h1
              · exact Or.inr (Or.inl (by omega))
              · exact Or.inr (Or.inr h1)
            rw [ih2 i j hpre]
            simp only [arg_byte]
            rw [w2, if_neg]
            intro hc
            rcases hij with h1 | h1 | h1
            · exact h1 hc.1
            · omega
            · omega
          · rw [if_neg hcap] at h
            obtain ⟨ih1, ih2⟩ := ih _ _ _ h
            refine ⟨ih1, ?_⟩
            intro i j hij
            apply ih2 i j
            rcases hij with h1 | h1 | h1
            · exact Or.inl h1
            · exact Or.inr (Or.inl (by omega))
            · exact Or.inr (Or.inr h1)
    · simp only [Option.some.injEq, Prod.mk.injEq] at h
      rw [← h.2.2]
      exact ⟨rfl, fun _ _ _ => rfl⟩

/-- C16: for every call `build_arg(argctx, arg, argid, pe)` that returns,
with true or with false, the only bytes of the parsed entry that can differ
after the call are the bytes `j < min(arg.size, slot capacity)` of
`pe.args[argid]`: every byte of that slot at or beyond
`min(arg.size, slot capacity)`, also beyond the capacity, every byte of
every other argument slot, the lengths of the slots, and the fields
`lcore`, `entry`, `object_index`, `object_start` are unchanged. -/
theorem build_arg_frame (L : Layout) (hs : spdk_trace_histories)
    (argctx argctx1 : argument_context) (arg : spdk_trace_argument) (argid : Nat)
    (pe pe1 : spdk_trace_parser_entry) (ok : Bool)
    (h : build_arg L hs argctx arg argid pe = some (ok, argctx1, pe1)) :
    pe1.lcore = pe.lcore ∧ pe1.entry = pe.entry ∧ pe1.object_index = pe.object_index ∧
    pe1.object_start = pe.object_start ∧
    pe1.args.map List.length = pe.args.map List.length ∧
    (∀ i j, i ≠ argid → arg_byte pe1 i j = arg_byte pe i j) ∧
    (∀ j, min arg.size L.arg_capacity ≤ j → arg_byte pe1 argid j = arg_byte pe argid j) := by
  unfold build_arg at h
  split at h
  · simp at h
  · obtain ⟨h1, h2, h3, h4⟩ := build_arg_loop_frame _ _ _ _ _ _ _ _ _ _ _ _ h
    obtain ⟨h5, h6⟩ := build_arg_loop_writes _ _ _ _ _ _ _ _ _ _ _ _ h
    exact ⟨h1, h2, h3, h4, h5, fun i j hi => h6 i j (Or.inl hi),
      fun j hj => h6 argid j (Or.inr (Or.inr hj))⟩

theorem payload_init : init example_layout payload none = some payload_state := by
  rfl

/-- The first argument of `payload_event`, 12 bytes into a slot of 8: the
other slots and the scalar fields stay as they were. -/
theorem build_arg_frame_witness :
    ∃ ctx1 pe1, build_arg example_layout payload
        (argument_context.init example_layout ⟨0, 0⟩ 0) ⟨12⟩ 0 blank_entry =
          some (true, ctx1, pe1) ∧
      pe1.lcore = blank_entry.lcore ∧
      (∀ i j, i ≠ 0 → arg_byte pe1 i j = arg_byte blank_entry i j) ∧
      pe1.args.getD 0 [] = [14, 15, 16, 17, 18, 19, 20, 21] := by
  have h1 : (build_arg example_layout payload
      (argument_context.init example_layout ⟨0, 0⟩ 0) ⟨12⟩ 0 blank_entry).map
        (fun r => (r.1, r.2.2.args.getD 0 [])) = some (true, [14, 15, 16, 17, 18, 19, 20, 21]) := by
    decide
  cases hcall : build_arg example_layout payload
      (argument_context.init example_layout ⟨0, 0⟩ 0) ⟨12⟩ 0 blank_entry with
  | none => rw [hcall] at h1; simp at h1
  | some r =>
    obtain ⟨ok, ctx1, pe1⟩ := r
    rw [hcall] at h1
    simp only [Option.map_some', Option.some.injEq, Prod.mk.injEq] at h1
    obtain ⟨rfl, h2⟩ := h1
    obtain ⟨h3, _, _, _, _, h8, _⟩ := build_arg_frame example_layout payload _ ctx1 ⟨12⟩ 0
      blank_entry pe1 true hcall
    exact ⟨ctx1, pe1, rfl, h3, h8, h2⟩

theorem next_index (N q m : Nat) (hm : m < N) (hq : m = (q % N)) :
    (q + 1) % N = if m = N - 1 then 0 else m + 1 := by
  have h1 := Nat.mod_add_div q N
  have h2 : (q + 1) % N = (m + 1) % N := by
    conv_lhs => rw [← h1, ← hq]
    rw [show m + N * (q / N) + 1 = m + 1 + N * (q / N) by omega, Nat.add_mul_mod_self_left]
  rw [h2]
  by_cases hc : m = N - 1
  · rw [if_pos hc]
    have : m + 1 = N := by omega
    rw [this, Nat.mod_self]
  · rw [if_neg hc]
    exact Nat.mod_eq_of_lt (by omega)

theorem get_next_buffer_ring (hs : spdk_trace_histories) (lcore : Nat) (h : spdk_trace_history)
    (idx k : Nat) (hh : hs.per_lcore[lcore]? = some h) (hN : 0 < h.entries.length) :
    get_next_buffer hs ⟨lcore, (idx + k) % h.entries.length⟩ lcore =
      some ⟨lcore, (idx + (k + 1)) % h.entries.length⟩ := by
  have hm := Nat.mod_lt (idx + k) hN
  have h1 := next_index h.entries.length (idx + k) _ hm rfl
  simp only [get_next_buffer, spdk_get_per_lcore_history, hh]
  rw [← Nat.add_assoc, h1]
  by_cases hc : (idx + k) % h.entries.length = h.entries.length - 1
  · rw [if_pos hc, if_pos ⟨by omega, by rw [hc]⟩]
  · rw [if_neg hc, if_neg]
    intro hx
    apply hc
    have := congrArg entry_ptr.idx hx.2
    exact this

theorem deref_ring (hs : spdk_trace_histories) (lcore : Nat) (h : spdk_trace_history)
    (idx k : Nat) (hh : hs.per_lcore[lcore]? = some h) (hN : 0 < h.entries.length) :
    deref hs ⟨lcore, (idx + k) % h.entries.length⟩ = some (ring_slot h idx k) := by
  have hm := Nat.mod_lt (idx + k) hN
  simp only [deref, hh, ring_slot, slot_at]
  rw [List.getElem?_eq_getElem hm, List.getD_eq_getElem?_getD, List.getElem?_eq_getElem hm]
  rfl

/-- One round of the loop of `build_arg` with bytes still to copy: either
the next slot is not a continuation of the event and the call returns
false, or the cursor stands in the slot `kk` with room left and the round
copies from there. -/
theorem build_arg_loop_round (L : Layout) (hs : spdk_trace_histories) (lcore : Nat)
    (h : spdk_trace_history) (idx tsc size argid : Nat)
    (hh : hs.per_lcore[lcore]? = some h) (hN : 0 < h.entries.length) (hD : 0 < L.data_size)
    (fuel argoff : Nat) (ctx : argument_context) (pe : spdk_trace_parser_entry) (k : Nat)
    (hlt : argoff < size) (hl : ctx.lcore = lcore)
    (hb : ctx.buffer = ⟨lcore, (idx + k) % h.entries.length⟩) (ho : ctx.offset ≤ L.data_size) :
    (ctx.offset = L.data_size ∧ ¬ spill_ok L h idx tsc (k + 1) ∧
      build_arg_loop L hs tsc size argid (fuel + 1) argoff ctx pe = some (false, ctx, pe)) ∨
    ∃ (c1 : argument_context) (kk : Nat), c1.lcore = lcore ∧ c1.entry = ctx.entry ∧
      c1.buffer = ⟨lcore, (idx + kk) % h.entries.length⟩ ∧ c1.offset < L.data_size ∧
      kk * L.data_size + c1.offset = k * L.data_size + ctx.offset ∧ k ≤ kk ∧ kk ≤ k + 1 ∧
      (kk = k + 1 → spill_ok L h idx tsc (k + 1)) ∧
      build_arg_loop L hs tsc size argid (fuel + 1) argoff ctx pe =
        build_arg_loop L hs tsc size argid fuel
          (argoff + min (L.data_size - c1.offset) (size - argoff))
          { c1 with offset := c1.offset + min (L.data_size - c1.offset) (size - argoff) }
          (if argoff < L.arg_capacity then
            { pe with
              args := pe.args.set argid
                (copy_bytes (pe.args.getD argid []) argoff (ring_slot h idx kk).data c1.offset
                  (min (min (L.data_size - c1.offset) (size - argoff))
                    (L.arg_capacity - argoff))) }
           else pe) := by
  by_cases hoff : ctx.offset = L.data_size
  · have hnext := get_next_buffer_ring hs lcore h idx k hh hN
    have hd := deref_ring hs lcore h idx (k + 1) hh hN
    by_cases hok : spill_ok L h idx tsc (k + 1)
    · right
      refine ⟨{ ctx with offset := 0, buffer := ⟨lcore, (idx + (k + 1)) % h.entries.length⟩ },
        k + 1, hl, rfl, rfl, hD, ?_, Nat.le_succ k, Nat.le_refl _, fun _ => hok, ?_⟩
      · simp only [hoff, Nat.add_zero, Nat.succ_mul]
      · have hc : ¬ ((ring_slot h idx (k + 1)).tpoint_id ≠ L.SPDK_TRACE_MAX_TPOINT_ID ∨
            (ring_slot h idx (k + 1)).tsc ≠ tsc) := by
          intro hx
          rcases hx with hx | hx
          · exact hx hok.1
          · exact hx hok.2
        simp only [build_arg_loop, if_pos hlt, if_pos hoff, hb, hl, hnext, hd, if_neg hc]
    · left
      refine ⟨hoff, hok, ?_⟩
      have hc : (ring_slot h idx (k + 1)).tpoint_id ≠ L.SPDK_TRACE_MAX_TPOINT_ID ∨
          (ring_slot h idx (k + 1)).tsc ≠ tsc := by
        by_cases h1 : (ring_slot h idx (k + 1)).tpoint_id = L.SPDK_TRACE_MAX_TPOINT_ID
        · right
          intro h2
          exact hok ⟨h1, h2⟩
        · exact Or.inl h1
      simp only [build_arg_loop, if_pos hlt, if_pos hoff, hb, hl, hnext, hd, if_pos hc]
  · right
    have hd := deref_ring hs lcore h idx k hh hN
    refine ⟨ctx, k, hl, rfl, hb, by omega, rfl, Nat.le_refl _, Nat.le_succ k,
      fun hx => absurd hx (by omega), ?_⟩
    simp only [build_arg_loop, if_pos hlt, if_neg hoff, hb, hd]

theorem virtual_byte_at (L : Layout) (h : spdk_trace_history) (idx kk r : Nat)
    (hr : r < L.data_size) :
    virtual_byte L h idx (kk * L.data_size + r) = (ring_slot h idx kk).data.getD r 0 := by
  have hD : 0 < L.data_size := by omega
  simp only [virtual_byte]
  rw [Nat.mul_comm kk, Nat.mul_add_div hD, Nat.mul_add_mod, Nat.div_eq_of_lt hr,
    Nat.mod_eq_of_lt hr, Nat.add_zero]

/-- The bytes of the parsed entry after the copy of one round. -/
theorem round_bytes (pe : spdk_trace_parser_entry) (cap argid argoff : Nat) (src : List Nat)
    (soff n i j : Nat) :
    arg_byte (if argoff < cap then
        { pe with args := pe.args.set argid (copy_bytes (pe.args.getD argid []) argoff src soff n) }
      else pe) i j =
      if argoff < cap ∧ i = argid ∧ argoff ≤ j ∧ j < argoff + n ∧
          j < (pe.args.getD argid []).length then
        some (src.getD (soff + (j - argoff)) 0)
      else arg_byte pe i j := by
  by_cases hc : argoff < cap
  · rw [if_pos hc]
    simp only [arg_byte]
    rw [(write_slot pe.args argid argoff src soff n).2 i j]
    by_cases hx : i = argid ∧ argoff ≤ j ∧ j < argoff + n ∧ j < (pe.args.getD argid []).length
    · rw [if_pos hx, if_pos ⟨hc, hx⟩]
    · rw [if_neg hx, if_neg (fun hy => hx hy.2)]
  · rw [if_neg hc, if_neg (fun hy => hc hy.1)]

theorem build_arg_loop_done (L : Layout) (hs : spdk_trace_histories) (tsc size argid : Nat)
    (fuel argoff : Nat) (ctx : argument_context) (pe : spdk_trace_parser_entry)
    (hge : size ≤ argoff) :
    build_arg_loop L hs tsc size argid fuel argoff ctx pe = some (true, ctx, pe) := by
  cases fuel with
  | zero => simp only [build_arg_loop, if_neg (Nat.not_lt.mpr hge)]
  | succ n => simp only [build_arg_loop, if_neg (Nat.not_lt.mpr hge)]

/-- The loop of `build_arg` on a ring, with the cursor in the slot `k`
places after the event: it returns; it returns true exactly when every
slot it has to enter is a continuation of the event; the cursor then
stands `size - argoff` bytes further, and the bytes written are the bytes
the cursor passed. -/
theorem build_arg_loop_run (L : Layout) (hs : spdk_trace_histories) (lcore : Nat)
    (h : spdk_trace_history) (idx tsc size argid : Nat)
    (hh : hs.per_lcore[lcore]? = some h) (hN : 0 < h.entries.length) (hD : 0 < L.data_size) :
    ∀ (fuel argoff : Nat) (ctx : argument_context) (pe : spdk_trace_parser_entry) (k : Nat),
      size - argoff ≤ fuel → ctx.lcore = lcore →
      ctx.buffer = ⟨lcore, (idx + k) % h.entries.length⟩ → ctx.offset ≤ L.data_size →
      ((∀ j, k < j → j * L.data_size < k * L.data_size + ctx.offset + (size - argoff) →
          spill_ok L h idx tsc j) →
        ∃ (ctx1 : argument_context) (pe1 : spdk_trace_parser_entry) (k1 : Nat),
          build_arg_loop L hs tsc size argid fuel argoff ctx pe = some (true, ctx1, pe1) ∧
          ctx1.lcore = lcore ∧ ctx1.entry = ctx.entry ∧
          ctx1.buffer = ⟨lcore, (idx + k1) % h.entries.length⟩ ∧
          ctx1.offset ≤ L.data_size ∧
          k1 * L.data_size + ctx1.offset = k * L.data_size + ctx.offset + (size - argoff) ∧
          k ≤ k1 ∧ (argoff < size → 0 < ctx1.offset) ∧ (size ≤ argoff → k1 = k) ∧
          ∀ j, argoff ≤ j → j < min size L.arg_capacity →
            arg_byte pe1 argid j = (arg_byte pe argid j).map fun _ =>
              virtual_byte L h idx (k * L.data_size + ctx.offset + (j - argoff))) ∧
      ((∃ j, k < j ∧ j * L.data_size < k * L.data_size + ctx.offset + (size - argoff) ∧
          ¬ spill_ok L h idx tsc j) →
        ∃ (ctx1 : argument_context) (pe1 : spdk_trace_parser_entry),
          build_arg_loop L hs tsc size argid fuel argoff ctx pe = some (false, ctx1, pe1) ∧
          ctx1.offset ≤ L.data_size) := by
  have hdone : ∀ (fuel argoff : Nat) (ctx : argument_context) (pe : spdk_trace_parser_entry)
      (k : Nat), size ≤ argoff → ctx.lcore = lcore →
      ctx.buffer = ⟨lcore, (idx + k) % h.entries.length⟩ → ctx.offset ≤ L.data_size →
      ((∀ j, k < j → j * L.data_size < k * L.data_size + ctx.offset + (size - argoff) →
          spill_ok L h idx tsc j) →
        ∃ (ctx1 : argument_context) (pe1 : spdk_trace_parser_entry) (k1 : Nat),
          build_arg_loop L hs tsc size argid fuel argoff ctx pe = some (true, ctx1, pe1) ∧
          ctx1.lcore = lcore ∧ ctx1.entry = ctx.entry ∧
          ctx1.buffer = ⟨lcore, (idx + k1) % h.entries.length⟩ ∧
          ctx1.offset ≤ L.data_size ∧
          k1 * L.data_size + ctx1.offset = k * L.data_size + ctx.offset + (size - argoff) ∧
          k ≤ k1 ∧ (argoff < size → 0 < ctx1.offset) ∧ (size ≤ argoff → k1 = k) ∧
          ∀ j, argoff ≤ j → j < min size L.arg_capacity →
            arg_byte pe1 argid j = (arg_byte pe argid j).map fun _ =>
              virtual_byte L h idx (k * L.data_size + ctx.offset + (j - argoff))) ∧
      ((∃ j, k < j ∧ j * L.data_size < k * L.data_size + ctx.offset + (size - argoff) ∧
          ¬ spill_ok L h idx tsc j) →
        ∃ (ctx1 : argument_context) (pe1 : spdk_trace_parser_entry),
          build_arg_loop L hs tsc size argid fuel argoff ctx pe = some (false, ctx1, pe1) ∧
          ctx1.offset ≤ L.data_size) := by
    intro fuel argoff ctx pe k hge hl hb ho
    constructor
    · intro _
      refine ⟨ctx, pe, k, build_arg_loop_done L hs tsc size argid fuel argoff ctx pe hge, hl, rfl,
        hb, ho, by omega, Nat.le_refl _, fun hx => absurd hx (by omega), fun _ => rfl, ?_⟩
      intro j h1 h2
      omega
    · rintro ⟨j, hkj, hj, _⟩
      have h1 : (k + 1) * L.data_size ≤ j * L.data_size := Nat.mul_le_mul_right _ hkj
      rw [Nat.succ_mul] at h1
      omega
  intro fuel
  induction fuel with
  | zero =>
    intro argoff ctx pe k hf
    exact hdone 0 argoff ctx pe k (by omega)
  | succ fuel ih =>
    intro argoff ctx pe k hf hl hb ho
    by_cases hlt : argoff < size
    · rcases build_arg_loop_round L hs lcore h idx tsc size argid hh hN hD fuel argoff ctx pe k
        hlt hl hb ho with ⟨hoff, hbad, hres⟩ | ⟨c1, kk, hl1, he1, hb1, ho1, hv, hk1, hk2, hok, hres⟩
      · constructor
        · intro hall
          exfalso
          apply hbad
          apply hall (k + 1) (Nat.lt_succ_self k)
          rw [Nat.succ_mul]
          omega
        · intro _
          exact ⟨ctx, pe, hres, ho⟩
      · obtain ⟨ihS, ihF⟩ := ih (argoff + min (L.data_size - c1.offset) (size - argoff))
          { c1 with offset := c1.offset + min (L.data_size - c1.offset) (size - argoff) }
          (if argoff < L.arg_capacity then
            { pe with
              args := pe.args.set argid
                (copy_bytes (pe.args.getD argid []) argoff (ring_slot h idx kk).data c1.offset
                  (min (min (L.data_size - c1.offset) (size - argoff))
                    (L.arg_capacity - argoff))) }
           else pe) kk (by omega) hl1 hb1 (by simp only; omega)
        constructor
        · intro hall
          obtain ⟨ctx1, pe1, k1, r1, r2, r3, r4, r5, r6, r7, r8, r9, r10⟩ := ihS (by
            intro j hkj hj
            apply hall j (by omega)
            simp only at hj
            omega)
          simp only at r6
          refine ⟨ctx1, pe1, k1, hres.trans r1, r2, r3.trans he1, r4, r5, by omega, by omega,
            ?_, fun hx => absurd hlt (by omega), ?_⟩
          · intro _
            by_cases hmore : argoff + min (L.data_size - c1.offset) (size - argoff) < size
            · exact r8 hmore
            · have := r9 (by omega)
              subst this
              omega
          · intro j hj1 hj2
            have hw := (build_arg_loop_writes L hs tsc size argid fuel _ _ _ _ _ _ r1).2 argid j
            by_cases hj3 : j < argoff + min (L.data_size - c1.offset) (size - argoff)
            · rw [hw (Or.inr (Or.inl hj3)), round_bytes]
              have hcap : argoff < L.arg_capacity := by omega
              by_cases hlen : j < (pe.args.getD argid []).length
              · rw [if_pos ⟨hcap, rfl, hj1, by omega, hlen⟩]
                have hsome : arg_byte pe argid j = some ((pe.args.getD argid [])[j]) := by
                  simp only [arg_byte]
                  exact List.getElem?_eq_getElem hlen
                rw [hsome, Option.map_some']
                have hvb := virtual_byte_at L h idx kk (c1.offset + (j - argoff)) (by omega)
                rw [← Nat.add_assoc, hv] at hvb
                rw [hvb]
              · rw [if_neg (fun hx => hlen hx.2.2.2.2)]
                have hnone : arg_byte pe argid j = none := by
                  simp only [arg_byte]
                  exact List.getElem?_eq_none (Nat.le_of_not_lt hlen)
                rw [hnone]
                rfl
            · rw [r10 j (by omega) hj2, round_bytes, if_neg (by omega)]
              simp only
              have he : kk * L.data_size +
                  (c1.offset + min (L.data_size - c1.offset) (size - argoff)) +
                  (j - (argoff + min (L.data_size - c1.offset) (size - argoff))) =
                  k * L.data_size + ctx.offset + (j - argoff) := by omega
              rw [he]
        · rintro ⟨j, hkj, hj, hbadj⟩
          have hkk : kk < j := by
            rcases Nat.lt_or_ge kk j with h1 | h1
            · exact h1
            · exfalso
              have h2 : kk = k + 1 := by omega
              have h3 : j = k + 1 := by omega
              rw [h3] at hbadj
              exact hbadj (hok h2)
          obtain ⟨ctx1, pe1, r1, r2⟩ := ihF ⟨j, hkk, by simp only; omega, hbadj⟩
          exact ⟨ctx1, pe1, hres.trans r1, r2⟩
    · exact hdone (fuel + 1) argoff ctx pe k (by omega) hl hb ho

/-- C17: in `build_arg` the cursor offset never exceeds the payload size
`data_size`.  With the cursor inside a ring of the file and an offset of at
most `data_size`: (1) the loop returns, with `size - argoff` rounds of
fuel, so `build_arg` returns within `arg.size` rounds, and the offset it
leaves is at most `data_size`; (2) a round with bytes still to copy either
returns false with the cursor untouched, or reads from a slot at an offset
below `data_size`, consumes `curlen` bytes with
`1 ≤ curlen ≤ data_size - offset`, so the bytes read lie inside the data
region, and goes on with `argoff + curlen > argoff`; (3) an argument of
size zero returns true and leaves the cursor and the parsed entry as they
are. -/
theorem build_arg_cursor_bounded (L : Layout) (hs : spdk_trace_histories) (lcore : Nat)
    (h : spdk_trace_history) (idx : Nat) (entry : spdk_trace_entry)
    (arg : spdk_trace_argument) (argid : Nat)
    (hh : hs.per_lcore[lcore]? = some h) (hN : 0 < h.entries.length) (hD : 0 < L.data_size) :
    (∀ (fuel argoff : Nat) (ctx : argument_context) (pe : spdk_trace_parser_entry) (k : Nat),
      arg.size - argoff ≤ fuel → ctx.lcore = lcore →
      ctx.buffer = ⟨lcore, (idx + k) % h.entries.length⟩ → ctx.offset ≤ L.data_size →
      ∃ ok ctx1 pe1, build_arg_loop L hs entry.tsc arg.size argid fuel argoff ctx pe =
          some (ok, ctx1, pe1) ∧ ctx1.offset ≤ L.data_size) ∧
    (∀ (ctx : argument_context) (pe : spdk_trace_parser_entry) (k : Nat),
      ctx.lcore = lcore → ctx.buffer = ⟨lcore, (idx + k) % h.entries.length⟩ →
      ctx.offset ≤ L.data_size → deref hs ctx.entry = some entry →
      ∃ ok ctx1 pe1, build_arg L hs ctx arg argid pe = some (ok, ctx1, pe1) ∧
        ctx1.offset ≤ L.data_size) ∧
    (∀ (fuel argoff : Nat) (ctx : argument_context) (pe : spdk_trace_parser_entry) (k : Nat),
      argoff < arg.size → ctx.lcore = lcore →
      ctx.buffer = ⟨lcore, (idx + k) % h.entries.length⟩ → ctx.offset ≤ L.data_size →
      build_arg_loop L hs entry.tsc arg.size argid (fuel + 1) argoff ctx pe =
          some (false, ctx, pe) ∨
      ∃ (c1 : argument_context) (kk : Nat) (curlen : Nat),
        c1.buffer = ⟨lcore, (idx + kk) % h.entries.length⟩ ∧
        deref hs c1.buffer = some (ring_slot h idx kk) ∧
        curlen = min (L.data_size - c1.offset) (arg.size - argoff) ∧
        c1.offset < L.data_size ∧ 1 ≤ curlen ∧ curlen ≤ L.data_size - c1.offset ∧
        c1.offset + min curlen (L.arg_capacity - argoff) ≤ L.data_size ∧
        argoff < argoff + curlen ∧ argoff + curlen ≤ arg.size ∧
        build_arg_loop L hs entry.tsc arg.size argid (fuel + 1) argoff ctx pe =
          build_arg_loop L hs entry.tsc arg.size argid fuel (argoff + curlen)
            { c1 with offset := c1.offset + curlen }
            (if argoff < L.arg_capacity then
              { pe with
                args := pe.args.set argid
                  (copy_bytes (pe.args.getD argid []) argoff (ring_slot h idx kk).data c1.offset
                    (min curlen (L.arg_capacity - argoff))) }
             else pe)) ∧
    (∀ (ctx : argument_context) (pe : spdk_trace_parser_entry),
      arg.size = 0 → deref hs ctx.entry = some entry →
      build_arg L hs ctx arg argid pe = some (true, ctx, pe)) := by
  have hloop : ∀ (fuel argoff : Nat) (ctx : argument_context) (pe : spdk_trace_parser_entry)
      (k : Nat), arg.size - argoff ≤ fuel → ctx.lcore = lcore →
      ctx.buffer = ⟨lcore, (idx + k) % h.entries.length⟩ → ctx.offset ≤ L.data_size →
      ∃ ok ctx1 pe1, build_arg_loop L hs entry.tsc arg.size argid fuel argoff ctx pe =
          some (ok, ctx1, pe1) ∧ ctx1.offset ≤ L.data_size := by
    intro fuel argoff ctx pe k hf hl hb ho
    obtain ⟨hS, hF⟩ := build_arg_loop_run L hs lcore h idx entry.tsc arg.size argid hh hN hD
      fuel argoff ctx pe k hf hl hb ho
    by_cases hbad : ∃ j, k < j ∧
        j * L.data_size < k * L.data_size + ctx.offset + (arg.size - argoff) ∧
        ¬ spill_ok L h idx entry.tsc j
    · obtain ⟨ctx1, pe1, r1, r2⟩ := hF hbad
      exact ⟨false, ctx1, pe1, r1, r2⟩
    · obtain ⟨ctx1, pe1, k1, r1, _, _, _, r5, _⟩ := hS (by
        intro j hkj hj
        by_contra hc
        exact hbad ⟨j, hkj, hj, hc⟩)
      exact ⟨true, ctx1, pe1, r1, r5⟩
  refine ⟨hloop, ?_, ?_, ?_⟩
  · intro ctx pe k hl hb ho he
    simp only [build_arg, he]
    exact hloop arg.size 0 ctx pe k (by omega) hl hb ho
  · intro fuel argoff ctx pe k hlt hl hb ho
    rcases build_arg_loop_round L hs lcore h idx entry.tsc arg.size argid hh hN hD fuel argoff
      ctx pe k hlt hl hb ho with ⟨_, _, hres⟩ | ⟨c1, kk, _, _, hb1, ho1, _, _, _, _, hres⟩
    · exact Or.inl hres
    · right
      refine ⟨c1, kk, min (L.data_size - c1.offset) (arg.size - argoff), hb1, ?_, rfl, ho1,
        by omega, by omega, by omega, by omega, by omega, hres⟩
      rw [hb1]
      exact deref_ring hs lcore h idx kk hh hN
  · intro ctx pe hz he
    simp only [build_arg, he]
    exact build_arg_loop_done L hs entry.tsc arg.size argid arg.size 0 ctx pe (by omega)

/-- The first argument of `payload_event`, of 12 bytes, is built in the
ring of `payload` from the inline offset 14 of a payload of 22 bytes. -/
theorem build_arg_cursor_bounded_witness :
    ∃ ok ctx1 pe1, build_arg example_layout payload
        (argument_context.init example_layout ⟨0, 0⟩ 0) ⟨12⟩ 0 blank_entry =
          some (ok, ctx1, pe1) ∧ ctx1.offset ≤ example_layout.data_size :=
  (build_arg_cursor_bounded example_layout payload 0
    ⟨0, [payload_event, payload_spill, ⟨7, 20, 0, List.range 22⟩, zero_entry]⟩ 0 payload_event
    ⟨12⟩ 0 rfl (by decide) (by decide)).2.1
    (argument_context.init example_layout ⟨0, 0⟩ 0) blank_entry 0 rfl rfl (by decide) rfl

theorem total_size_cons (arg : spdk_trace_argument) (rest : List spdk_trace_argument) :
    total_size (arg :: rest) = arg.size + total_size rest := by
  simp [total_size]

theorem stream_byte_eq (L : Layout) (h : spdk_trace_history) (idx pos : Nat)
    (hD : 0 < L.data_size) (ha : L.args_offset ≤ L.data_size) :
    stream_byte L h idx pos = virtual_byte L h idx (L.args_offset + pos) := by
  simp only [stream_byte, inline_capacity]
  by_cases hc : pos < L.data_size - L.args_offset
  · rw [if_pos hc]
    have := virtual_byte_at L h idx 0 (L.args_offset + pos) (by omega)
    rw [Nat.zero_mul, Nat.zero_add] at this
    rw [this]
  · rw [if_neg hc]
    have h1 := virtual_byte_at L h idx (1 + (pos - (L.data_size - L.args_offset)) / L.data_size)
      ((pos - (L.data_size - L.args_offset)) % L.data_size) (Nat.mod_lt _ hD)
    have h2 := Nat.div_add_mod (pos - (L.data_size - L.args_offset)) L.data_size
    have h3 : (1 + (pos - (L.data_size - L.args_offset)) / L.data_size) * L.data_size +
        (pos - (L.data_size - L.args_offset)) % L.data_size = L.args_offset + pos := by
      rw [Nat.add_mul, Nat.one_mul, Nat.mul_comm]
      omega
    rw [h3] at h1
    rw [h1]

/-- The slots the argument loop enters are the `spill_count` slots after
the event. -/
theorem spill_range (L : Layout) (T j : Nat) (hD : 0 < L.data_size)
    (ha : L.args_offset ≤ L.data_size) :
    (0 < j ∧ j * L.data_size < 0 * L.data_size + L.args_offset + T) ↔
      (1 ≤ j ∧ j ≤ spill_count L T) := by
  simp only [spill_count, inline_capacity, Nat.zero_mul, Nat.zero_add]
  by_cases hc : T ≤ L.data_size - L.args_offset
  · rw [if_pos hc]
    constructor
    · rintro ⟨h1, h2⟩
      have : 1 * L.data_size ≤ j * L.data_size := Nat.mul_le_mul_right _ h1
      omega
    · rintro ⟨h1, h2⟩
      omega
  · rw [if_neg hc, Nat.le_div_iff_mul_le hD]
    constructor
    · rintro ⟨h1, h2⟩
      exact ⟨h1, by omega⟩
    · rintro ⟨h1, h2⟩
      exact ⟨h1, by omega⟩

theorem build_args_low (L : Layout) (hs : spdk_trace_histories)
    (args : List spdk_trace_argument) (i : Nat)
    (argctx argctx1 : argument_context) (pe pe1 : spdk_trace_parser_entry) (ok : Bool)
    (h : build_args L hs args i argctx pe = some (ok, argctx1, pe1)) :
    ∀ a j, a < i → arg_byte pe1 a j = arg_byte pe a j := by
  induction args generalizing i argctx pe with
  | nil =>
    simp only [build_args, Option.some.injEq, Prod.mk.injEq] at h
    rw [← h.2.2]
    exact fun _ _ _ => rfl
  | cons arg rest ih =>
    simp only [build_args] at h
    split at h
    · simp at h
    · rename_i c2 p2 heq
      simp only [Option.some.injEq, Prod.mk.injEq] at h
      rw [← h.2.2]
      unfold build_arg at heq
      split at heq
      · simp at heq
      · intro a j ha
        exact (build_arg_loop_writes _ _ _ _ _ _ _ _ _ _ _ _ heq).2 a j (Or.inl (by omega))
    · rename_i c2 p2 heq
      have h1 := ih _ _ _ h
      unfold build_arg at heq
      split at heq
      · simp at heq
      · intro a j ha
        rw [h1 a j (by omega)]
        exact (build_arg_loop_writes _ _ _ _ _ _ _ _ _ _ _ _ heq).2 a j (Or.inl (by omega))

/-- The argument loop of `next_entry` on a ring, from the argument `i` on,
with the cursor in the slot `k` places after the event: it returns; it
returns true exactly when every slot it has to enter is a continuation of
the event; and then the bytes written to the slot of each argument are the
bytes the cursor passed for it. -/
theorem build_args_run (L : Layout) (hs : spdk_trace_histories) (lcore : Nat)
    (h : spdk_trace_history) (idx : Nat) (entry : spdk_trace_entry)
    (hh : hs.per_lcore[lcore]? = some h) (hN : 0 < h.entries.length) (hD : 0 < L.data_size) :
    ∀ (args : List spdk_trace_argument) (i : Nat) (ctx : argument_context)
      (pe : spdk_trace_parser_entry) (k : Nat),
      ctx.lcore = lcore → ctx.buffer = ⟨lcore, (idx + k) % h.entries.length⟩ →
      ctx.offset ≤ L.data_size → deref hs ctx.entry = some entry →
      ((∀ j, k < j → j * L.data_size < k * L.data_size + ctx.offset + total_size args →
          spill_ok L h idx entry.tsc j) →
        ∃ (ctx1 : argument_context) (pe1 : spdk_trace_parser_entry),
          build_args L hs args i ctx pe = some (true, ctx1, pe1) ∧
          ∀ (a : Nat) (arg : spdk_trace_argument), args[a]? = some arg →
            ∀ j, j < min arg.size L.arg_capacity →
              arg_byte pe1 (i + a) j = (arg_byte pe (i + a) j).map fun _ =>
                virtual_byte L h idx
                  (k * L.data_size + ctx.offset + total_size (args.take a) + j)) ∧
      ((∃ j, k < j ∧ j * L.data_size < k * L.data_size + ctx.offset + total_size args ∧
          ¬ spill_ok L h idx entry.tsc j) →
        ∃ (ctx1 : argument_context) (pe1 : spdk_trace_parser_entry),
          build_args L hs args i ctx pe = some (false, ctx1, pe1)) := by
  intro args
  induction args with
  | nil =>
    intro i ctx pe k hl hb ho he
    constructor
    · intro _
      refine ⟨ctx, pe, rfl, ?_⟩
      intro a arg ha
      simp at ha
    · rintro ⟨j, hkj, hj, _⟩
      have h1 : (k + 1) * L.data_size ≤ j * L.data_size := Nat.mul_le_mul_right _ hkj
      rw [Nat.succ_mul] at h1
      simp only [total_size, List.map_nil, List.sum_nil] at hj
      omega
  | cons arg rest ih =>
    intro i ctx pe k hl hb ho he
    obtain ⟨hS, hF⟩ := build_arg_loop_run L hs lcore h idx entry.tsc arg.size i hh hN hD
      arg.size 0 ctx pe k (by omega) hl hb ho
    rw [total_size_cons]
    simp only [Nat.sub_zero] at hS hF
    by_cases hbad : ∃ j, k < j ∧
        j * L.data_size < k * L.data_size + ctx.offset + arg.size ∧
        ¬ spill_ok L h idx entry.tsc j
    · obtain ⟨ctx1, pe1, r1, _⟩ := hF hbad
      have hres : build_args L hs (arg :: rest) i ctx pe = some (false, ctx1, pe1) := by
        simp only [build_args, build_arg, he, r1]
      constructor
      · intro hall
        exfalso
        obtain ⟨j, hkj, hj, hbadj⟩ := hbad
        exact hbadj (hall j hkj (by omega))
      · intro _
        exact ⟨ctx1, pe1, hres⟩
    · obtain ⟨ctx1, pe1, k1, r1, r2, r3, r4, r5, r6, r7, r8, r9, r10⟩ := hS (by
        intro j hkj hj
        by_contra hc
        exact hbad ⟨j, hkj, hj, hc⟩)
      have hres : build_args L hs (arg :: rest) i ctx pe =
          build_args L hs rest (i + 1) ctx1 pe1 := by
        simp only [build_args, build_arg, he, r1]
      obtain ⟨ihS, ihF⟩ := ih (i + 1) ctx1 pe1 k1 r2 r4 r5 (by rw [r3]; exact he)
      constructor
      · intro hall
        obtain ⟨ctx2, pe2, s1, s2⟩ := ihS (by
          intro j hkj hj
          exact hall j (by omega) (by omega))
        refine ⟨ctx2, pe2, hres.trans s1, ?_⟩
        intro a x hax j hj
        cases a with
        | zero =>
          simp only [List.getElem?_cons_zero, Option.some.injEq] at hax
          subst hax
          rw [build_args_low L hs rest (i + 1) ctx1 ctx2 pe1 pe2 true s1 (i + 0) j (by omega)]
          have := r10 j (Nat.zero_le j) hj
          simp only [Nat.sub_zero] at this
          simp only [Nat.add_zero, List.take_zero, total_size, List.map_nil, List.sum_nil]
          exact this
        | succ a =>
          simp only [List.getElem?_cons_succ] at hax
          have h1 := s2 a x hax j hj
          have h2 : i + (a + 1) = i + 1 + a := by omega
          rw [h2, h1]
          have h3 := (build_arg_loop_writes L hs entry.tsc arg.size i arg.size 0 ctx ctx1 pe pe1
            true r1).2 (i + 1 + a) j (Or.inl (by omega))
          rw [h3]
          have h4 : k1 * L.data_size + ctx1.offset + total_size (List.take a rest) + j =
              k * L.data_size + ctx.offset + total_size (List.take (a + 1) (arg :: rest)) + j := by
            rw [List.take_succ_cons, total_size_cons]
            omega
          rw [h4]
      · rintro ⟨j, hkj, hj, hbadj⟩
        have hj2 : k * L.data_size + ctx.offset + arg.size ≤ j * L.data_size := by
          by_contra hc
          exact hbad ⟨j, hkj, by omega, hbadj⟩
        have hk1 : k1 < j := by
          by_cases hz : arg.size = 0
          · have := r9 (by omega)
            omega
          · have hpos := r8 (by omega)
            by_contra hc
            have h1 : j * L.data_size ≤ k1 * L.data_size :=
              Nat.mul_le_mul_right _ (Nat.le_of_not_lt hc)
            omega
        obtain ⟨ctx2, pe2, s1⟩ := ihF ⟨j, hk1, by omega, hbadj⟩
        exact ⟨ctx2, pe2, hres.trans s1⟩

theorem lookup_object_args (L : Layout) (tp : spdk_trace_tpoint) (entry : spdk_trace_entry)
    (st : object_stats) (pe : spdk_trace_parser_entry) :
    (lookup_object L tp entry st pe).2.args = pe.args := by
  unfold lookup_object
  split
  · split <;> rfl
  · rfl

/-- The call of `next_entry` with the cursor on an event returns what its
argument loop returns, run on a record with the argument slots of the
record passed in. -/
theorem next_entry_build (L : Layout) (p : parser_state) (pe : spdk_trace_parser_entry)
    (key : entry_key) (ptr : entry_ptr) (entry : spdk_trace_entry)
    (hk : p.entries[p.iter]? = some (key, ptr)) (hd : deref p.histories ptr = some entry) :
    ∃ pe0 : spdk_trace_parser_entry, pe0.args = pe.args ∧
      (∀ c1 pe1, build_args L p.histories (p.histories.flags.tpoint entry.tpoint_id).args 0
          (argument_context.init L ptr key.lcore) pe0 = some (true, c1, pe1) →
        ∃ p1, next_entry L p pe = some (true, p1, pe1)) ∧
      (∀ c1 pe1, build_args L p.histories (p.histories.flags.tpoint entry.tpoint_id).args 0
          (argument_context.init L ptr key.lcore) pe0 = some (false, c1, pe1) →
        ∃ p1, next_entry L p pe = some (false, p1, pe1)) := by
  refine ⟨(lookup_object L (p.histories.flags.tpoint entry.tpoint_id) entry
      (track_new_object (p.histories.flags.tpoint entry.tpoint_id) entry
        (p.stats (p.histories.flags.tpoint entry.tpoint_id).object_type))
      { pe with lcore := key.lcore, entry := ptr }).2, ?_, ?_, ?_⟩
  · rw [lookup_object_args]
  · intro c1 pe1 hb
    simp only [next_entry, hk, hd, hb]
    exact ⟨_, rfl⟩
  · intro c1 pe1 hb
    simp only [next_entry, hk, hd, hb]
    exact ⟨_, rfl⟩

/-- The argument loop of `next_entry` for the event under the cursor, in
the words of the ring: whether it succeeds is decided by the `spill_count`
slots after the event, and on success the slots hold the stream bytes. -/
theorem next_entry_run (L : Layout) (p : parser_state) (pe : spdk_trace_parser_entry)
    (key : entry_key) (ptr : entry_ptr) (entry : spdk_trace_entry) (h : spdk_trace_history)
    (hk : p.entries[p.iter]? = some (key, ptr)) (hd : deref p.histories ptr = some entry)
    (hh : p.histories.per_lcore[key.lcore]? = some h) (hp : ptr.hist = key.lcore)
    (hD : 0 < L.data_size) (ha : L.args_offset ≤ L.data_size) :
    ((∀ j, 1 ≤ j → j ≤ spill_count L (total_size (p.histories.flags.tpoint entry.tpoint_id).args) →
        spill_ok L h ptr.idx entry.tsc j) →
      ∃ p1 pe1, next_entry L p pe = some (true, p1, pe1) ∧
        ∀ (a : Nat) (arg : spdk_trace_argument),
          (p.histories.flags.tpoint entry.tpoint_id).args[a]? = some arg →
          ∀ j, j < min arg.size L.arg_capacity → j < (pe.args.getD a []).length →
            arg_byte pe1 a j = some (stream_byte L h ptr.idx
              (total_size ((p.histories.flags.tpoint entry.tpoint_id).args.take a) + j))) ∧
    ((∃ j, 1 ≤ j ∧ j ≤ spill_count L (total_size (p.histories.flags.tpoint entry.tpoint_id).args) ∧
        ¬ spill_ok L h ptr.idx entry.tsc j) →
      ∃ p1 pe1, next_entry L p pe = some (false, p1, pe1)) := by
  have hidx : ptr.idx < h.entries.length := by
    simp only [deref, hp, hh] at hd
    by_contra hc
    rw [List.getElem?_eq_none (Nat.le_of_not_lt hc)] at hd
    simp at hd
  have hN : 0 < h.entries.length := by omega
  obtain ⟨pe0, hargs, hT, hF⟩ := next_entry_build L p pe key ptr entry hk hd
  have hbuf : (argument_context.init L ptr key.lcore).buffer =
      ⟨key.lcore, (ptr.idx + 0) % h.entries.length⟩ := by
    simp only [argument_context.init, Nat.add_zero, Nat.mod_eq_of_lt hidx]
    rw [← hp]
  obtain ⟨bS, bF⟩ := build_args_run L p.histories key.lcore h ptr.idx entry hh hN hD
    (p.histories.flags.tpoint entry.tpoint_id).args 0 (argument_context.init L ptr key.lcore)
    pe0 0 rfl hbuf ha hd
  constructor
  · intro hall
    obtain ⟨c1, pe1, r1, r2⟩ := bS (by
      intro j hkj hj
      have := (spill_range L _ j hD ha).mp ⟨hkj, hj⟩
      exact hall j this.1 this.2)
    obtain ⟨p1, hres⟩ := hT c1 pe1 r1
    refine ⟨p1, pe1, hres, ?_⟩
    intro a arg harg j hj hlen
    have h1 := r2 a arg harg j hj
    rw [Nat.zero_add] at h1
    have h2 : arg_byte pe0 a j = some ((pe.args.getD a [])[j]) := by
      simp only [arg_byte, hargs]
      exact List.getElem?_eq_getElem hlen
    rw [h1, h2, Option.map_some', stream_byte_eq L h ptr.idx _ hD ha]
    simp only [argument_context.init, Nat.zero_mul, Nat.zero_add, Nat.add_assoc]
  · rintro ⟨j, hj1, hj2, hbad⟩
    have := (spill_range L _ j hD ha).mpr ⟨hj1, hj2⟩
    obtain ⟨c1, pe1, r1⟩ := bF ⟨j, this.1, this.2, hbad⟩
    obtain ⟨p1, hres⟩ := hF c1 pe1 r1
    exact ⟨p1, pe1, hres⟩

/-- C11: for the event under the cursor, in a ring of the file, with
argument sizes `s_0, ..., s_{n-1}`: whenever `next_entry` returns true,
byte `j` of the output slot `a`, for `j < min s_a arg_capacity` inside the
slot, is the byte at position `s_0 + ... + s_{a-1} + j` of the logical byte
stream of the event (its inline args region followed by the data regions
of the successive ring slots, wrapping at the capacity).  The position
counts the full sizes of the earlier arguments, so an argument cut to its
slot still consumes all its bytes. -/
theorem arguments_are_stream_bytes (L : Layout) (p : parser_state)
    (pe : spdk_trace_parser_entry) (key : entry_key) (ptr : entry_ptr)
    (entry : spdk_trace_entry) (h : spdk_trace_history)
    (p1 : parser_state) (pe1 : spdk_trace_parser_entry)
    (hk : p.entries[p.iter]? = some (key, ptr)) (hd : deref p.histories ptr = some entry)
    (hh : p.histories.per_lcore[key.lcore]? = some h) (hp : ptr.hist = key.lcore)
    (hD : 0 < L.data_size) (ha : L.args_offset ≤ L.data_size)
    (hres : next_entry L p pe = some (true, p1, pe1)) :
    ∀ (a : Nat) (arg : spdk_trace_argument),
      (p.histories.flags.tpoint entry.tpoint_id).args[a]? = some arg →
      ∀ j, j < min arg.size L.arg_capacity → j < (pe.args.getD a []).length →
        arg_byte pe1 a j = some (stream_byte L h ptr.idx
          (total_size ((p.histories.flags.tpoint entry.tpoint_id).args.take a) + j)) := by
  obtain ⟨hS, hF⟩ := next_entry_run L p pe key ptr entry h hk hd hh hp hD ha
  by_cases hall : ∀ j, 1 ≤ j →
      j ≤ spill_count L (total_size (p.histories.flags.tpoint entry.tpoint_id).args) →
      spill_ok L h ptr.idx entry.tsc j
  · obtain ⟨p2, pe2, r1, r2⟩ := hS hall
    rw [hres] at r1
    simp only [Option.some.injEq, Prod.mk.injEq, true_and] at r1
    rw [r1.2]
    exact r2
  · exfalso
    have hbad : ∃ j, 1 ≤ j ∧
        j ≤ spill_count L (total_size (p.histories.flags.tpoint entry.tpoint_id).args) ∧
        ¬ spill_ok L h ptr.idx entry.tsc j := by
      by_contra hc
      apply hall
      intro j h1 h2
      by_contra h3
      exact hc ⟨j, h1, h2, h3⟩
    obtain ⟨p2, pe2, r1⟩ := hF hbad
    rw [hres] at r1
    simp at r1

/-- The event of `payload` with arguments of 12 and 4 bytes and slots of 8
bytes: the first slot holds the stream bytes 0 to 7, the inline bytes 14
to 21 of the event, and the second slot starts with the stream bytes 12 to
15, the bytes 104 to 107 of the continuation slot. -/
theorem arguments_are_stream_bytes_witness :
    ∃ p1 pe1, next_entry example_layout payload_state blank_entry = some (true, p1, pe1) ∧
      pe1.args.take 2 = [[14, 15, 16, 17, 18, 19, 20, 21], [104, 105, 106, 107, 0, 0, 0, 0]] ∧
      arg_byte pe1 1 3 = some (stream_byte example_layout
        ⟨0, [payload_event, payload_spill, ⟨7, 20, 0, List.range 22⟩, zero_entry]⟩ 0 (12 + 3)) := by
  have h1 : (next_entry example_layout payload_state blank_entry).map
      (fun r => (r.1, r.2.2.args.take 2)) =
        some (true, [[14, 15, 16, 17, 18, 19, 20, 21], [104, 105, 106, 107, 0, 0, 0, 0]]) := by
    decide
  cases hcall : next_entry example_layout payload_state blank_entry with
  | none => rw [hcall] at h1; simp at h1
  | some r =>
    obtain ⟨ok, p1, pe1⟩ := r
    rw [hcall] at h1
    simp only [Option.map_some', Option.some.injEq, Prod.mk.injEq] at h1
    obtain ⟨rfl, h2⟩ := h1
    exact ⟨p1, pe1, rfl, h2,
      arguments_are_stream_bytes example_layout payload_state blank_entry ⟨0, 10⟩ ⟨0, 0⟩
        payload_event ⟨0, [payload_event, payload_spill, ⟨7, 20, 0, List.range 22⟩, zero_entry]⟩
        p1 pe1 rfl rfl rfl rfl (by decide) (by decide) hcall 1 ⟨4⟩ rfl 3 (by decide) (by decide)⟩

/-- C12: for the event under the cursor, in a ring of the file, with
arguments of total size `T`, inline capacity `C = data_size - args_offset`
and payload size `D = data_size`, let `k = spill_count`, zero if `T ≤ C`
and `(T - C) / D` rounded up otherwise.  The call of `next_entry` returns
true if and only if each of the `k` ring slots after the event, wrapping at
the capacity, has the sentinel tracepoint id and the time stamp of the
event, and it returns false if and only if one of them has not: no other
slot decides the result. -/
theorem reassembly_succeeds_iff (L : Layout) (p : parser_state)
    (pe : spdk_trace_parser_entry) (key : entry_key) (ptr : entry_ptr)
    (entry : spdk_trace_entry) (h : spdk_trace_history)
    (hk : p.entries[p.iter]? = some (key, ptr)) (hd : deref p.histories ptr = some entry)
    (hh : p.histories.per_lcore[key.lcore]? = some h) (hp : ptr.hist = key.lcore)
    (hD : 0 < L.data_size) (ha : L.args_offset ≤ L.data_size) :
    ((∃ p1 pe1, next_entry L p pe = some (true, p1, pe1)) ↔
      ∀ j, 1 ≤ j →
        j ≤ spill_count L (total_size (p.histories.flags.tpoint entry.tpoint_id).args) →
        spill_ok L h ptr.idx entry.tsc j) ∧
    ((∃ p1 pe1, next_entry L p pe = some (false, p1, pe1)) ↔
      ∃ j, 1 ≤ j ∧
        j ≤ spill_count L (total_size (p.histories.flags.tpoint entry.tpoint_id).args) ∧
        ¬ spill_ok L h ptr.idx entry.tsc j) := by
  obtain ⟨hS, hF⟩ := next_entry_run L p pe key ptr entry h hk hd hh hp hD ha
  have hcases : (∀ j, 1 ≤ j →
      j ≤ spill_count L (total_size (p.histories.flags.tpoint entry.tpoint_id).args) →
      spill_ok L h ptr.idx entry.tsc j) ∨
      ∃ j, 1 ≤ j ∧
        j ≤ spill_count L (total_size (p.histories.flags.tpoint entry.tpoint_id).args) ∧
        ¬ spill_ok L h ptr.idx entry.tsc j := by
    by_cases hc : ∃ j, 1 ≤ j ∧
        j ≤ spill_count L (total_size (p.histories.flags.tpoint entry.tpoint_id).args) ∧
        ¬ spill_ok L h ptr.idx entry.tsc j
    · exact Or.inr hc
    · left
      intro j h1 h2
      by_contra h3
      exact hc ⟨j, h1, h2, h3⟩
  constructor
  · constructor
    · rintro ⟨p1, pe1, hres⟩
      rcases hcases with hall | hbad
      · exact hall
      · exfalso
        obtain ⟨p2, pe2, r1⟩ := hF hbad
        rw [hres] at r1
        simp at r1
    · intro hall
      obtain ⟨p1, pe1, r1, _⟩ := hS hall
      exact ⟨p1, pe1, r1⟩
  · constructor
    · rintro ⟨p1, pe1, hres⟩
      rcases hcases with hall | hbad
      · exfalso
        obtain ⟨p2, pe2, r1, _⟩ := hS hall
        rw [hres] at r1
        simp at r1
      · exact hbad
    · exact hF

/-- The second event of `payload` has 8 bytes of arguments, which end with
its own slot: no slot is examined, and the call returns true although the
next slot is a slot that was never written. -/
theorem reassembly_succeeds_iff_witness :
    spill_count example_layout (total_size (payload.flags.tpoint 7).args) = 0 ∧
    ¬ spill_ok example_layout
      ⟨0, [payload_event, payload_spill, ⟨7, 20, 0, List.range 22⟩, zero_entry]⟩ 2 20 1 ∧
    ∃ p1 pe1, next_entry example_layout { payload_state with iter := 1 } blank_entry =
      some (true, p1, pe1) :=
  ⟨by decide, by decide,
    (reassembly_succeeds_iff example_layout { payload_state with iter := 1 } blank_entry
      ⟨0, 20⟩ ⟨0, 2⟩ ⟨7, 20, 0, List.range 22⟩
      ⟨0, [payload_event, payload_spill, ⟨7, 20, 0, List.range 22⟩, zero_entry]⟩
      rfl rfl rfl rfl (by decide) (by decide)).1.mpr (by
        intro j h1 h2
        have h3 : spill_count example_layout
            (total_size (payload.flags.tpoint (7 : Nat)).args) = 0 := by decide
        exfalso
        have h4 : j ≤ 0 := h3 ▸ h2
        omega)⟩

/-- C6, the code at the failing input: the ring is what the producer leaves
after the writes of `wrapped_tie_writes`; it is full, both slots hold the
largest time stamp, so the highest index among them is 1, and it has one
live slot, the event in slot 1.  `populate_events` ends with `first = 0`
and `last = 0`, visits the slot 0 only and stores nothing: `init` leaves an
empty map and `next_entry` yields no event.  With `last = 1`, the highest
index, the insertion loop visits the slots 0 and 1 and stores the event,
which `next_entry` then yields. -/
theorem full_ring_tie_drops_event :
    wrapped_tie_history.entries =
      producer_write 2 wrapped_tie_writes 0 (List.replicate 2 zero_entry) ∧
    (∀ s ∈ wrapped_tie_history.entries, s.tsc ≠ 0) ∧
    (∀ i, i < 2 → (slot_at wrapped_tie_history.entries i).tsc ≤
      (slot_at wrapped_tie_history.entries 1).tsc) ∧
    live_slots example_layout wrapped_tie_history.entries = 1 ∧
    (populate_events_traced example_layout
      (fresh_state ⟨spilling_flags, [wrapped_tie_history]⟩) 0 wrapped_tie_history 2).map
        Prod.snd = some ⟨2, 0, 0, [0]⟩ ∧
    (init example_layout ⟨spilling_flags, [wrapped_tie_history]⟩ none).map
      (fun p => p.entries) = some [] ∧
    (init example_layout ⟨spilling_flags, [wrapped_tie_history]⟩ none).map
      (fun p => (next_entries example_layout 2 p blank_entry).1.length) = some 0 ∧
    insert_loop example_layout 0 0 wrapped_tie_history.entries 1 2 2 0 [] =
      some ([(⟨0, 5⟩, ⟨0, 1⟩)], [0, 1]) ∧
    (next_entries example_layout 2
      { fresh_state ⟨spilling_flags, [wrapped_tie_history]⟩ with
        entries := [(⟨0, 5⟩, ⟨0, 1⟩)] } blank_entry).1.map (fun pe => pe.entry) =
      [⟨0, 1⟩] := by
  refine ⟨by decide, by decide, by decide, by decide, by decide, by decide, by decide,
    by decide, by decide⟩

/-- After the insertion steps of the slots `vis`, a time stamp that a
visited, not reserved slot carries is found in the map under its key, with
a pointer to a slot of that kind. -/
theorem foldl_insert_slot_stored (L : Layout) (lcore hist : Nat) (e : List spdk_trace_entry)
    (t : Nat) (Q : Nat → Prop) :
    ∀ (vis : List Nat) (m : entry_map), (∀ i ∈ vis, Q i) →
      ((∃ i, map_find compare_entry_key ⟨lcore % 2 ^ 16, t⟩ m = some ⟨hist, i⟩ ∧
          (slot_at e i).tsc = t ∧ (slot_at e i).tpoint_id ≠ L.SPDK_TRACE_MAX_TPOINT_ID ∧ Q i) ∨
        ∃ j ∈ vis, (slot_at e j).tsc = t ∧
          (slot_at e j).tpoint_id ≠ L.SPDK_TRACE_MAX_TPOINT_ID) →
      ∃ i, map_find compare_entry_key ⟨lcore % 2 ^ 16, t⟩
          (vis.foldl (insert_slot L lcore hist e) m) = some ⟨hist, i⟩ ∧
        (slot_at e i).tsc = t ∧ (slot_at e i).tpoint_id ≠ L.SPDK_TRACE_MAX_TPOINT_ID ∧ Q i := by
  intro vis
  induction vis with
  | nil =>
    intro m _ h
    rcases h with h | ⟨j, hj, _⟩
    · exact h
    · simp at hj
  | cons a rest ih =>
    intro m hQ h
    rw [List.foldl_cons]
    apply ih _ (fun i hi => hQ i (List.mem_cons_of_mem _ hi))
    by_cases hs : (slot_at e a).tpoint_id ≠ L.SPDK_TRACE_MAX_TPOINT_ID
    · by_cases ht : (slot_at e a).tsc = t
      · left
        refine ⟨a, ?_, ht, hs, hQ a (List.mem_cons_self _ _)⟩
        simp only [insert_slot, if_pos hs, ht]
        exact map_find_assign_self _ compare_entry_key_irrefl _ _ _
      · have hne : (⟨lcore % 2 ^ 16, t⟩ : entry_key) ≠ ⟨lcore % 2 ^ 16, (slot_at e a).tsc⟩ := by
          intro hc
          exact ht (congrArg entry_key.tsc hc).symm
        have hfind : map_find compare_entry_key ⟨lcore % 2 ^ 16, t⟩
            (insert_slot L lcore hist e m a) =
            map_find compare_entry_key ⟨lcore % 2 ^ 16, t⟩ m := by
          simp only [insert_slot, if_pos hs]
          exact map_find_assign_other _ compare_entry_key_equiv _ _ _ _ hne
        rcases h with ⟨i, h1, h2⟩ | ⟨j, hj, h1, h2⟩
        · exact Or.inl ⟨i, hfind.trans h1, h2⟩
        · rcases List.mem_cons.1 hj with hja | hjr
          · exact absurd (hja ▸ h1) ht
          · exact Or.inr ⟨j, hjr, h1, h2⟩
    · have hm : insert_slot L lcore hist e m a = m := by
        simp only [insert_slot, if_neg hs]
      rw [hm]
      rcases h with h | ⟨j, hj, h1, h2⟩
      · exact Or.inl h
      · rcases List.mem_cons.1 hj with hja | hjr
        · exact absurd (hja ▸ h2) hs
        · exact Or.inr ⟨j, hjr, h1, h2⟩

/-- C5 (amended): a ring of capacity N whose slot 0 has a nonzero time
stamp and whose last slot has a zero time stamp, M being the number of
slots left once the trailing slots with time stamp zero are removed: then
1 ≤ M < N, `populate_events` comes to an end with `first = 0` and
`last = M - 1` and visits exactly the slots 0, ..., M - 1, once each and in
index order; every visited slot that is not a continuation slot is found in
the map under its key, and the map holds nothing but the old pairs and such
slots.  For M = 1: `first = last = 0`; if the one filled slot is a
continuation slot the map stays as it was; if it is not, an empty map
becomes the map of that one event, and `next_entry` yields exactly that one
event, whatever the number of calls, provided its argument reassembly
succeeds. -/
theorem unwrapped_ring_stores_events (L : Layout) (p : parser_state) (hist : Nat)
    (h : spdk_trace_history)
    (h0 : (slot_at h.entries 0).tsc ≠ 0)
    (hz : (slot_at h.entries (h.entries.length - 1)).tsc = 0) :
    ∃ (M : Nat) (p1 : parser_state),
      M = (h.entries.reverse.dropWhile fun s => decide (s.tsc = 0)).length ∧
      1 ≤ M ∧ M < h.entries.length ∧
      populate_events_traced L p hist h h.entries.length =
        some (p1, ⟨M, 0, M - 1, List.range M⟩) ∧
      p1.histories = p.histories ∧ p1.iter = p.iter ∧
      p1.tsc_offset = max (slot_at h.entries 0).tsc p.tsc_offset ∧
      (∀ j, j < M → (slot_at h.entries j).tpoint_id ≠ L.SPDK_TRACE_MAX_TPOINT_ID →
        ∃ i, i < M ∧ (slot_at h.entries i).tsc = (slot_at h.entries j).tsc ∧
          (slot_at h.entries i).tpoint_id ≠ L.SPDK_TRACE_MAX_TPOINT_ID ∧
          map_find compare_entry_key ⟨h.lcore % 2 ^ 16, (slot_at h.entries j).tsc⟩ p1.entries =
            some ⟨hist, i⟩) ∧
      (∀ kv ∈ p1.entries, kv ∈ p.entries ∨
        (kv.2.hist = hist ∧ kv.2.idx < M ∧
          (slot_at h.entries kv.2.idx).tpoint_id ≠ L.SPDK_TRACE_MAX_TPOINT_ID)) ∧
      (M = 1 → (slot_at h.entries 0).tpoint_id = L.SPDK_TRACE_MAX_TPOINT_ID →
        p1.entries = p.entries) ∧
      (M = 1 → (slot_at h.entries 0).tpoint_id ≠ L.SPDK_TRACE_MAX_TPOINT_ID → p.entries = [] →
        p1.entries = [(⟨h.lcore % 2 ^ 16, (slot_at h.entries 0).tsc⟩, ⟨hist, 0⟩)] ∧
        (p.iter = 0 → p.histories.per_lcore[hist]? = some h →
          reassembly L p.histories
            (p.histories.flags.tpoint (slot_at h.entries 0).tpoint_id).args ⟨hist, 0⟩
            (h.lcore % 2 ^ 16) = some true →
          ∀ (n : Nat) (pe : spdk_trace_parser_entry), ∃ pe1,
            (next_entries L (n + 1) p1 pe).1 = [pe1] ∧ pe1.lcore = h.lcore % 2 ^ 16 ∧
              pe1.entry = ⟨hist, 0⟩)) := by
  obtain ⟨h1, h2, h3⟩ := unwrapped_ring_first_last L p hist h h0 hz
  refine ⟨_, _, rfl, h1, h2, h3, rfl, rfl, rfl, ?_, ?_, ?_, ?_⟩
  · intro j hj hns
    obtain ⟨i, r1, r2, r3, r4⟩ := foldl_insert_slot_stored L h.lcore hist h.entries
      (slot_at h.entries j).tsc
      (fun i => i < (h.entries.reverse.dropWhile
        fun s : spdk_trace_entry => decide (s.tsc = 0)).length)
      (List.range (h.entries.reverse.dropWhile
        fun s : spdk_trace_entry => decide (s.tsc = 0)).length) p.entries
      (fun i hi => List.mem_range.1 hi) (Or.inr ⟨j, List.mem_range.2 hj, rfl, hns⟩)
    exact ⟨i, r4, r2, r3, r1⟩
  · intro kv hkv
    rcases foldl_insert_slot_mem L h.lcore hist h.entries _ p.entries kv hkv with r | ⟨r1, r2, r3⟩
    · exact Or.inl r
    · exact Or.inr ⟨r1, List.mem_range.1 r2, r3⟩
  · intro hM hs
    have hr : List.range 1 = [0] := rfl
    simp only [hM, hr, List.foldl_cons, List.foldl_nil, insert_slot]
    rw [if_neg (fun hc => hc hs)]
  · intro hM hns hnil
    have hmap : (List.range (h.entries.reverse.dropWhile fun s => decide (s.tsc = 0)).length).foldl
        (insert_slot L h.lcore hist h.entries) p.entries =
        [(⟨h.lcore % 2 ^ 16, (slot_at h.entries 0).tsc⟩, ⟨hist, 0⟩)] := by
      have hr : List.range 1 = [0] := rfl
      simp only [hM, hr, List.foldl_cons, List.foldl_nil, insert_slot, hnil]
      rw [if_pos hns]
      rfl
    refine ⟨hmap, ?_⟩
    intro hiter hh hre n pe
    have hpos : 0 < h.entries.length := by omega
    have hd : deref p.histories ⟨hist, 0⟩ = some (slot_at h.entries 0) := by
      simp only [deref, hh]
      exact slot_at_of_lt h.entries 0 hpos
    obtain ⟨_, _, hT⟩ := next_entry_at L
      { p with
        tsc_offset := max (slot_at h.entries 0).tsc p.tsc_offset,
        entries := (List.range (h.entries.reverse.dropWhile
            fun s => decide (s.tsc = 0)).length).foldl
          (insert_slot L h.lcore hist h.entries) p.entries } pe
      ⟨h.lcore % 2 ^ 16, (slot_at h.entries 0).tsc⟩ ⟨hist, 0⟩ (slot_at h.entries 0)
      (by simp only [hmap, hiter]; rfl) hd
    obtain ⟨pe1, hcall⟩ := hT hre
    obtain ⟨key, ptr, entry, hk, _, _, r1, r2, _⟩ := next_entry_true L _ _ pe pe1 hcall
    simp only [hmap, hiter] at hk
    have hk1 : (key, ptr) = ((⟨h.lcore % 2 ^ 16, (slot_at h.entries 0).tsc⟩ : entry_key),
        (⟨hist, 0⟩ : entry_ptr)) := by
      simpa using hk.symm
    simp only [Prod.mk.injEq] at hk1
    refine ⟨pe1, ?_, by rw [r1, hk1.1], by rw [r2, hk1.2]⟩
    simp only [next_entries, hcall]
    cases n with
    | zero => rfl
    | succ n => simp [next_entries, next_entry, hmap, hiter]

/-- C5 fails as stated: the ring of `lone_spill_history` has capacity 4, a
nonzero time stamp in slot 0, a zero time stamp in its last slot and
exactly one filled slot (M = 1); `populate_events` ends with
`first = last = 0` and visits slot 0, but that slot is a continuation slot,
nothing is stored and no event is yielded. -/
theorem lone_spill_slot_yields_nothing :
    ¬ ((slot_at lone_spill_history.entries 0).tsc ≠ 0 →
      (slot_at lone_spill_history.entries (lone_spill_history.entries.length - 1)).tsc = 0 →
      (lone_spill_history.entries.reverse.dropWhile fun s => decide (s.tsc = 0)).length = 1 →
      (populate_events_traced example_layout (fresh_state (single_core lone_spill_history)) 0
        lone_spill_history 4).map Prod.snd = some ⟨1, 0, 0, [0]⟩ ∧
      ∃ p, init example_layout (single_core lone_spill_history) none = some p ∧
        (next_entries example_layout 4 p blank_entry).1.length = 1) := by
  intro H
  obtain ⟨_, p, hp, hlen⟩ := H (by decide) (by decide) (by decide)
  have h2 : (init example_layout (single_core lone_spill_history) none).map
      (fun p => (next_entries example_layout 4 p blank_entry).1.length) = some 0 := by
    decide
  rw [hp] at h2
  simp only [Option.map_some', Option.some.injEq] at h2
  omega

/-- Four slots of which the first holds an event of time 10:
`first = last = 0`, the map holds that event and four calls of `next_entry`
yield exactly that event. -/
theorem unwrapped_ring_stores_events_witness :
    (slot_at lone_event_history.entries 0).tsc ≠ 0 ∧
    (slot_at lone_event_history.entries (lone_event_history.entries.length - 1)).tsc = 0 ∧
    ∃ p1, populate_events_traced example_layout (fresh_state (single_core lone_event_history)) 0
        lone_event_history 4 = some (p1, ⟨1, 0, 0, [0]⟩) ∧
      p1.entries = [(⟨0, 10⟩, ⟨0, 0⟩)] ∧
      ∃ pe1, (next_entries example_layout 4 p1 blank_entry).1 = [pe1] ∧
        pe1.entry = ⟨0, 0⟩ := by
  refine ⟨by decide, by decide, ?_⟩
  obtain ⟨M, p1, hM, _, _, hrun, _, _, _, _, _, _, hone⟩ :=
    unwrapped_ring_stores_events example_layout (fresh_state (single_core lone_event_history)) 0
      lone_event_history (by decide) (by decide)
  have hM1 : M = 1 := hM.trans (by decide)
  subst hM1
  obtain ⟨hmap, hy⟩ := hone rfl (by decide) rfl
  obtain ⟨pe1, r1, _, r3⟩ := hy rfl rfl (by decide) 3 blank_entry
  exact ⟨p1, hrun, hmap, pe1, r1, r3⟩

end TraceParse
